import Mathlib

/-!
# BigInt: base-10^9 sign-magnitude integers

A shallow embedding of `src/src/bigint/BigInt.cpp` / `BigInt.h`.

Conventions of the embedding

* `uint32_t` / `uint64_t` values are natural numbers; every place where the C++
  arithmetic is performed in a fixed width carries an explicit reduction
  (`u32`, `u64`, `castU32`).
* `std::vector<uint32_t>` is `List Nat`, least-significant limb first.  An indexed
  read `v[i]` is `v.getD i 0` and an indexed write `v[i] = x` is `v.set i x`; on
  canonical operands every index the code uses is in bounds.
* `for (i = 0; i < n; ++i)` loops are recursive functions whose first numeric
  argument is the number of iterations still to run and whose second one is `i`.
* `while` loops whose number of iterations is not read off a counter take a bound
  on the number of iterations as first argument; the lemmas on each loop show
  that, on the inputs the theorems range over, the loop stops by its own
  condition within the bound its caller passes.
* `throw` is `Except.error`.
* `std::string_view` / `std::string` are `List Char`; `std::isspace` and
  `std::isdigit` are those of the default "C" locale, which classify by the code
  of the character and hold for no character above 127.
-/

set_option autoImplicit false

/-- Exceptions thrown by the library: `std::invalid_argument` and `std::runtime_error`. -/
inductive BigIntError where
  | invalid_argument (what : String)
  | runtime_error (what : String)
  deriving DecidableEq, Repr

/-- Class `BigInt`: `int sign_` (-1, 0 or +1) and `std::vector<uint32_t> limbs_`
(little-endian limbs). -/
structure BigInt where
  sign_ : Int
  limbs_ : List Nat
  deriving DecidableEq, Repr

namespace BigInt

/-- Constant `BASE = 1000000000`. -/
def BASE : Nat := 1000000000

/-- Reduction of a natural number to `uint32_t`. -/
def u32 (x : Nat) : Nat := x % 4294967296

/-- Reduction of a natural number to `uint64_t`. -/
def u64 (x : Nat) : Nat := x % 18446744073709551616

/-- Conversion `static_cast<uint32_t>(d)` of a signed 64-bit value. -/
def castU32 (d : Int) : Nat := (d % 4294967296).toNat

/-- Default constructor `BigInt()`: zero. -/
def zero : BigInt := ⟨0, []⟩

/-- Loop `while (!limbs_.empty() && limbs_.back() == 0) limbs_.pop_back();` of
`normalize`.  The argument is the limb vector reversed (so that `back()` is the head). -/
def popZeros : List Nat → List Nat
  | [] => []
  | x :: xs => if x = 0 then popZeros xs else x :: xs

/-- Method `normalize`: strip most-significant zero limbs, force sign 0 on an empty vector. -/
def normalize (v : BigInt) : BigInt :=
  let limbs := (popZeros v.limbs_.reverse).reverse
  if limbs = [] then ⟨0, limbs⟩ else ⟨v.sign_, limbs⟩

/-- Loop `for (size_t i = a.size(); i-- > 0;)` of `cmpAbs`; the argument is the
value of `i` before the decrement. -/
def cmpAbsLoop (a b : List Nat) : Nat → Int
  | 0 => 0
  | i + 1 =>
    if a.getD i 0 ≠ b.getD i 0 then
      (if a.getD i 0 < b.getD i 0 then -1 else 1)
    else cmpAbsLoop a b i

/-- Function `cmpAbs`: compare lengths first, then limbs from the most significant down. -/
def cmpAbs (a b : BigInt) : Int :=
  if a.limbs_.length ≠ b.limbs_.length then
    (if a.limbs_.length < b.limbs_.length then -1 else 1)
  else cmpAbsLoop a.limbs_ b.limbs_ a.limbs_.length

/-- Loop of `addAbs`: arguments are the iterations left, `i`, `carry` and the
result vector; returns the final vector and carry. -/
def addAbsLoop (a b : List Nat) : Nat → Nat → Nat → List Nat → List Nat × Nat
  | 0, _, carry, res => (res, carry)
  | k + 1, i, carry, res =>
    let sum0 := carry
    let sum1 := if i < a.length then u64 (sum0 + a.getD i 0) else sum0
    let sum2 := if i < b.length then u64 (sum1 + b.getD i 0) else sum1
    addAbsLoop a b k (i + 1) (sum2 / BASE) (res.set i (u32 (sum2 % BASE)))

/-- Function `addAbs`: positional addition with carry. -/
def addAbs (a b : BigInt) : BigInt :=
  let n := max a.limbs_.length b.limbs_.length
  let r := addAbsLoop a.limbs_ b.limbs_ n 0 0 (List.replicate n 0)
  let limbs := if r.2 ≠ 0 then r.1 ++ [u32 r.2] else r.1
  normalize ⟨1, limbs⟩

/-- Loop of `subAbs`: arguments are the iterations left, `i`, `borrow` and the
result vector.  `diff` is an `int64_t`; its magnitude never exceeds 2^33. -/
def subAbsLoop (a b : List Nat) : Nat → Nat → Int → List Nat → List Nat
  | 0, _, _, res => res
  | k + 1, i, borrow, res =>
    let diff0 : Int := (a.getD i 0 : Int) - borrow
    let diff1 : Int := if i < b.length then diff0 - (b.getD i 0 : Int) else diff0
    if diff1 < 0 then
      subAbsLoop a b k (i + 1) 1 (res.set i (castU32 (diff1 + (BASE : Int))))
    else
      subAbsLoop a b k (i + 1) 0 (res.set i (castU32 diff1))

/-- Function `subAbs`: positional subtraction with borrow (assumes |a| >= |b|). -/
def subAbs (a b : BigInt) : BigInt :=
  let n := a.limbs_.length
  normalize ⟨1, subAbsLoop a.limbs_ b.limbs_ n 0 0 (List.replicate n 0)⟩

/-- Inner `for (j ...)` loop of `mulAbs` for a fixed `i`: arguments are the
iterations left, `j`, `carry` and the result vector. -/
def mulAbsInner (a b : List Nat) (i : Nat) : Nat → Nat → Nat → List Nat → List Nat × Nat
  | 0, _, carry, res => (res, carry)
  | k + 1, j, carry, res =>
    let cur := u64 (u64 (res.getD (i + j) 0 + u64 (a.getD i 0 * b.getD j 0)) + carry)
    mulAbsInner a b i k (j + 1) (cur / BASE) (res.set (i + j) (u32 (cur % BASE)))

/-- Loop `while (carry2 != 0)` of `mulAbs`: arguments are a bound on the number of
iterations, `k`, `carry2` and the result vector; returns the final `carry2` and vector. -/
def mulAbsCarry : Nat → Nat → Nat → List Nat → Nat × List Nat
  | 0, _, carry2, res => (carry2, res)
  | fuel + 1, k, carry2, res =>
    if carry2 ≠ 0 then
      let k1 := k + 1
      let res1 := if k1 ≥ res.length then res ++ [0] else res
      let cur2 := u64 (res1.getD k1 0 + carry2)
      mulAbsCarry fuel k1 (cur2 / BASE) (res1.set k1 (u32 (cur2 % BASE)))
    else (carry2, res)

/-- Outer `for (i ...)` loop of `mulAbs`: arguments are the iterations left, `i`
and the result vector.  The carry loop is given `res.length + 4` iterations, more
than it can use. -/
def mulAbsOuter (a b : List Nat) : Nat → Nat → List Nat → List Nat
  | 0, _, res => res
  | n + 1, i, res =>
    let r := mulAbsInner a b i b.length 0 0 res
    let k := i + b.length
    let cur := u64 (r.1.getD k 0 + r.2)
    let res1 := r.1.set k (u32 (cur % BASE))
    let carry2 := cur / BASE
    mulAbsOuter a b n (i + 1) (mulAbsCarry (res1.length + 4) k carry2 res1).2

/-- Function `mulAbs`: schoolbook multiplication into a buffer of
`a.size() + b.size() + 1` limbs. -/
def mulAbs (a b : BigInt) : BigInt :=
  if a.sign_ = 0 ∨ b.sign_ = 0 then zero
  else
    normalize ⟨1, mulAbsOuter a.limbs_ b.limbs_ a.limbs_.length 0
      (List.replicate (a.limbs_.length + b.limbs_.length + 1) 0)⟩

/-- Loop of `mulAbsByUint`: arguments are the iterations left, `i`, `carry` and the
result vector. -/
def mulAbsByUintLoop (a : List Nat) (m : Nat) : Nat → Nat → Nat → List Nat → List Nat × Nat
  | 0, _, carry, res => (res, carry)
  | k + 1, i, carry, res =>
    let cur := u64 (u64 (a.getD i 0 * m) + carry)
    mulAbsByUintLoop a m k (i + 1) (cur / BASE) (res.set i (u32 (cur % BASE)))

/-- Function `mulAbsByUint`: multiply a magnitude by one `uint32_t`. -/
def mulAbsByUint (a : BigInt) (m : Nat) : BigInt :=
  if a.sign_ = 0 ∨ m = 0 then zero
  else
    let n := a.limbs_.length
    let r := mulAbsByUintLoop a.limbs_ m n 0 0 (List.replicate n 0)
    let limbs := if r.2 ≠ 0 then r.1 ++ [u32 r.2] else r.1
    normalize ⟨1, limbs⟩

/-- Function `absValue`: a negative sign becomes +1. -/
def absValue (v : BigInt) : BigInt :=
  if v.sign_ < 0 then ⟨1, v.limbs_⟩ else v

/-- Unary `operator-`: flip the sign unless it is zero. -/
def neg (v : BigInt) : BigInt :=
  if v.sign_ ≠ 0 then ⟨-v.sign_, v.limbs_⟩ else v

/-- Binary `operator+`. -/
def add (a b : BigInt) : BigInt :=
  if a.sign_ = 0 then b
  else if b.sign_ = 0 then a
  else if a.sign_ = b.sign_ then
    normalize ⟨a.sign_, (addAbs a b).limbs_⟩
  else
    let cmp_result := cmpAbs a b
    if cmp_result = 0 then zero
    else if cmp_result > 0 then
      normalize ⟨a.sign_, (subAbs a b).limbs_⟩
    else
      normalize ⟨b.sign_, (subAbs b a).limbs_⟩

/-- Binary `operator-`: `*this + (-other)`. -/
def sub (a b : BigInt) : BigInt := add a (neg b)

/-- Binary `operator*`. -/
def mul (a b : BigInt) : BigInt :=
  if a.sign_ = 0 ∨ b.sign_ = 0 then zero
  else normalize ⟨a.sign_ * b.sign_, (mulAbs a b).limbs_⟩

/-- Binary search `while (low <= high)` of `modAbs`: arguments are a bound on the
number of iterations, `low`, `high` and `best`; returns the final `best`. -/
def modAbsSearch (divisorShifted remainder : BigInt) : Nat → Nat → Nat → Nat → Nat
  | 0, _, _, best => best
  | fuel + 1, low, high, best =>
    if low ≤ high then
      let mid := u32 (low + (high - low) / 2)
      let prod := mulAbsByUint divisorShifted mid
      let cmp_result := cmpAbs prod remainder
      if cmp_result ≤ 0 then
        modAbsSearch divisorShifted remainder fuel (u32 (mid + 1)) high mid
      else if mid = 0 then best
      else modAbsSearch divisorShifted remainder fuel low (mid - 1) best
    else best

/-- Loop `for (size_t i = shift + 1; i-- > 0;)` of `modAbs`: arguments are the
iterations left, `divisorShifted` and `remainder`.  The binary search halves an
interval of `uint32_t` values, so 32 iterations bound it. -/
def modAbsLoop : Nat → BigInt → BigInt → BigInt
  | 0, _, remainder => remainder
  | k + 1, divisorShifted, remainder =>
    let best := modAbsSearch divisorShifted remainder 32 0 (BASE - 1) 0
    let remainder1 :=
      if best ≠ 0 then sub remainder (mulAbsByUint divisorShifted best) else remainder
    let divisorShifted1 : BigInt :=
      if divisorShifted.limbs_ ≠ [] then ⟨divisorShifted.sign_, divisorShifted.limbs_.tail⟩
      else divisorShifted
    modAbsLoop k divisorShifted1 remainder1

/-- Function `modAbs`: remainder of magnitudes by long division. -/
def modAbs (a b : BigInt) : Except BigIntError BigInt :=
  if b.sign_ = 0 then .error (.runtime_error "mod by zero")
  else
    let dividend := absValue a
    let divisor := absValue b
    if cmpAbs dividend divisor < 0 then .ok dividend
    else
      let shift := dividend.limbs_.length - divisor.limbs_.length
      let divisorShifted : BigInt := ⟨divisor.sign_, List.replicate shift 0 ++ divisor.limbs_⟩
      .ok (normalize (modAbsLoop (shift + 1) divisorShifted dividend))

/-- Binary `operator%`. -/
def mod (a b : BigInt) : Except BigIntError BigInt :=
  if b.sign_ = 0 then .error (.runtime_error "mod by zero")
  else if a.sign_ = 0 then .ok zero
  else
    match modAbs a b with
    | .error e => .error e
    | .ok remainder =>
      let remainder1 : BigInt :=
        if remainder.sign_ ≠ 0 ∧ a.sign_ < 0 then ⟨-1, remainder.limbs_⟩ else remainder
      .ok (normalize remainder1)

/-- Method `operator==`: structural equality of sign and limbs. -/
def eq (a b : BigInt) : Bool :=
  decide (a.sign_ = b.sign_) && decide (a.limbs_ = b.limbs_)

/-! ## Text input and output -/

/-- Character used for an out-of-range read of a string (never reached by the code). -/
def nul : Char := Char.ofNat 0

/-- Library `std::isspace` in the default "C" locale: space, `\t`, `\n`, `\v`, `\f`, `\r`. -/
def isspace (c : Char) : Bool := decide (c.toNat = 32 ∨ (9 ≤ c.toNat ∧ c.toNat ≤ 13))

/-- Library `std::isdigit`: `'0'` to `'9'`. -/
def isdigit (c : Char) : Bool := decide (48 ≤ c.toNat ∧ c.toNat ≤ 57)

/-- Library `substr(pos, len)` on a position inside the string. -/
def substr (s : List Char) (pos len : Nat) : List Char := (s.drop pos).take len

/-- Library `find_first_not_of(c)`: index of the first character different from `c`,
`none` standing for `npos`. -/
def find_first_not_of : List Char → Char → Option Nat
  | [], _ => none
  | x :: xs, c => if x ≠ c then some 0 else (find_first_not_of xs c).map (· + 1)

/-- Library `std::stoul` on a string of decimal digits (the only strings `fromString`
passes to it, of at most nine characters, so the value fits every `unsigned long`). -/
def stoul (s : List Char) : Nat := s.foldl (fun acc c => acc * 10 + (c.toNat - 48)) 0

/-- Decimal digit character of a number below ten. -/
def digitChar (d : Nat) : Char := Char.ofNat (48 + d)

/-- Digit generation of `std::to_string`: the first argument bounds the number of digits. -/
def to_string_digits : Nat → Nat → List Char
  | 0, _ => []
  | fuel + 1, n =>
    if n < 10 then [digitChar n] else to_string_digits fuel (n / 10) ++ [digitChar (n % 10)]

/-- Library `std::to_string(unsigned)`: decimal text without padding; a 32-bit value
has at most ten digits. -/
def to_string (n : Nat) : List Char := to_string_digits 10 n

/-- Loop `while (start < end && isspace(text[start])) ++start;` of `fromString`:
arguments are a bound on the iterations, `start` and `end`; returns the final `start`. -/
def skipSpaceFront (text : List Char) : Nat → Nat → Nat → Nat
  | 0, start, _ => start
  | fuel + 1, start, end_ =>
    if start < end_ ∧ isspace (text.getD start nul) = true then
      skipSpaceFront text fuel (start + 1) end_
    else start

/-- Loop `while (end > start && isspace(text[end - 1])) --end;` of `fromString`:
arguments are a bound on the iterations, `start` and `end`; returns the final `end`. -/
def skipSpaceBack (text : List Char) : Nat → Nat → Nat → Nat
  | 0, _, end_ => end_
  | fuel + 1, start, end_ =>
    if end_ > start ∧ isspace (text.getD (end_ - 1) nul) = true then
      skipSpaceBack text fuel start (end_ - 1)
    else end_

/-- Loop `for (size_t i = pos; i < end; ++i)` of `fromString`: arguments are the
iterations left and `i`; `false` stands for the `throw`. -/
def digitsLoop (text : List Char) : Nat → Nat → Bool
  | 0, _ => true
  | k + 1, i => if ¬ isdigit (text.getD i nul) = true then false else digitsLoop text k (i + 1)

/-- Loop `for (size_t i = digits.size(); i > 0;)` of `fromString`, cutting chunks of
nine digits from the least-significant end: arguments are a bound on the
iterations, `i` and the limbs pushed so far. -/
def chunkLoop (digits : List Char) : Nat → Nat → List Nat → List Nat
  | 0, _, limbs => limbs
  | fuel + 1, i, limbs =>
    if i > 0 then
      let chunk_start := if i ≥ 9 then i - 9 else 0
      let len := i - chunk_start
      let limb := u32 (stoul (substr digits chunk_start len))
      let limbs1 := limbs ++ [limb]
      if chunk_start = 0 then limbs1 else chunkLoop digits fuel (i - len) limbs1
    else limbs

/-- Function `fromString`. -/
def fromString (text : List Char) : Except BigIntError BigInt :=
  let start := skipSpaceFront text text.length 0 text.length
  let end_ := skipSpaceBack text text.length start text.length
  if start = end_ then .error (.invalid_argument "empty integer")
  else
    let signed := decide (text.getD start nul = '+' ∨ text.getD start nul = '-')
    let sign : Int := if signed ∧ text.getD start nul = '-' then -1 else 1
    let pos := if signed then start + 1 else start
    if signed ∧ pos ≥ end_ then .error (.invalid_argument "expected digits after sign")
    else if ¬ isdigit (text.getD pos nul) = true then
      .error (.invalid_argument "invalid digit in integer")
    else if ¬ digitsLoop text (end_ - pos) pos = true then
      .error (.invalid_argument "invalid digit in integer")
    else
      let digits := substr text pos (end_ - pos)
      match find_first_not_of digits '0' with
      | none => .ok zero
      | some non_zero =>
        let digits1 := digits.drop non_zero
        .ok (normalize ⟨sign, chunkLoop digits1 digits1.length digits1.length []⟩)

/-- Loop `for (size_t i = limbs_.size(); i-- > 0;)` of `toString`: arguments are the
value of `i` before the decrement and the text produced so far.  The padding
count `9 - chunk.size()` is a `size_t`; a limb below `BASE` has at most nine digits. -/
def toStringLoop (limbs : List Nat) : Nat → List Char → List Char
  | 0, out => out
  | i + 1, out =>
    if i = limbs.length - 1 then toStringLoop limbs i out
    else
      let chunk := to_string (limbs.getD i 0)
      toStringLoop limbs i (out ++ List.replicate (9 - chunk.length) '0' ++ chunk)

/-- Method `toString`. -/
def toString (v : BigInt) : List Char :=
  if v.sign_ = 0 then ['0']
  else
    let out0 : List Char := if v.sign_ < 0 then ['-'] else []
    let out1 := out0 ++ to_string (if v.limbs_ = [] then 0 else v.limbs_.getLastD 0)
    toStringLoop v.limbs_ v.limbs_.length out1

/-- Constructor `BigInt(int64_t v)`, loop `while (value > 0)`: arguments are a bound on
the iterations, `value` and the limbs pushed so far. -/
def ofInt64Loop : Nat → Nat → List Nat → List Nat
  | 0, _, limbs => limbs
  | fuel + 1, value, limbs =>
    if value > 0 then ofInt64Loop fuel (value / BASE) (limbs ++ [u32 (value % BASE)])
    else limbs

/-- Constructor `BigInt(int64_t v)`; `static_cast<uint64_t>(-v)` is taken modulo 2^64.
A 64-bit value has at most three limbs. -/
def ofInt64 (v : Int) : BigInt :=
  if v = 0 then zero
  else
    let value : Nat := if v < 0 then ((-v) % 18446744073709551616).toNat
      else (v % 18446744073709551616).toNat
    ⟨if v < 0 then -1 else 1, ofInt64Loop 3 value []⟩

/-! ## Specification vocabulary -/

/-- Magnitude denoted by a limb vector: the sum of `limbs[i] * BASE ^ i`. -/
def limbsValue (limbs : List Nat) : Nat := (limbs.mapIdx fun i d => d * BASE ^ i).sum

/-- Integer denoted by a `BigInt`: `sign * sum_i limbs[i] * BASE ^ i`. -/
def value (v : BigInt) : Int := v.sign_ * (limbsValue v.limbs_ : Int)

/-- Canonical form: the sign is -1, 0 or 1, it is 0 exactly when there are no limbs,
the most-significant (last) limb is not zero, and every limb is below `BASE`. -/
def canonical (v : BigInt) : Prop :=
  (v.sign_ = -1 ∨ v.sign_ = 0 ∨ v.sign_ = 1) ∧
  (v.sign_ = 0 ↔ v.limbs_ = []) ∧
  v.limbs_.getLast? ≠ some 0 ∧
  ∀ x ∈ v.limbs_, x < BASE

instance (v : BigInt) : Decidable (canonical v) := by
  unfold canonical; infer_instance

/-- Text that `toString` emits for one limb below the top one: `std::to_string` of
the limb, preceded by zeros up to nine characters. -/
def padChunk (limb : Nat) : List Char :=
  List.replicate (9 - (to_string limb).length) '0' ++ to_string limb

/-- Text that `toString` emits for the limbs below the top one, most significant first. -/
def lowText (limbs : List Nat) : List Char := (limbs.reverse.map padChunk).flatten

/-- Library `std::to_string(long long)`, the text the tests compare a rendering with:
`'-'` for a negative number, then the decimal digits of its magnitude (a 64-bit
magnitude has at most twenty of them). -/
def decimal (x : Int) : List Char :=
  if x < 0 then '-' :: to_string_digits 20 x.natAbs else to_string_digits 20 x.natAbs

/-- Range of `int64_t`. -/
def isInt64 (z : Int) : Prop := -9223372036854775808 ≤ z ∧ z < 9223372036854775808

instance (z : Int) : Decidable (isInt64 z) := by
  unfold isInt64; infer_instance

/-- Result that 64-bit two's complement arithmetic gives to an operation whose exact
result is `z`. -/
def wrapInt64 (z : Int) : Int :=
  (z + 9223372036854775808) % 18446744073709551616 - 9223372036854775808

/-- Stripping of leading and trailing whitespace, in the words of the specification. -/
def trim (s : List Char) : List Char :=
  ((s.dropWhile isspace).reverse.dropWhile isspace).reverse

/-- Text that follows the optional leading `+` or `-`. -/
def afterSign (t : List Char) : List Char :=
  if t.head? = some '+' ∨ t.head? = some '-' then t.tail else t

/-- Malformed integer text, in the words of the specification: the trimmed input is
empty, or nothing follows its optional sign, or a character after the optional
sign is not a decimal digit. -/
def malformed (s : List Char) : Prop :=
  trim s = [] ∨ afterSign (trim s) = [] ∨ ∃ c ∈ afterSign (trim s), isdigit c = false

instance (s : List Char) : Decidable (malformed s) := by
  unfold malformed; infer_instance

/-- Canonical text of a sign and a digit string, in the words of the specification:
`"0"` when every digit is `'0'`, otherwise the digits without leading zeros, with
`'-'` in front exactly when the sign is `"-"`. -/
def canonicalText (sign digits : List Char) : List Char :=
  if digits.dropWhile (fun c => decide (c = '0')) = [] then ['0']
  else (if sign = ['-'] then ['-'] else []) ++ digits.dropWhile (fun c => decide (c = '0'))

end BigInt

/-!
# Lexer and parser

A shallow embedding of `src/src/parser/Lexer.cpp` and `Parser.cpp`.  The lexer is a
value `(input_, pos_)`; `next` returns the token together with the advanced lexer.
The output arguments `out` and `error` of `Parser::parse` are passed in and
returned.
-/

/-- Enumeration `TokenType`. -/
inductive TokenType where
  | Integer
  | Operator
  | End
  | Invalid
  deriving DecidableEq, Repr

/-- Structure `Token`; `op` is the character 0 unless the token is an operator, and
`error` is empty unless the token is invalid. -/
structure Token where
  type : TokenType
  lexeme : List Char
  position : Nat
  op : Char
  error : List Char
  deriving DecidableEq, Repr

/-- Class `Lexer`: the input and the read position. -/
structure Lexer where
  input_ : List Char
  pos_ : Nat
  deriving DecidableEq, Repr

/-- Structure `ParsedExpr`. -/
structure ParsedExpr where
  lhs : List Char
  op : Char
  rhs : List Char
  deriving DecidableEq, Repr

namespace Lexer

/-- Loop `while (pos_ < input_.size() && isspace(input_[pos_])) ++pos_;` of
`skipSpaces`: arguments are a bound on the iterations and `pos_`. -/
def skipSpacesLoop (input : List Char) : Nat → Nat → Nat
  | 0, pos => pos
  | fuel + 1, pos =>
    if pos < input.length ∧ BigInt.isspace (input.getD pos BigInt.nul) = true then
      skipSpacesLoop input fuel (pos + 1)
    else pos

/-- Method `skipSpaces`. -/
def skipSpaces (lx : Lexer) : Lexer :=
  ⟨lx.input_, skipSpacesLoop lx.input_ lx.input_.length lx.pos_⟩

/-- Loop `while (pos_ < input_.size() && isDigit(input_[pos_])) ++pos_;` of `next`:
arguments are a bound on the iterations and `pos_`. -/
def digitsLoop (input : List Char) : Nat → Nat → Nat
  | 0, pos => pos
  | fuel + 1, pos =>
    if pos < input.length ∧ BigInt.isdigit (input.getD pos BigInt.nul) = true then
      digitsLoop input fuel (pos + 1)
    else pos

/-- Method `next`: the token read and the lexer after it. -/
def next (lx : Lexer) : Token × Lexer :=
  let lx1 := lx.skipSpaces
  let start := lx1.pos_
  if lx1.pos_ ≥ lx1.input_.length then
    (⟨TokenType.End, [], lx1.pos_, BigInt.nul, []⟩, lx1)
  else
    let c := lx1.input_.getD lx1.pos_ BigInt.nul
    if BigInt.isdigit c = true ∨
        ((c = '+' ∨ c = '-') ∧ lx1.pos_ + 1 < lx1.input_.length ∧
          BigInt.isdigit (lx1.input_.getD (lx1.pos_ + 1) BigInt.nul) = true) then
      let pos2 := digitsLoop lx1.input_ lx1.input_.length (lx1.pos_ + 1)
      (⟨TokenType.Integer, BigInt.substr lx1.input_ start (pos2 - start), start, BigInt.nul, []⟩,
        ⟨lx1.input_, pos2⟩)
    else if c = '+' ∨ c = '-' ∨ c = '*' ∨ c = '%' then
      (⟨TokenType.Operator, BigInt.substr lx1.input_ start 1, start, c, []⟩,
        ⟨lx1.input_, lx1.pos_ + 1⟩)
    else
      (⟨TokenType.Invalid, BigInt.substr lx1.input_ start 1, start, BigInt.nul,
          "invalid character".toList⟩,
        ⟨lx1.input_, lx1.pos_ + 1⟩)

end Lexer

/-- Function `posString`: `"pos "` followed by the decimal text of the `size_t`
(at most twenty digits). -/
def posString (pos : Nat) : List Char := "pos ".toList ++ BigInt.to_string_digits 20 pos

/-- Function `unexpectedMessage`. -/
def unexpectedMessage (expected : List Char) (tok : Token) : List Char :=
  if tok.type = TokenType.Invalid then tok.error ++ " at ".toList ++ posString tok.position
  else if tok.type = TokenType.End then
    "unexpected end of input at ".toList ++ posString tok.position
  else "expected ".toList ++ expected ++ " at ".toList ++ posString tok.position

namespace Parser

/-- Method `Parser::parse`: the returned triple is the `bool` result and the final
contents of `out` and `error`. -/
def parse (input : List Char) (out : ParsedExpr) (error : List Char) :
    Bool × ParsedExpr × List Char :=
  let lexer : Lexer := ⟨input, 0⟩
  let lhs := lexer.next
  if lhs.1.type ≠ TokenType.Integer then
    (false, out, unexpectedMessage "integer".toList lhs.1)
  else
    let op := lhs.2.next
    if op.1.type ≠ TokenType.Operator then
      (false, out, unexpectedMessage "operator".toList op.1)
    else
      let rhs := op.2.next
      if rhs.1.type ≠ TokenType.Integer then
        (false, out, unexpectedMessage "integer".toList rhs.1)
      else
        let end_ := rhs.2.next
        if end_.1.type ≠ TokenType.End then
          (false, out, unexpectedMessage "end".toList end_.1)
        else
          (true, ⟨lhs.1.lexeme, op.1.op, rhs.1.lexeme⟩, error)

end Parser

/-! ## Specification vocabulary of the parser -/

/-- Integer lexeme, in the words of the specification: an optional `+` or `-`
followed by one or more decimal digits. -/
def integerLexeme (l : List Char) : Prop :=
  BigInt.afterSign l ≠ [] ∧ ∀ c ∈ BigInt.afterSign l, BigInt.isdigit c = true

instance (l : List Char) : Decidable (integerLexeme l) := by
  unfold integerLexeme; infer_instance

/-- Operator symbol: one of `+`, `-`, `*`, `%`. -/
def isOperator (o : Char) : Prop := o = '+' ∨ o = '-' ∨ o = '*' ∨ o = '%'

instance (o : Char) : Decidable (isOperator o) := by
  unfold isOperator; infer_instance

/-- Lexer after `i` calls of `next` on the input. -/
def lexerAfter (input : List Char) : Nat → Lexer
  | 0 => ⟨input, 0⟩
  | i + 1 => (lexerAfter input i).next.2

/-- Token number `i` of the input (counted from 0): what the call number `i + 1` of
`next` returns. -/
def tokenAt (input : List Char) (i : Nat) : Token := (lexerAfter input i).next.1

/-- Token types the parser expects, in order: Integer, Operator, Integer, End. -/
def expectedType : Nat → TokenType
  | 0 => TokenType.Integer
  | 1 => TokenType.Operator
  | 2 => TokenType.Integer
  | _ => TokenType.End

/-- Names that `Parser::parse` passes to `unexpectedMessage` for the four expected
tokens, in order. -/
def expectedName : Nat → List Char
  | 0 => "integer".toList
  | 1 => "operator".toList
  | 2 => "integer".toList
  | _ => "end".toList

/-- Reading of `Lexer::next` on the unread text `rest`: the token, positioned
relative to `rest`, and the number of characters consumed. -/
def scan (rest : List Char) : Token × Nat :=
  let skipped := (rest.takeWhile BigInt.isspace).length
  match rest.dropWhile BigInt.isspace with
  | [] => (⟨TokenType.End, [], skipped, BigInt.nul, []⟩, skipped)
  | c :: t =>
    if BigInt.isdigit c = true ∨
        ((c = '+' ∨ c = '-') ∧ ∃ d, t.head? = some d ∧ BigInt.isdigit d = true) then
      (⟨TokenType.Integer, c :: t.takeWhile BigInt.isdigit, skipped, BigInt.nul, []⟩,
        skipped + 1 + (t.takeWhile BigInt.isdigit).length)
    else if c = '+' ∨ c = '-' ∨ c = '*' ∨ c = '%' then
      (⟨TokenType.Operator, [c], skipped, c, []⟩, skipped + 1)
    else
      (⟨TokenType.Invalid, [c], skipped, BigInt.nul, "invalid character".toList⟩, skipped + 1)

namespace BigInt

/-! ## Limb vectors as numbers -/

theorem limbsValue_eq_ofDigits (l : List Nat) : limbsValue l = Nat.ofDigits BASE l := by
  unfold limbsValue
  exact (Nat.ofDigits_eq_sum_mapIdx BASE l).symm

@[simp] theorem limbsValue_nil : limbsValue [] = 0 := by
  simp [limbsValue_eq_ofDigits]

@[simp] theorem limbsValue_cons (d : Nat) (ds : List Nat) :
    limbsValue (d :: ds) = d + BASE * limbsValue ds := by
  simp [limbsValue_eq_ofDigits, Nat.ofDigits_cons]

theorem limbsValue_append (l1 l2 : List Nat) :
    limbsValue (l1 ++ l2) = limbsValue l1 + BASE ^ l1.length * limbsValue l2 := by
  simp [limbsValue_eq_ofDigits, Nat.ofDigits_append]

@[simp] theorem limbsValue_replicate_zero (n : Nat) : limbsValue (List.replicate n 0) = 0 := by
  induction n with
  | zero => simp
  | succ n ih => simp [List.replicate_succ, ih]

theorem limbsValue_drop (l : List Nat) (i : Nat) :
    limbsValue (l.drop i) = l.getD i 0 + BASE * limbsValue (l.drop (i + 1)) := by
  induction l generalizing i with
  | nil => simp
  | cons x xs ih =>
    cases i with
    | zero => simp
    | succ i => simpa using ih i

theorem limbsValue_set (l : List Nat) (i v : Nat) (h : i < l.length) :
    limbsValue (l.set i v) + l.getD i 0 * BASE ^ i = limbsValue l + v * BASE ^ i := by
  induction l generalizing i with
  | nil => simp at h
  | cons x xs ih =>
    cases i with
    | zero => simp; ring
    | succ i =>
      have h1 : i < xs.length := by simpa using h
      have := ih i h1
      simp only [List.set_cons_succ, limbsValue_cons, List.getD_cons_succ, pow_succ]
      nlinarith [this]

theorem limbsValue_lt (l : List Nat) (h : ∀ x ∈ l, x < BASE) :
    limbsValue l < BASE ^ l.length := by
  rw [limbsValue_eq_ofDigits]
  exact Nat.ofDigits_lt_base_pow_length (by decide) h

end BigInt

namespace BigInt

/-! ## Normalisation -/

theorem popZeros_value (r : List Nat) : limbsValue (popZeros r).reverse = limbsValue r.reverse := by
  induction r with
  | nil => simp [popZeros]
  | cons x xs ih =>
    by_cases hx : x = 0
    · subst hx
      simp [popZeros, ih, limbsValue_append]
    · simp [popZeros, hx]

theorem popZeros_mem (r : List Nat) : ∀ x ∈ popZeros r, x ∈ r := by
  induction r with
  | nil => simp [popZeros]
  | cons y ys ih =>
    intro x hx
    by_cases hy : y = 0
    · simp only [popZeros, hy, if_true] at hx
      exact List.mem_cons_of_mem _ (ih x hx)
    · simpa [popZeros, hy] using hx

theorem popZeros_head (r : List Nat) : (popZeros r).head? ≠ some 0 := by
  induction r with
  | nil => simp [popZeros]
  | cons y ys ih =>
    by_cases hy : y = 0
    · simpa [popZeros, hy] using ih
    · simp [popZeros, hy]

theorem popZeros_of_head (r : List Nat) (h : r.head? ≠ some 0) : popZeros r = r := by
  cases r with
  | nil => rfl
  | cons y ys =>
    have hy : y ≠ 0 := by simpa using h
    simp [popZeros, hy]

theorem normalize_limbs_eq (v : BigInt) :
    (normalize v).limbs_ = (popZeros v.limbs_.reverse).reverse := by
  simp only [normalize]
  split <;> simp_all

theorem normalize_sign_eq (v : BigInt) :
    (normalize v).sign_ = if (popZeros v.limbs_.reverse).reverse = [] then 0 else v.sign_ := by
  simp only [normalize]
  split <;> simp_all

theorem normalize_limbs_value (v : BigInt) :
    limbsValue (normalize v).limbs_ = limbsValue v.limbs_ := by
  rw [normalize_limbs_eq]
  simpa using popZeros_value v.limbs_.reverse

theorem normalize_value (v : BigInt) : value (normalize v) = value v := by
  have h := normalize_limbs_value v
  unfold value
  rw [h, normalize_sign_eq]
  split
  · rename_i h0
    rw [normalize_limbs_eq, h0] at h
    simp [← h]
  · rfl

theorem normalize_limbs_lt (v : BigInt) (h : ∀ x ∈ v.limbs_, x < BASE) :
    ∀ x ∈ (normalize v).limbs_, x < BASE := by
  intro x hx
  apply h
  rw [normalize_limbs_eq] at hx
  have := popZeros_mem _ x (List.mem_reverse.mp hx)
  exact List.mem_reverse.mp this

theorem normalize_getLast (v : BigInt) : (normalize v).limbs_.getLast? ≠ some 0 := by
  rw [normalize_limbs_eq]
  simpa [List.getLast?_reverse] using popZeros_head v.limbs_.reverse

theorem normalize_canonical (v : BigInt) (hs : v.sign_ = -1 ∨ v.sign_ = 1)
    (h : ∀ x ∈ v.limbs_, x < BASE) : canonical (normalize v) := by
  refine ⟨?_, ?_, normalize_getLast v, normalize_limbs_lt v h⟩
  · rw [normalize_sign_eq]
    split
    · exact Or.inr (Or.inl rfl)
    · exact Or.elim hs Or.inl (fun h1 => Or.inr (Or.inr h1))
  · rw [normalize_sign_eq, normalize_limbs_eq]
    split
    · simp_all
    · rename_i h0
      simp only [h0, iff_false]
      rcases hs with hs | hs <;> simp [hs]

theorem normalize_of_canonical (v : BigInt) (h : canonical v) : normalize v = v := by
  obtain ⟨_, h0, hl, _⟩ := h
  have hp : popZeros v.limbs_.reverse = v.limbs_.reverse := by
    apply popZeros_of_head
    simpa [List.head?_reverse] using hl
  have h1 := normalize_limbs_eq v
  have h2 := normalize_sign_eq v
  rw [hp, List.reverse_reverse] at h1 h2
  have h3 : (normalize v).sign_ = v.sign_ := by
    rw [h2]
    split
    · rename_i he
      exact (h0.mpr he).symm
    · rfl
  cases v
  cases hn : normalize _
  simp_all

/-- Normalising twice is normalising once, whatever the intermediate sign. -/
theorem normalize_idem_limbs (s1 s2 : Int) (l : List Nat) :
    normalize ⟨s1, (normalize ⟨s2, l⟩).limbs_⟩ = normalize ⟨s1, l⟩ := by
  have hh := popZeros_head l.reverse
  have hp : popZeros (popZeros l.reverse) = popZeros l.reverse := popZeros_of_head _ hh
  have e1 : (normalize ⟨s2, l⟩).limbs_ = (popZeros l.reverse).reverse := normalize_limbs_eq _
  rw [e1]
  simp only [normalize, List.reverse_reverse, hp]

end BigInt

namespace BigInt

/-! ## Magnitude addition -/

theorem u64_of_lt (x : Nat) (h : x < 18446744073709551616) : u64 x = x := by
  unfold u64; exact Nat.mod_eq_of_lt h

theorem u32_of_lt (x : Nat) (h : x < 4294967296) : u32 x = x := by
  unfold u32; exact Nat.mod_eq_of_lt h

theorem getD_lt_of_forall (l : List Nat) (h : ∀ x ∈ l, x < BASE) (i : Nat) :
    l.getD i 0 < BASE := by
  by_cases hi : i < l.length
  · rw [List.getD_eq_getElem _ _ hi]
    exact h _ (List.getElem_mem hi)
  · rw [List.getD_eq_default _ _ (by omega)]
    decide

theorem forall_lt_set (l : List Nat) (h : ∀ x ∈ l, x < BASE) (i v : Nat) (hv : v < BASE) :
    ∀ x ∈ l.set i v, x < BASE := by
  intro x hx
  rcases List.mem_or_eq_of_mem_set hx with h1 | h1
  · exact h x h1
  · exact h1 ▸ hv

theorem addAbsLoop_spec (a b : List Nat) (ha : ∀ x ∈ a, x < BASE) (hb : ∀ x ∈ b, x < BASE) :
    ∀ (k i carry : Nat) (res : List Nat), res.length = i + k → a.length ≤ i + k →
      b.length ≤ i + k → carry ≤ 1 → (∀ j, i ≤ j → res.getD j 0 = 0) →
      (∀ x ∈ res, x < BASE) →
      (addAbsLoop a b k i carry res).1.length = i + k ∧
      (addAbsLoop a b k i carry res).2 ≤ 1 ∧
      (∀ x ∈ (addAbsLoop a b k i carry res).1, x < BASE) ∧
      limbsValue (addAbsLoop a b k i carry res).1 +
          (addAbsLoop a b k i carry res).2 * BASE ^ (i + k) =
        limbsValue res + (carry + limbsValue (a.drop i) + limbsValue (b.drop i)) * BASE ^ i := by
  intro k
  induction k with
  | zero =>
    intro i carry res hlen hal hbl hc hz hres
    have h1 : a.drop i = [] := List.drop_eq_nil_of_le (by omega)
    have h2 : b.drop i = [] := List.drop_eq_nil_of_le (by omega)
    simp only [addAbsLoop, h1, h2, limbsValue_nil, add_zero]
    refine ⟨hlen, hc, hres, ?_⟩
    ring_nf
  | succ k ih =>
    intro i carry res hlen hal hbl hc hz hres
    have hai := getD_lt_of_forall a ha i
    have hbi := getD_lt_of_forall b hb i
    have hB : BASE = 1000000000 := rfl
    have ea : (if i < a.length then u64 (carry + a.getD i 0) else carry) = carry + a.getD i 0 := by
      split
      · exact u64_of_lt _ (by omega)
      · rw [List.getD_eq_default _ _ (by omega)]; rfl
    have eb : (if i < b.length then u64 (carry + a.getD i 0 + b.getD i 0)
        else carry + a.getD i 0) = carry + a.getD i 0 + b.getD i 0 := by
      split
      · exact u64_of_lt _ (by omega)
      · rw [List.getD_eq_default b _ (by omega)]; rfl
    simp only [addAbsLoop, ea, eb]
    set s := carry + a.getD i 0 + b.getD i 0 with hs
    have hmod : s % BASE < BASE := Nat.mod_lt _ (by decide)
    have ev : u32 (s % BASE) = s % BASE := u32_of_lt _ (by omega)
    rw [ev]
    have hi : i < res.length := by omega
    have hc1 : s / BASE ≤ 1 := by
      have : s < BASE * 2 := by omega
      have := Nat.div_lt_of_lt_mul this
      omega
    have hz1 : ∀ j, i + 1 ≤ j → (res.set i (s % BASE)).getD j 0 = 0 := by
      intro j hj
      rw [List.getD_eq_getElem?_getD, List.getElem?_set_ne (by omega),
        ← List.getD_eq_getElem?_getD]
      exact hz j (by omega)
    have hres1 := forall_lt_set res hres i (s % BASE) hmod
    obtain ⟨r1, r2, r3, r4⟩ := ih (i + 1) (s / BASE) (res.set i (s % BASE))
      (by simp; omega) (by omega) (by omega) hc1 hz1 hres1
    refine ⟨by omega, r2, r3, ?_⟩
    have e1 : i + 1 + k = i + (k + 1) := by omega
    rw [e1] at r4
    rw [r4]
    have hset := limbsValue_set res i (s % BASE) hi
    rw [hz i le_rfl] at hset
    have hda := limbsValue_drop a i
    have hdb := limbsValue_drop b i
    have hdm := Nat.div_add_mod s BASE
    rw [hda, hdb, pow_succ]
    simp only [zero_mul, add_zero] at hset
    rw [hset]
    have : carry + (a.getD i 0 + BASE * limbsValue (List.drop (i + 1) a)) +
        (b.getD i 0 + BASE * limbsValue (List.drop (i + 1) b)) =
        (BASE * (s / BASE) + s % BASE) + BASE * limbsValue (List.drop (i + 1) a)
          + BASE * limbsValue (List.drop (i + 1) b) := by
      rw [hdm, hs]; ring
    rw [this]
    ring

theorem replicate_zero_lt (n : Nat) : ∀ x ∈ List.replicate n 0, x < BASE := by
  intro x hx
  rw [List.eq_of_mem_replicate hx]
  decide

theorem replicate_zero_getD (n j : Nat) : (List.replicate n 0).getD j 0 = 0 := by
  by_cases h : j < n
  · rw [List.getD_eq_getElem _ _ (by simpa using h)]
    simp
  · rw [List.getD_eq_default _ _ (by simpa using h)]

theorem addAbs_limbs_value (a b : BigInt) (ha : ∀ x ∈ a.limbs_, x < BASE)
    (hb : ∀ x ∈ b.limbs_, x < BASE) :
    limbsValue (addAbs a b).limbs_ = limbsValue a.limbs_ + limbsValue b.limbs_ ∧
    ∀ x ∈ (addAbs a b).limbs_, x < BASE := by
  have hB : BASE = 1000000000 := rfl
  obtain ⟨r1, r2, r3, r4⟩ := addAbsLoop_spec a.limbs_ b.limbs_ ha hb
    (max a.limbs_.length b.limbs_.length) 0 0
    (List.replicate (max a.limbs_.length b.limbs_.length) 0)
    (by simp) (by simp) (by simp) (by omega)
    (fun j _ => replicate_zero_getD _ j) (replicate_zero_lt _)
  simp only [zero_add, List.drop_zero, limbsValue_replicate_zero, pow_zero, mul_one] at r1 r4
  unfold addAbs
  simp only []
  set r := addAbsLoop a.limbs_ b.limbs_ (max a.limbs_.length b.limbs_.length) 0 0
    (List.replicate (max a.limbs_.length b.limbs_.length) 0) with hr
  constructor
  · rw [normalize_limbs_value]
    simp only []
    rw [← r4]
    split
    · rw [limbsValue_append, r1, u32_of_lt _ (by omega)]
      simp
      ring
    · rename_i h0
      have : r.2 = 0 := by simpa using h0
      simp [this]
  · apply normalize_limbs_lt
    simp only []
    split
    · intro x hx
      rcases List.mem_append.mp hx with h1 | h1
      · exact r3 x h1
      · have : x = u32 r.2 := by simpa using h1
        rw [this, u32_of_lt _ (by omega)]
        omega
    · exact r3

end BigInt

namespace BigInt

/-! ## Multiplication of a magnitude by one limb -/

theorem mul_add_div_lt (x m c : Nat) (hx : x < BASE) (hm : m < BASE) (hc : c < BASE) :
    x * m + c < 18446744073709551616 ∧ (x * m + c) / BASE < BASE := by
  have hB : BASE = 1000000000 := rfl
  have h1 : x * m ≤ (BASE - 1) * (BASE - 1) := Nat.mul_le_mul (by omega) (by omega)
  have h2 : (BASE - 1) * (BASE - 1) = 999999998000000001 := by decide
  constructor
  · omega
  · apply Nat.div_lt_of_lt_mul
    have : BASE * BASE = 1000000000000000000 := by decide
    omega

theorem mulAbsByUintLoop_spec (a : List Nat) (m : Nat) (ha : ∀ x ∈ a, x < BASE)
    (hm : m < BASE) :
    ∀ (k i carry : Nat) (res : List Nat), res.length = i + k → a.length ≤ i + k →
      carry < BASE → (∀ j, i ≤ j → res.getD j 0 = 0) → (∀ x ∈ res, x < BASE) →
      (mulAbsByUintLoop a m k i carry res).1.length = i + k ∧
      (mulAbsByUintLoop a m k i carry res).2 < BASE ∧
      (∀ x ∈ (mulAbsByUintLoop a m k i carry res).1, x < BASE) ∧
      limbsValue (mulAbsByUintLoop a m k i carry res).1 +
          (mulAbsByUintLoop a m k i carry res).2 * BASE ^ (i + k) =
        limbsValue res + (carry + limbsValue (a.drop i) * m) * BASE ^ i := by
  intro k
  induction k with
  | zero =>
    intro i carry res hlen hal hc hz hres
    have h1 : a.drop i = [] := List.drop_eq_nil_of_le (by omega)
    simp only [mulAbsByUintLoop, h1, limbsValue_nil, add_zero, zero_mul]
    exact ⟨hlen, hc, hres, trivial⟩
  | succ k ih =>
    intro i carry res hlen hal hc hz hres
    have hai := getD_lt_of_forall a ha i
    have hB : BASE = 1000000000 := rfl
    obtain ⟨b1, b2⟩ := mul_add_div_lt (a.getD i 0) m carry hai hm hc
    have e1 : u64 (u64 (a.getD i 0 * m) + carry) = a.getD i 0 * m + carry := by
      rw [u64_of_lt (a.getD i 0 * m) (by omega), u64_of_lt _ b1]
    simp only [mulAbsByUintLoop, e1]
    set s := a.getD i 0 * m + carry with hs
    have hmod : s % BASE < BASE := Nat.mod_lt _ (by decide)
    rw [u32_of_lt _ (by omega)]
    have hi : i < res.length := by omega
    have hz1 : ∀ j, i + 1 ≤ j → (res.set i (s % BASE)).getD j 0 = 0 := by
      intro j hj
      rw [List.getD_eq_getElem?_getD, List.getElem?_set_ne (by omega),
        ← List.getD_eq_getElem?_getD]
      exact hz j (by omega)
    have hres1 := forall_lt_set res hres i (s % BASE) hmod
    obtain ⟨r1, r2, r3, r4⟩ := ih (i + 1) (s / BASE) (res.set i (s % BASE))
      (by simp; omega) (by omega) b2 hz1 hres1
    refine ⟨by omega, r2, r3, ?_⟩
    have e2 : i + 1 + k = i + (k + 1) := by omega
    rw [e2] at r4
    rw [r4]
    have hset := limbsValue_set res i (s % BASE) hi
    rw [hz i le_rfl] at hset
    simp only [zero_mul, add_zero] at hset
    have hda := limbsValue_drop a i
    have hdm := Nat.div_add_mod s BASE
    rw [hda, pow_succ, hset]
    have : carry + (a.getD i 0 + BASE * limbsValue (List.drop (i + 1) a)) * m =
        (BASE * (s / BASE) + s % BASE) + BASE * limbsValue (List.drop (i + 1) a) * m := by
      rw [hdm, hs]; ring
    rw [this]
    ring

theorem mulAbsByUint_limbs_value (a : BigInt) (m : Nat) (ha : ∀ x ∈ a.limbs_, x < BASE)
    (hm : m < BASE) (h0 : a.sign_ = 0 → a.limbs_ = []) :
    limbsValue (mulAbsByUint a m).limbs_ = limbsValue a.limbs_ * m ∧
    ∀ x ∈ (mulAbsByUint a m).limbs_, x < BASE := by
  have hB : BASE = 1000000000 := rfl
  unfold mulAbsByUint
  split
  · rename_i h
    rcases h with h | h
    · simp [zero, h0 h]
    · simp [zero, h]
  · obtain ⟨r1, r2, r3, r4⟩ := mulAbsByUintLoop_spec a.limbs_ m ha hm
      a.limbs_.length 0 0 (List.replicate a.limbs_.length 0)
      (by simp) (by simp) (by decide)
      (fun j _ => replicate_zero_getD _ j) (replicate_zero_lt _)
    simp only [zero_add, List.drop_zero, limbsValue_replicate_zero, pow_zero, mul_one] at r1 r4
    simp only []
    set r := mulAbsByUintLoop a.limbs_ m a.limbs_.length 0 0
      (List.replicate a.limbs_.length 0) with hr
    constructor
    · rw [normalize_limbs_value]
      simp only []
      rw [← r4]
      split
      · rw [limbsValue_append, r1, u32_of_lt _ (by omega)]
        simp
        ring
      · rename_i h0
        have : r.2 = 0 := by simpa using h0
        simp [this]
    · apply normalize_limbs_lt
      simp only []
      split
      · intro x hx
        rcases List.mem_append.mp hx with h1 | h1
        · exact r3 x h1
        · have : x = u32 r.2 := by simpa using h1
          rw [this, u32_of_lt _ (by omega)]
          omega
      · exact r3

end BigInt

namespace BigInt

/-! ## Magnitude comparison -/

theorem getLast_ne_zero_of (l : List Nat) (h : l.getLast? ≠ some 0) (hne : l ≠ []) :
    l.getLast hne ≠ 0 := by
  intro h0
  apply h
  rw [List.getLast?_eq_getLast _ hne, h0]

theorem limbsValue_inj (l1 l2 : List Nat) (h1 : ∀ x ∈ l1, x < BASE) (h2 : ∀ x ∈ l2, x < BASE)
    (g1 : l1.getLast? ≠ some 0) (g2 : l2.getLast? ≠ some 0)
    (h : limbsValue l1 = limbsValue l2) : l1 = l2 := by
  rw [limbsValue_eq_ofDigits, limbsValue_eq_ofDigits] at h
  have e1 := Nat.digits_ofDigits BASE (by decide) l1 h1 (getLast_ne_zero_of l1 g1)
  have e2 := Nat.digits_ofDigits BASE (by decide) l2 h2 (getLast_ne_zero_of l2 g2)
  rw [← e1, ← e2, h]

theorem limbsValue_ge_pow (l : List Nat) (g : l.getLast? ≠ some 0) (hne : l ≠ []) :
    BASE ^ (l.length - 1) ≤ limbsValue l := by
  have hl := getLast_ne_zero_of l g hne
  have e := List.dropLast_append_getLast hne
  rw [← e, limbsValue_append]
  have h1 : 1 ≤ l.getLast hne := Nat.one_le_iff_ne_zero.mpr hl
  simp only [List.length_append, List.length_dropLast, List.length_singleton,
    Nat.add_sub_cancel, limbsValue_cons, limbsValue_nil, mul_zero, add_zero]
  calc BASE ^ (l.length - 1) = BASE ^ (l.length - 1) * 1 := by ring
    _ ≤ BASE ^ (l.length - 1) * l.getLast hne := Nat.mul_le_mul_left _ h1
    _ ≤ _ := Nat.le_add_left _ _

theorem limbsValue_pos (l : List Nat) (g : l.getLast? ≠ some 0) (hne : l ≠ []) :
    0 < limbsValue l :=
  lt_of_lt_of_le (pow_pos (by decide) _) (limbsValue_ge_pow l g hne)

theorem take_succ_getD (l : List Nat) (i : Nat) (h : i < l.length) :
    l.take (i + 1) = l.take i ++ [l.getD i 0] := by
  rw [List.take_succ, List.getD_eq_getElem _ _ h, List.getElem?_eq_getElem h]
  rfl

theorem cmpAbsLoop_spec (a b : List Nat) (ha : ∀ x ∈ a, x < BASE) (hb : ∀ x ∈ b, x < BASE) :
    ∀ i, i ≤ a.length → i ≤ b.length →
      (cmpAbsLoop a b i = -1 ∧ limbsValue (a.take i) < limbsValue (b.take i)) ∨
      (cmpAbsLoop a b i = 0 ∧ a.take i = b.take i) ∨
      (cmpAbsLoop a b i = 1 ∧ limbsValue (b.take i) < limbsValue (a.take i)) := by
  intro i
  induction i with
  | zero => intro _ _; simp [cmpAbsLoop]
  | succ i ih =>
    intro h1 h2
    have ta := take_succ_getD a i (by omega)
    have tb := take_succ_getD b i (by omega)
    have la : limbsValue (a.take i) < BASE ^ i := by
      have := limbsValue_lt (a.take i) (fun x hx => ha x (List.mem_of_mem_take hx))
      rwa [List.length_take, Nat.min_eq_left (by omega)] at this
    have lb : limbsValue (b.take i) < BASE ^ i := by
      have := limbsValue_lt (b.take i) (fun x hx => hb x (List.mem_of_mem_take hx))
      rwa [List.length_take, Nat.min_eq_left (by omega)] at this
    have va : limbsValue (a.take (i + 1)) = limbsValue (a.take i) + BASE ^ i * a.getD i 0 := by
      rw [ta, limbsValue_append, List.length_take, Nat.min_eq_left (by omega)]; simp
    have vb : limbsValue (b.take (i + 1)) = limbsValue (b.take i) + BASE ^ i * b.getD i 0 := by
      rw [tb, limbsValue_append, List.length_take, Nat.min_eq_left (by omega)]; simp
    unfold cmpAbsLoop
    by_cases he : a.getD i 0 = b.getD i 0
    · simp only [he, ne_eq, not_true_eq_false, if_false]
      rcases ih (by omega) (by omega) with h | h | h
      · left; refine ⟨h.1, ?_⟩; rw [va, vb, he]; omega
      · right; left; refine ⟨h.1, ?_⟩; rw [ta, tb, h.2, he]
      · right; right; refine ⟨h.1, ?_⟩; rw [va, vb, he]; omega
    · simp only [ne_eq, he, not_false_eq_true, if_true]
      by_cases hlt : a.getD i 0 < b.getD i 0
      · left
        simp only [hlt, if_true, true_and]
        rw [va, vb]
        have : BASE ^ i * (a.getD i 0 + 1) ≤ BASE ^ i * b.getD i 0 :=
          Nat.mul_le_mul_left _ hlt
        rw [Nat.mul_add, Nat.mul_one] at this
        omega
      · right; right
        simp only [hlt, if_false, true_and]
        rw [va, vb]
        have hgt : b.getD i 0 < a.getD i 0 := by omega
        have : BASE ^ i * (b.getD i 0 + 1) ≤ BASE ^ i * a.getD i 0 :=
          Nat.mul_le_mul_left _ hgt
        rw [Nat.mul_add, Nat.mul_one] at this
        omega

theorem cmpAbs_spec (a b : BigInt) (ha : ∀ x ∈ a.limbs_, x < BASE)
    (hb : ∀ x ∈ b.limbs_, x < BASE) (ga : a.limbs_.getLast? ≠ some 0)
    (gb : b.limbs_.getLast? ≠ some 0) :
    (cmpAbs a b = -1 ∧ limbsValue a.limbs_ < limbsValue b.limbs_) ∨
    (cmpAbs a b = 0 ∧ a.limbs_ = b.limbs_) ∨
    (cmpAbs a b = 1 ∧ limbsValue b.limbs_ < limbsValue a.limbs_) := by
  unfold cmpAbs
  by_cases hlen : a.limbs_.length = b.limbs_.length
  · simp only [hlen, ne_eq, not_true_eq_false, if_false]
    have e1 : a.limbs_.take b.limbs_.length = a.limbs_ := by rw [← hlen, List.take_length]
    have := cmpAbsLoop_spec a.limbs_ b.limbs_ ha hb b.limbs_.length (by omega) le_rfl
    rw [List.take_length, e1] at this
    exact this
  · simp only [ne_eq, hlen, not_false_eq_true, if_true]
    by_cases hlt : a.limbs_.length < b.limbs_.length
    · left
      simp only [hlt, if_true, true_and]
      have hne : b.limbs_ ≠ [] := List.length_pos.mp (by omega)
      have h1 := limbsValue_lt a.limbs_ ha
      have h2 := limbsValue_ge_pow b.limbs_ gb hne
      have h3 : BASE ^ a.limbs_.length ≤ BASE ^ (b.limbs_.length - 1) :=
        Nat.pow_le_pow_right (by decide) (by omega)
      omega
    · right; right
      simp only [hlt, if_false, true_and]
      have hne : a.limbs_ ≠ [] := List.length_pos.mp (by omega)
      have h1 := limbsValue_lt b.limbs_ hb
      have h2 := limbsValue_ge_pow a.limbs_ ga hne
      have h3 : BASE ^ b.limbs_.length ≤ BASE ^ (a.limbs_.length - 1) :=
        Nat.pow_le_pow_right (by decide) (by omega)
      omega

end BigInt

namespace BigInt

/-! ## Magnitude subtraction -/

theorem castU32_of_lt (d : Int) (h0 : 0 ≤ d) (h1 : d < 4294967296) : (castU32 d : Int) = d := by
  unfold castU32
  rw [Int.emod_eq_of_lt h0 h1]
  exact Int.toNat_of_nonneg h0

theorem subAbsLoop_spec (a b : List Nat) (ha : ∀ x ∈ a, x < BASE) (hb : ∀ x ∈ b, x < BASE) :
    ∀ (k i : Nat) (borrow : Int) (res : List Nat), res.length = i + k → a.length ≤ i + k →
      b.length ≤ i + k → (borrow = 0 ∨ borrow = 1) → (∀ j, i ≤ j → res.getD j 0 = 0) →
      (∀ x ∈ res, x < BASE) →
      (subAbsLoop a b k i borrow res).length = i + k ∧
      (∀ x ∈ subAbsLoop a b k i borrow res, x < BASE) ∧
      ∃ bo : Int, (bo = 0 ∨ bo = 1) ∧
        (limbsValue (subAbsLoop a b k i borrow res) : Int) =
          limbsValue res +
            ((limbsValue (a.drop i) : Int) - limbsValue (b.drop i) - borrow) * (BASE : Int) ^ i +
            bo * (BASE : Int) ^ (i + k) := by
  intro k
  induction k with
  | zero =>
    intro i borrow res hlen hal hbl hc hz hres
    have h1 : a.drop i = [] := List.drop_eq_nil_of_le (by omega)
    have h2 : b.drop i = [] := List.drop_eq_nil_of_le (by omega)
    simp only [subAbsLoop, h1, h2, limbsValue_nil, add_zero]
    refine ⟨hlen, hres, borrow, hc, ?_⟩
    push_cast
    ring
  | succ k ih =>
    intro i borrow res hlen hal hbl hc hz hres
    have hai := getD_lt_of_forall a ha i
    have hbi := getD_lt_of_forall b hb i
    have hB : (BASE : Int) = 1000000000 := rfl
    have hBn : BASE = 1000000000 := rfl
    have eb : (if i < b.length then (a.getD i 0 : Int) - borrow - (b.getD i 0 : Int)
        else (a.getD i 0 : Int) - borrow) = (a.getD i 0 : Int) - borrow - (b.getD i 0 : Int) := by
      split
      · rfl
      · rw [List.getD_eq_default b _ (by omega)]; simp
    have hi : i < res.length := by omega
    have hda := limbsValue_drop a i
    have hdb := limbsValue_drop b i
    have e2 : i + 1 + k = i + (k + 1) := by omega
    simp only [subAbsLoop, eb]
    set d : Int := (a.getD i 0 : Int) - borrow - (b.getD i 0 : Int) with hd
    have hd1 : -(BASE : Int) ≤ d := by rcases hc with h | h <;> omega
    have hd2 : d < (BASE : Int) := by rcases hc with h | h <;> omega
    by_cases hneg : d < 0
    · simp only [hneg, if_true]
      have hv := castU32_of_lt (d + (BASE : Int)) (by omega) (by omega)
      set v := castU32 (d + (BASE : Int)) with hvdef
      have hvlt : v < BASE := by omega
      have hz1 : ∀ j, i + 1 ≤ j → (res.set i v).getD j 0 = 0 := by
        intro j hj
        rw [List.getD_eq_getElem?_getD, List.getElem?_set_ne (by omega),
          ← List.getD_eq_getElem?_getD]
        exact hz j (by omega)
      obtain ⟨r1, r2, bo, r3, r4⟩ := ih (i + 1) 1 (res.set i v)
        (by simp; omega) (by omega) (by omega) (Or.inr rfl) hz1
        (forall_lt_set res hres i v hvlt)
      refine ⟨by omega, r2, bo, r3, ?_⟩
      rw [e2] at r4
      rw [r4]
      have hset := limbsValue_set res i v hi
      rw [hz i le_rfl] at hset
      simp only [zero_mul, add_zero] at hset
      rw [hset, hda, hdb]
      push_cast
      rw [hv, pow_succ]
      rw [hd]
      ring
    · simp only [hneg, if_false]
      have hv := castU32_of_lt d (by omega) (by omega)
      set v := castU32 d with hvdef
      have hvlt : v < BASE := by omega
      have hz1 : ∀ j, i + 1 ≤ j → (res.set i v).getD j 0 = 0 := by
        intro j hj
        rw [List.getD_eq_getElem?_getD, List.getElem?_set_ne (by omega),
          ← List.getD_eq_getElem?_getD]
        exact hz j (by omega)
      obtain ⟨r1, r2, bo, r3, r4⟩ := ih (i + 1) 0 (res.set i v)
        (by simp; omega) (by omega) (by omega) (Or.inl rfl) hz1
        (forall_lt_set res hres i v hvlt)
      refine ⟨by omega, r2, bo, r3, ?_⟩
      rw [e2] at r4
      rw [r4]
      have hset := limbsValue_set res i v hi
      rw [hz i le_rfl] at hset
      simp only [zero_mul, add_zero] at hset
      rw [hset, hda, hdb]
      push_cast
      rw [hv, pow_succ]
      rw [hd]
      ring

theorem subAbs_limbs_value (a b : BigInt) (ha : ∀ x ∈ a.limbs_, x < BASE)
    (hb : ∀ x ∈ b.limbs_, x < BASE) (hlen : b.limbs_.length ≤ a.limbs_.length)
    (hle : limbsValue b.limbs_ ≤ limbsValue a.limbs_) :
    limbsValue (subAbs a b).limbs_ + limbsValue b.limbs_ = limbsValue a.limbs_ ∧
    ∀ x ∈ (subAbs a b).limbs_, x < BASE := by
  obtain ⟨r1, r2, bo, r3, r4⟩ := subAbsLoop_spec a.limbs_ b.limbs_ ha hb
    a.limbs_.length 0 0 (List.replicate a.limbs_.length 0)
    (by simp) (by simp) (by simpa using hlen) (Or.inl rfl)
    (fun j _ => replicate_zero_getD _ j) (replicate_zero_lt _)
  simp only [zero_add, List.drop_zero, limbsValue_replicate_zero, pow_zero, mul_one,
    sub_zero, Nat.cast_zero] at r1 r4
  unfold subAbs
  simp only []
  set r := subAbsLoop a.limbs_ b.limbs_ a.limbs_.length 0 0
    (List.replicate a.limbs_.length 0) with hr
  have hlt := limbsValue_lt r r2
  rw [r1] at hlt
  have hlt2 : (limbsValue r : Int) < (BASE : Int) ^ a.limbs_.length := by exact_mod_cast hlt
  have hle2 : (limbsValue b.limbs_ : Int) ≤ limbsValue a.limbs_ := by exact_mod_cast hle
  have hbo : bo = 0 := by
    rcases r3 with h | h
    · exact h
    · rw [h] at r4
      omega
  rw [hbo] at r4
  constructor
  · rw [normalize_limbs_value]
    simp only []
    have : (limbsValue r : Int) + limbsValue b.limbs_ = limbsValue a.limbs_ := by
      rw [r4]; ring
    exact_mod_cast this
  · exact normalize_limbs_lt _ r2

end BigInt

namespace BigInt

/-! ## Signed addition -/

theorem length_le_of_value_le (l1 l2 : List Nat) (h1 : ∀ x ∈ l1, x < BASE)
    (g2 : l2.getLast? ≠ some 0) (h : limbsValue l2 ≤ limbsValue l1) :
    l2.length ≤ l1.length := by
  by_contra hc
  have hne : l2 ≠ [] := List.length_pos.mp (by omega)
  have a1 := limbsValue_lt l1 h1
  have a2 := limbsValue_ge_pow l2 g2 hne
  have a3 : BASE ^ l1.length ≤ BASE ^ (l2.length - 1) :=
    Nat.pow_le_pow_right (by decide) (by omega)
  omega

theorem canonical_sign_cases (v : BigInt) (h : canonical v) (h0 : v.sign_ ≠ 0) :
    v.sign_ = -1 ∨ v.sign_ = 1 := by
  rcases h.1 with h1 | h1 | h1
  · exact Or.inl h1
  · exact absurd h1 h0
  · exact Or.inr h1

theorem value_mk (s : Int) (l : List Nat) : value ⟨s, l⟩ = s * (limbsValue l : Int) := rfl

theorem add_value (a b : BigInt) (ha : canonical a) (hb : canonical b) :
    value (add a b) = value a + value b := by
  unfold add
  by_cases ha0 : a.sign_ = 0
  · simp [ha0, value]
  by_cases hb0 : b.sign_ = 0
  · simp [ha0, hb0, value]
  simp only [ha0, hb0, if_false]
  obtain ⟨_, _, ga, la⟩ := id ha
  obtain ⟨_, _, gb, lb⟩ := id hb
  by_cases hs : a.sign_ = b.sign_
  · simp only [hs, if_true]
    rw [normalize_value, value_mk, (addAbs_limbs_value a b la lb).1]
    simp only [value, hs]
    push_cast
    ring
  · simp only [hs, if_false]
    have hsb : b.sign_ = -a.sign_ := by
      rcases canonical_sign_cases a ha ha0 with h1 | h1 <;>
      rcases canonical_sign_cases b hb hb0 with h2 | h2 <;> simp_all
    rcases cmpAbs_spec a b la lb ga gb with ⟨hc, hv⟩ | ⟨hc, hv⟩ | ⟨hc, hv⟩
    · simp only [hc]
      have hlen := length_le_of_value_le b.limbs_ a.limbs_ lb ga (le_of_lt hv)
      have hsub := (subAbs_limbs_value b a lb la hlen (le_of_lt hv)).1
      rw [if_neg (by decide), if_neg (by decide), normalize_value, value_mk]
      simp only [value, hsb]
      have : (limbsValue (subAbs b a).limbs_ : Int) + limbsValue a.limbs_ = limbsValue b.limbs_ := by
        exact_mod_cast hsub
      linear_combination (-a.sign_) * this
    · simp only [hc, if_true]
      simp only [value, hsb, hv, zero]
      simp
    · simp only [hc]
      have hlen := length_le_of_value_le a.limbs_ b.limbs_ la gb (le_of_lt hv)
      have hsub := (subAbs_limbs_value a b la lb hlen (le_of_lt hv)).1
      rw [if_neg (by decide), if_pos (by decide), normalize_value, value_mk]
      simp only [value, hsb]
      have : (limbsValue (subAbs a b).limbs_ : Int) + limbsValue b.limbs_ = limbsValue a.limbs_ := by
        exact_mod_cast hsub
      linear_combination (a.sign_) * this

theorem zero_canonical : canonical zero := by decide

theorem add_canonical (a b : BigInt) (ha : canonical a) (hb : canonical b) :
    canonical (add a b) := by
  unfold add
  by_cases ha0 : a.sign_ = 0
  · simpa [ha0] using hb
  by_cases hb0 : b.sign_ = 0
  · simpa [ha0, hb0] using ha
  simp only [ha0, hb0, if_false]
  obtain ⟨_, _, ga, la⟩ := id ha
  obtain ⟨_, _, gb, lb⟩ := id hb
  have sa := canonical_sign_cases a ha ha0
  have sb := canonical_sign_cases b hb hb0
  by_cases hs : a.sign_ = b.sign_
  · simp only [hs, if_true]
    exact normalize_canonical _ sb (addAbs_limbs_value a b la lb).2
  · simp only [hs, if_false]
    rcases cmpAbs_spec a b la lb ga gb with ⟨hc, hv⟩ | ⟨hc, hv⟩ | ⟨hc, hv⟩
    · simp only [hc]
      have hlen := length_le_of_value_le b.limbs_ a.limbs_ lb ga (le_of_lt hv)
      rw [if_neg (by decide), if_neg (by decide)]
      exact normalize_canonical _ sb (subAbs_limbs_value b a lb la hlen (le_of_lt hv)).2
    · simp only [hc, if_true]
      exact zero_canonical
    · simp only [hc]
      have hlen := length_le_of_value_le a.limbs_ b.limbs_ la gb (le_of_lt hv)
      rw [if_neg (by decide), if_pos (by decide)]
      exact normalize_canonical _ sa (subAbs_limbs_value a b la lb hlen (le_of_lt hv)).2

theorem neg_canonical (a : BigInt) (ha : canonical a) : canonical (neg a) := by
  unfold neg
  by_cases h0 : a.sign_ = 0
  · simpa [h0] using ha
  · simp only [ne_eq, h0, not_false_eq_true, if_true]
    obtain ⟨h1, h2, h3, h4⟩ := ha
    refine ⟨?_, ?_, h3, h4⟩
    · rcases h1 with h | h | h <;> simp [h]
    · simp only [neg_eq_zero]; exact h2

theorem neg_value (a : BigInt) : value (neg a) = - value a := by
  unfold neg
  by_cases h0 : a.sign_ = 0
  · simp [h0, value]
  · simp [h0, value]

theorem sub_value (a b : BigInt) (ha : canonical a) (hb : canonical b) :
    value (sub a b) = value a - value b := by
  unfold sub
  rw [add_value a (neg b) ha (neg_canonical b hb), neg_value]
  ring

theorem sub_canonical (a b : BigInt) (ha : canonical a) (hb : canonical b) :
    canonical (sub a b) :=
  add_canonical a (neg b) ha (neg_canonical b hb)

end BigInt

namespace BigInt

/-! ## Schoolbook multiplication -/

theorem mulAbsInner_spec (a b : List Nat) (i : Nat) (ha : ∀ x ∈ a, x < BASE)
    (hb : ∀ x ∈ b, x < BASE) :
    ∀ (k j carry : Nat) (res : List Nat), j + k = b.length → i + b.length < res.length →
      carry < BASE → (∀ x ∈ res, x < BASE) →
      (mulAbsInner a b i k j carry res).1.length = res.length ∧
      (mulAbsInner a b i k j carry res).2 < BASE ∧
      (∀ x ∈ (mulAbsInner a b i k j carry res).1, x < BASE) ∧
      limbsValue (mulAbsInner a b i k j carry res).1 +
          (mulAbsInner a b i k j carry res).2 * BASE ^ (i + j + k) =
        limbsValue res + (a.getD i 0 * limbsValue (b.drop j) + carry) * BASE ^ (i + j) := by
  intro k
  induction k with
  | zero =>
    intro j carry res hj hlen hc hres
    have h1 : b.drop j = [] := List.drop_eq_nil_of_le (by omega)
    simp only [mulAbsInner, h1, limbsValue_nil, add_zero, mul_zero, zero_add]
    exact ⟨trivial, hc, hres, trivial⟩
  | succ k ih =>
    intro j carry res hj hlen hc hres
    have hai := getD_lt_of_forall a ha i
    have hbj := getD_lt_of_forall b hb j
    have hr := getD_lt_of_forall res hres (i + j)
    have hB : BASE = 1000000000 := rfl
    have hprod : a.getD i 0 * b.getD j 0 ≤ (BASE - 1) * (BASE - 1) :=
      Nat.mul_le_mul (by omega) (by omega)
    have h2 : (BASE - 1) * (BASE - 1) = 999999998000000001 := by decide
    have e1 : u64 (u64 (res.getD (i + j) 0 + u64 (a.getD i 0 * b.getD j 0)) + carry) =
        res.getD (i + j) 0 + a.getD i 0 * b.getD j 0 + carry := by
      rw [u64_of_lt (a.getD i 0 * b.getD j 0) (by omega),
        u64_of_lt (res.getD (i + j) 0 + a.getD i 0 * b.getD j 0) (by omega),
        u64_of_lt _ (by omega)]
    simp only [mulAbsInner, e1]
    set s := res.getD (i + j) 0 + a.getD i 0 * b.getD j 0 + carry with hs
    have hmod : s % BASE < BASE := Nat.mod_lt _ (by decide)
    have hdiv : s / BASE < BASE := by
      apply Nat.div_lt_of_lt_mul
      have : BASE * BASE = 1000000000000000000 := by decide
      omega
    rw [u32_of_lt _ (by omega)]
    obtain ⟨r1, r2, r3, r4⟩ := ih (j + 1) (s / BASE) (res.set (i + j) (s % BASE))
      (by omega) (by simpa using hlen) hdiv (forall_lt_set res hres _ _ hmod)
    refine ⟨by simpa using r1, r2, r3, ?_⟩
    have hset := limbsValue_set res (i + j) (s % BASE) (by omega)
    have hdb := limbsValue_drop b j
    have hdm := Nat.div_add_mod s BASE
    rw [hdb]
    have e2 : i + (j + 1) + k = i + j + (k + 1) := by omega
    rw [e2] at r4
    clear_value s
    zify at r4 hset hdm hs ⊢
    linear_combination r4 + hset + (BASE : Int) ^ (i + j) * hdm + (BASE : Int) ^ (i + j) * hs

theorem mulAbsCarry_spec :
    ∀ (fuel k carry2 : Nat) (res : List Nat), res.length ≤ k + 1 + fuel → carry2 < BASE →
      (∀ x ∈ res, x < BASE) →
      limbsValue res + carry2 * BASE ^ (k + 1) < BASE ^ res.length →
      (mulAbsCarry fuel k carry2 res).1 = 0 ∧
      (mulAbsCarry fuel k carry2 res).2.length = res.length ∧
      (∀ x ∈ (mulAbsCarry fuel k carry2 res).2, x < BASE) ∧
      limbsValue (mulAbsCarry fuel k carry2 res).2 =
        limbsValue res + carry2 * BASE ^ (k + 1) := by
  intro fuel
  have hB : BASE = 1000000000 := rfl
  have key : ∀ (k carry2 : Nat) (res : List Nat), carry2 ≠ 0 →
      limbsValue res + carry2 * BASE ^ (k + 1) < BASE ^ res.length → k + 1 < res.length := by
    intro k carry2 res hc hT
    by_contra hcon
    have h1 : BASE ^ res.length ≤ BASE ^ (k + 1) := Nat.pow_le_pow_right (by decide) (by omega)
    have h2 : 1 * BASE ^ (k + 1) ≤ carry2 * BASE ^ (k + 1) :=
      Nat.mul_le_mul_right _ (Nat.one_le_iff_ne_zero.mpr hc)
    omega
  induction fuel with
  | zero =>
    intro k carry2 res hf hc hres hT
    have h0 : carry2 = 0 := by
      by_contra hcon
      have := key k carry2 res hcon hT
      omega
    subst h0
    simp only [mulAbsCarry, zero_mul, add_zero]
    exact ⟨trivial, trivial, hres, trivial⟩
  | succ fuel ih =>
    intro k carry2 res hf hc hres hT
    by_cases h0 : carry2 = 0
    · subst h0
      simp only [mulAbsCarry, ne_eq, not_true_eq_false, if_false, zero_mul, add_zero]
      exact ⟨trivial, trivial, hres, trivial⟩
    · have hk := key k carry2 res h0 hT
      have hr := getD_lt_of_forall res hres (k + 1)
      have e0 : (if k + 1 ≥ res.length then res ++ [0] else res) = res := by
        rw [if_neg (by omega)]
      simp only [mulAbsCarry, ne_eq, h0, not_false_eq_true, if_true, e0]
      rw [u64_of_lt (res.getD (k + 1) 0 + carry2) (by omega)]
      set s := res.getD (k + 1) 0 + carry2 with hs
      have hmod : s % BASE < BASE := Nat.mod_lt _ (by decide)
      have hdiv : s / BASE < BASE := by
        apply Nat.div_lt_of_lt_mul
        have : BASE * BASE = 1000000000000000000 := by decide
        omega
      rw [u32_of_lt _ (by omega)]
      have hset := limbsValue_set res (k + 1) (s % BASE) hk
      have hdm := Nat.div_add_mod s BASE
      have hval : limbsValue (res.set (k + 1) (s % BASE)) + s / BASE * BASE ^ (k + 1 + 1) =
          limbsValue res + carry2 * BASE ^ (k + 1) := by
        clear_value s
        zify at hset hdm hs ⊢
        linear_combination hset + (BASE : Int) ^ (k + 1) * hdm + (BASE : Int) ^ (k + 1) * hs
      obtain ⟨r1, r2, r3, r4⟩ := ih (k + 1) (s / BASE) (res.set (k + 1) (s % BASE))
        (by simp; omega) hdiv (forall_lt_set res hres _ _ hmod)
        (by rw [hval]; simpa using hT)
      refine ⟨r1, by simpa using r2, r3, ?_⟩
      rw [r4, hval]

theorem limbsValue_take_succ (l : List Nat) (i : Nat) (h : i < l.length) :
    limbsValue (l.take (i + 1)) = limbsValue (l.take i) + BASE ^ i * l.getD i 0 := by
  rw [take_succ_getD l i h, limbsValue_append, List.length_take, Nat.min_eq_left (by omega)]
  simp

theorem mulAbsOuter_spec (a b : List Nat) (ha : ∀ x ∈ a, x < BASE) (hb : ∀ x ∈ b, x < BASE) :
    ∀ (n i : Nat) (res : List Nat), i + n = a.length →
      res.length = a.length + b.length + 1 → (∀ x ∈ res, x < BASE) →
      limbsValue res = limbsValue (a.take i) * limbsValue b →
      (mulAbsOuter a b n i res).length = res.length ∧
      (∀ x ∈ mulAbsOuter a b n i res, x < BASE) ∧
      limbsValue (mulAbsOuter a b n i res) = limbsValue a * limbsValue b := by
  intro n
  have hB : BASE = 1000000000 := rfl
  induction n with
  | zero =>
    intro i res hi hlen hres hv
    have : a.take i = a := List.take_of_length_le (by omega)
    simp only [mulAbsOuter]
    exact ⟨trivial, hres, by rw [hv, this]⟩
  | succ n ih =>
    intro i res hi hlen hres hv
    simp only [mulAbsOuter]
    obtain ⟨r1, r2, r3, r4⟩ := mulAbsInner_spec a b i ha hb b.length 0 0 res
      (by omega) (by omega) (by decide) hres
    set r := mulAbsInner a b i b.length 0 0 res with hr
    have hk := getD_lt_of_forall r.1 r3 (i + b.length)
    rw [u64_of_lt (r.1.getD (i + b.length) 0 + r.2) (by omega)]
    set s := r.1.getD (i + b.length) 0 + r.2 with hs
    have hmod : s % BASE < BASE := Nat.mod_lt _ (by decide)
    have hdiv : s / BASE < BASE := by
      apply Nat.div_lt_of_lt_mul
      have : BASE * BASE = 1000000000000000000 := by decide
      omega
    rw [u32_of_lt _ (by omega)]
    set res1 := r.1.set (i + b.length) (s % BASE) with hres1
    have hlen1 : res1.length = res.length := by simp [hres1, r1]
    have hset := limbsValue_set r.1 (i + b.length) (s % BASE) (by omega)
    have hdm := Nat.div_add_mod s BASE
    simp only [List.drop_zero, add_zero, zero_add] at r4
    have htake := limbsValue_take_succ a i (by omega)
    have hval : limbsValue res1 + s / BASE * BASE ^ (i + b.length + 1) =
        limbsValue (a.take (i + 1)) * limbsValue b := by
      rw [htake, hres1]
      clear_value res1 s
      zify at hset hdm r4 hv hs ⊢
      linear_combination hset + (BASE : Int) ^ (i + b.length) * hdm + r4 + hv
        + (BASE : Int) ^ (i + b.length) * hs
    have hbound : limbsValue (a.take (i + 1)) * limbsValue b < BASE ^ res1.length := by
      have h1 : limbsValue (a.take (i + 1)) < BASE ^ (i + 1) := by
        have := limbsValue_lt (a.take (i + 1)) (fun x hx => ha x (List.mem_of_mem_take hx))
        rwa [List.length_take, Nat.min_eq_left (by omega)] at this
      have h2 := limbsValue_lt b hb
      have h3 : limbsValue (a.take (i + 1)) * limbsValue b < BASE ^ (i + 1) * BASE ^ b.length :=
        Nat.mul_lt_mul'' h1 h2
      rw [← pow_add] at h3
      have h4 : BASE ^ (i + 1 + b.length) ≤ BASE ^ res1.length :=
        Nat.pow_le_pow_right (by decide) (by omega)
      omega
    obtain ⟨c1, c2, c3, c4⟩ := mulAbsCarry_spec (res1.length + 4) (i + b.length) (s / BASE) res1
      (by omega) hdiv (forall_lt_set r.1 r3 _ _ hmod) (by rw [hval]; exact hbound)
    obtain ⟨d1, d2, d3⟩ := ih (i + 1) (mulAbsCarry (res1.length + 4) (i + b.length) (s / BASE) res1).2
      (by omega) (by omega) c3 (by rw [c4, hval])
    exact ⟨by omega, d2, d3⟩

theorem mulAbs_limbs_value (a b : BigInt) (ha : canonical a) (hb : canonical b) :
    limbsValue (mulAbs a b).limbs_ = limbsValue a.limbs_ * limbsValue b.limbs_ ∧
    ∀ x ∈ (mulAbs a b).limbs_, x < BASE := by
  unfold mulAbs
  split
  · rename_i h
    rcases h with h | h
    · simp [zero, ha.2.1.mp h]
    · simp [zero, hb.2.1.mp h]
  · obtain ⟨r1, r2, r3⟩ := mulAbsOuter_spec a.limbs_ b.limbs_ ha.2.2.2 hb.2.2.2
      a.limbs_.length 0 (List.replicate (a.limbs_.length + b.limbs_.length + 1) 0)
      (by simp) (by simp) (replicate_zero_lt _) (by simp)
    exact ⟨by rw [normalize_limbs_value]; exact r3, normalize_limbs_lt _ r2⟩

theorem mul_value (a b : BigInt) (ha : canonical a) (hb : canonical b) :
    value (mul a b) = value a * value b := by
  unfold mul
  split
  · rename_i h
    rcases h with h | h <;> simp [zero, value, h]
  · rw [normalize_value, value_mk, (mulAbs_limbs_value a b ha hb).1]
    simp only [value]
    push_cast
    ring

theorem mul_canonical (a b : BigInt) (ha : canonical a) (hb : canonical b) :
    canonical (mul a b) := by
  unfold mul
  split
  · exact zero_canonical
  · rename_i h
    have h1 : a.sign_ ≠ 0 := fun h0 => h (Or.inl h0)
    have h2 : b.sign_ ≠ 0 := fun h0 => h (Or.inr h0)
    refine normalize_canonical ⟨a.sign_ * b.sign_, (mulAbs a b).limbs_⟩ ?_
      (mulAbs_limbs_value a b ha hb).2
    rcases canonical_sign_cases a ha h1 with s1 | s1 <;>
    rcases canonical_sign_cases b hb h2 with s2 | s2 <;> simp [s1, s2]

end BigInt

namespace BigInt

/-! ## Quotient-digit search -/

theorem modAbsSearch_spec (ds rem : BigInt) (P : Nat → Prop)
    (hP : ∀ mid, mid < BASE → (cmpAbs (mulAbsByUint ds mid) rem ≤ 0 ↔ P mid))
    (hmono : ∀ q q1, q1 ≤ q → P q → P q1) (h0 : P 0) :
    ∀ (fuel low high best : Nat), high + 1 - low < 2 ^ fuel → low ≤ high + 1 → high < BASE →
      P best → (best + 1 = low ∨ (best = 0 ∧ low = 0)) →
      (∀ q, high < q → q < BASE → ¬ P q) →
      modAbsSearch ds rem fuel low high best < BASE ∧
      P (modAbsSearch ds rem fuel low high best) ∧
      ∀ q, q < BASE → P q → q ≤ modAbsSearch ds rem fuel low high best := by
  intro fuel
  have hB : BASE = 1000000000 := rfl
  have done : ∀ (low high best : Nat), low = high + 1 → high < BASE → P best →
      (best + 1 = low ∨ (best = 0 ∧ low = 0)) → (∀ q, high < q → q < BASE → ¬ P q) →
      best < BASE ∧ P best ∧ ∀ q, q < BASE → P q → q ≤ best := by
    intro low high best hl hh hb hbl hq
    refine ⟨by omega, hb, ?_⟩
    intro q hq1 hq2
    by_contra hc
    exact hq q (by omega) hq1 hq2
  induction fuel with
  | zero =>
    intro low high best hsz hl hh hb hbl hq
    simp only [modAbsSearch]
    exact done low high best (by simp at hsz; omega) hh hb hbl hq
  | succ fuel ih =>
    intro low high best hsz hl hh hb hbl hq
    simp only [modAbsSearch]
    by_cases hlh : low ≤ high
    · simp only [hlh, if_true]
      have hmid1 : low + (high - low) / 2 ≤ high := by omega
      have hmid0 : low ≤ low + (high - low) / 2 := by omega
      rw [u32_of_lt (low + (high - low) / 2) (by omega)]
      set mid := low + (high - low) / 2 with hmid
      have hpow : 2 ^ (fuel + 1) = 2 * 2 ^ fuel := by ring
      by_cases hc : cmpAbs (mulAbsByUint ds mid) rem ≤ 0
      · simp only [hc, if_true]
        rw [u32_of_lt (mid + 1) (by omega)]
        have hPmid : P mid := (hP mid (by omega)).mp hc
        exact ih (mid + 1) high mid (by omega) (by omega) hh hPmid (Or.inl rfl) hq
      · simp only [hc, if_false]
        have hPmid : ¬ P mid := fun h => hc ((hP mid (by omega)).mpr h)
        have hm0 : mid ≠ 0 := by
          intro h
          rw [h] at hPmid
          exact hPmid h0
        simp only [hm0, if_false]
        apply ih low (mid - 1) best (by omega) (by omega) (by omega) hb hbl
        intro q hq1 hq2 hq3
        exact hPmid (hmono q mid (by omega) hq3)
    · simp only [hlh, if_false]
      exact done low high best (by omega) hh hb hbl hq

end BigInt

namespace BigInt

/-! ## Long division -/

theorem value_of_nonneg (v : BigInt) (h : canonical v) (hs : v.sign_ ≠ -1) :
    value v = (limbsValue v.limbs_ : Int) := by
  unfold value
  rcases h.1 with h1 | h1 | h1
  · exact absurd h1 hs
  · rw [h1, h.2.1.mp h1]; simp
  · rw [h1]; simp

theorem sign_of_value_nonneg (v : BigInt) (h : canonical v) (hv : 0 ≤ value v) :
    v.sign_ ≠ -1 := by
  intro hs
  have hne : v.limbs_ ≠ [] := by
    intro h0
    have := h.2.1.mpr h0
    omega
  have hpos := limbsValue_pos v.limbs_ h.2.2.1 hne
  unfold value at hv
  rw [hs] at hv
  have : (0 : Int) < limbsValue v.limbs_ := by exact_mod_cast hpos
  omega

theorem normalize_canonical_of (v : BigInt) (hs : v.sign_ = -1 ∨ v.sign_ = 1)
    (h : ∀ x ∈ (normalize v).limbs_, x < BASE) : canonical (normalize v) := by
  refine ⟨?_, ?_, normalize_getLast v, h⟩
  · rw [normalize_sign_eq]
    split
    · exact Or.inr (Or.inl rfl)
    · exact Or.elim hs Or.inl (fun h1 => Or.inr (Or.inr h1))
  · rw [normalize_sign_eq, normalize_limbs_eq]
    split
    · simp_all
    · rename_i h0
      simp only [h0, iff_false]
      rcases hs with hs | hs <;> simp [hs]

theorem mulAbsByUint_canonical (a : BigInt) (m : Nat) (ha : ∀ x ∈ a.limbs_, x < BASE)
    (hm : m < BASE) (h0 : a.sign_ = 0 → a.limbs_ = []) :
    canonical (mulAbsByUint a m) ∧ (mulAbsByUint a m).sign_ ≠ -1 := by
  have hl := (mulAbsByUint_limbs_value a m ha hm h0).2
  unfold mulAbsByUint at hl ⊢
  split
  · exact ⟨zero_canonical, by decide⟩
  · rename_i h
    rw [if_neg h] at hl
    simp only [] at hl ⊢
    refine ⟨normalize_canonical_of _ (Or.inr rfl) hl, ?_⟩
    rw [normalize_sign_eq]
    have key : ∀ (c : Prop) [Decidable c], (if c then (0 : Int) else 1) ≠ -1 := by
      intro c _
      split <;> decide
    exact key _

theorem modAbs_step (ds rem : BigInt) (hds : ds.sign_ = 1) (hdl : ∀ x ∈ ds.limbs_, x < BASE)
    (hD : 0 < limbsValue ds.limbs_) (hrem : canonical rem) (hs : rem.sign_ ≠ -1)
    (hR : limbsValue rem.limbs_ < limbsValue ds.limbs_ * BASE) :
    modAbsSearch ds rem 32 0 (BASE - 1) 0 = limbsValue rem.limbs_ / limbsValue ds.limbs_ ∧
    canonical (if modAbsSearch ds rem 32 0 (BASE - 1) 0 ≠ 0
      then sub rem (mulAbsByUint ds (modAbsSearch ds rem 32 0 (BASE - 1) 0)) else rem) ∧
    (if modAbsSearch ds rem 32 0 (BASE - 1) 0 ≠ 0
      then sub rem (mulAbsByUint ds (modAbsSearch ds rem 32 0 (BASE - 1) 0)) else rem).sign_ ≠ -1 ∧
    limbsValue (if modAbsSearch ds rem 32 0 (BASE - 1) 0 ≠ 0
      then sub rem (mulAbsByUint ds (modAbsSearch ds rem 32 0 (BASE - 1) 0))
      else rem).limbs_ = limbsValue rem.limbs_ % limbsValue ds.limbs_ := by
  have hB : BASE = 1000000000 := rfl
  have hsign0 : ds.sign_ = 0 → ds.limbs_ = [] := by
    intro h; rw [hds] at h; exact absurd h (by decide)
  set D := limbsValue ds.limbs_ with hDdef
  set R := limbsValue rem.limbs_ with hRdef
  have hP : ∀ mid, mid < BASE → (cmpAbs (mulAbsByUint ds mid) rem ≤ 0 ↔ D * mid ≤ R) := by
    intro mid hmid
    obtain ⟨v1, v2⟩ := mulAbsByUint_limbs_value ds mid hdl hmid hsign0
    obtain ⟨c1, _⟩ := mulAbsByUint_canonical ds mid hdl hmid hsign0
    rw [← hDdef] at v1
    rcases cmpAbs_spec (mulAbsByUint ds mid) rem v2 hrem.2.2.2 c1.2.2.1 hrem.2.2.1 with
      ⟨hc, hv⟩ | ⟨hc, hv⟩ | ⟨hc, hv⟩
    · rw [hc]
      rw [v1, ← hRdef] at hv
      constructor
      · intro _; exact le_of_lt hv
      · intro _; decide
    · rw [hc]
      have : limbsValue (mulAbsByUint ds mid).limbs_ = R := by rw [hv]
      rw [v1] at this
      constructor
      · intro _; exact le_of_eq this
      · intro _; decide
    · rw [hc]
      rw [v1, ← hRdef] at hv
      constructor
      · intro h; exact absurd h (by decide)
      · intro h; omega
  have hmono : ∀ q q1, q1 ≤ q → D * q ≤ R → D * q1 ≤ R := by
    intro q q1 h1 h2
    exact le_trans (Nat.mul_le_mul_left D h1) h2
  obtain ⟨s1, s2, s3⟩ := modAbsSearch_spec ds rem (fun q => D * q ≤ R) hP hmono (by simp)
    32 0 (BASE - 1) 0 (by rw [hB]; decide) (by omega) (by omega) (by simp)
    (Or.inr ⟨rfl, rfl⟩) (by intro q h1 h2; omega)
  set best := modAbsSearch ds rem 32 0 (BASE - 1) 0 with hbest
  have hq : R / D < BASE := Nat.div_lt_of_lt_mul hR
  have hbq : best = R / D := by
    apply le_antisymm
    · exact (Nat.le_div_iff_mul_le hD).mpr (by rw [Nat.mul_comm]; exact s2)
    · exact s3 (R / D) hq (Nat.mul_div_le R D)
  refine ⟨hbq, ?_⟩
  by_cases hb0 : best = 0
  · simp only [hb0, ne_eq, not_true_eq_false, if_false]
    refine ⟨hrem, hs, ?_⟩
    have : R / D = 0 := by rw [← hbq, hb0]
    rw [Nat.mod_eq_of_lt ((Nat.div_eq_zero_iff hD).mp this)]
  · simp only [ne_eq, hb0, not_false_eq_true, if_true]
    obtain ⟨v1, v2⟩ := mulAbsByUint_limbs_value ds best hdl s1 hsign0
    obtain ⟨c1, c2⟩ := mulAbsByUint_canonical ds best hdl s1 hsign0
    have hsc := sub_canonical rem (mulAbsByUint ds best) hrem c1
    have hsv := sub_value rem (mulAbsByUint ds best) hrem c1
    rw [value_of_nonneg rem hrem hs, value_of_nonneg _ c1 c2, v1, ← hDdef, ← hRdef] at hsv
    have hdm := Nat.div_add_mod R D
    rw [← hbq] at hdm
    have hval : value (sub rem (mulAbsByUint ds best)) = ((R % D : Nat) : Int) := by
      rw [hsv]
      clear_value D R best
      zify at hdm
      push_cast
      linear_combination -hdm
    have hnn : (sub rem (mulAbsByUint ds best)).sign_ ≠ -1 :=
      sign_of_value_nonneg _ hsc (by rw [hval]; exact Int.natCast_nonneg _)
    refine ⟨hsc, hnn, ?_⟩
    rw [value_of_nonneg _ hsc hnn] at hval
    exact_mod_cast hval

theorem modAbsLoop_spec (dl : List Nat) (hdl : ∀ x ∈ dl, x < BASE) (hD : 0 < limbsValue dl) :
    ∀ (k : Nat) (rem : BigInt), canonical rem → rem.sign_ ≠ -1 →
      limbsValue rem.limbs_ < limbsValue dl * BASE ^ k * BASE →
      canonical (modAbsLoop (k + 1) ⟨1, List.replicate k 0 ++ dl⟩ rem) ∧
      (modAbsLoop (k + 1) ⟨1, List.replicate k 0 ++ dl⟩ rem).sign_ ≠ -1 ∧
      limbsValue (modAbsLoop (k + 1) ⟨1, List.replicate k 0 ++ dl⟩ rem).limbs_ =
        limbsValue rem.limbs_ % limbsValue dl := by
  intro k
  have hval : ∀ k, limbsValue (List.replicate k 0 ++ dl) = limbsValue dl * BASE ^ k := by
    intro k
    rw [limbsValue_append]; simp [Nat.mul_comm]
  have hlt : ∀ k, ∀ x ∈ List.replicate k 0 ++ dl, x < BASE := by
    intro k x hx
    rcases List.mem_append.mp hx with h | h
    · exact replicate_zero_lt k x h
    · exact hdl x h
  have hpos : ∀ k, 0 < limbsValue dl * BASE ^ k := fun k =>
    Nat.mul_pos hD (pow_pos (by decide) k)
  induction k with
  | zero =>
    intro rem hrem hs hR
    obtain ⟨_, s1, s2, s3⟩ := modAbs_step ⟨1, List.replicate 0 0 ++ dl⟩ rem rfl (hlt 0)
      (by rw [hval]; exact hpos 0) hrem hs (by rw [hval]; exact hR)
    rw [hval] at s3
    simp only [pow_zero, mul_one] at s3
    simp only [modAbsLoop]
    exact ⟨s1, s2, s3⟩
  | succ k ih =>
    intro rem hrem hs hR
    obtain ⟨_, s1, s2, s3⟩ := modAbs_step ⟨1, List.replicate (k + 1) 0 ++ dl⟩ rem rfl (hlt (k + 1))
      (by rw [hval]; exact hpos (k + 1)) hrem hs (by rw [hval]; exact hR)
    rw [hval] at s3
    have hne : List.replicate (k + 1) 0 ++ dl ≠ [] := by simp [List.replicate_succ]
    have htail : (List.replicate (k + 1) 0 ++ dl).tail = List.replicate k 0 ++ dl := by
      simp [List.replicate_succ]
    rw [modAbsLoop]
    simp only [hne, ne_eq, not_false_eq_true, if_true, htail]
    have hlt2 : limbsValue rem.limbs_ % (limbsValue dl * BASE ^ (k + 1)) <
        limbsValue dl * BASE ^ k * BASE := by
      have := Nat.mod_lt (limbsValue rem.limbs_) (hpos (k + 1))
      exact lt_of_lt_of_eq this (by ring)
    obtain ⟨r1, r2, r3⟩ := ih _ s1 s2 (by rw [s3]; exact hlt2)
    refine ⟨r1, r2, ?_⟩
    rw [r3, s3]
    exact Nat.mod_mod_of_dvd _ (Dvd.intro _ rfl)

end BigInt

namespace BigInt

/-! ## Remainder -/

theorem absValue_canonical (v : BigInt) (h : canonical v) :
    canonical (absValue v) ∧ (absValue v).sign_ ≠ -1 ∧ (absValue v).limbs_ = v.limbs_ ∧
    (v.sign_ ≠ 0 → (absValue v).sign_ = 1) := by
  rcases h.1 with h1 | h1 | h1
  · have hne : v.limbs_ ≠ [] := fun h0 => by
      have := h.2.1.mpr h0
      omega
    have e : absValue v = ⟨1, v.limbs_⟩ := by
      unfold absValue
      rw [if_pos (by rw [h1]; decide)]
    rw [e]
    refine ⟨⟨Or.inr (Or.inr rfl), ?_, h.2.2.1, h.2.2.2⟩, by simp, rfl, fun _ => rfl⟩
    simp [hne]
  · have e : absValue v = v := by
      unfold absValue
      rw [if_neg (by rw [h1]; decide)]
    rw [e]
    exact ⟨h, by omega, rfl, fun h0 => absurd h1 h0⟩
  · have e : absValue v = v := by
      unfold absValue
      rw [if_neg (by rw [h1]; decide)]
    rw [e]
    exact ⟨h, by omega, rfl, fun _ => h1⟩

theorem modAbs_spec (a b : BigInt) (ha : canonical a) (hb : canonical b) (hb0 : b.sign_ ≠ 0) :
    ∃ r, modAbs a b = .ok r ∧ canonical r ∧ r.sign_ ≠ -1 ∧
      limbsValue r.limbs_ = limbsValue a.limbs_ % limbsValue b.limbs_ := by
  obtain ⟨ca, sa, la, _⟩ := absValue_canonical a ha
  obtain ⟨cb, _, lb, sb1⟩ := absValue_canonical b hb
  have sb := sb1 hb0
  have hbne : b.limbs_ ≠ [] := fun h0 => hb0 (hb.2.1.mpr h0)
  have hBpos := limbsValue_pos b.limbs_ hb.2.2.1 hbne
  unfold modAbs
  simp only [hb0, if_false]
  rcases cmpAbs_spec (absValue a) (absValue b) ca.2.2.2 cb.2.2.2 ca.2.2.1 cb.2.2.1 with
    ⟨hc, hv⟩ | ⟨hc, hv⟩ | ⟨hc, hv⟩
  · rw [hc, if_pos (by decide)]
    refine ⟨absValue a, rfl, ca, sa, ?_⟩
    rw [la, lb] at *
    exact (Nat.mod_eq_of_lt hv).symm
  all_goals
    rw [hc, if_neg (by decide)]
    have hle : limbsValue b.limbs_ ≤ limbsValue a.limbs_ := by
      first
        | (rw [la, lb] at hv; rw [hv])
        | (rw [la, lb] at hv; exact le_of_lt hv)
    have hlen := length_le_of_value_le a.limbs_ b.limbs_ ha.2.2.2 hb.2.2.1 hle
    have hR : limbsValue a.limbs_ <
        limbsValue b.limbs_ * BASE ^ (a.limbs_.length - b.limbs_.length) * BASE := by
      have h1 := limbsValue_lt a.limbs_ ha.2.2.2
      have h2 := limbsValue_ge_pow b.limbs_ hb.2.2.1 hbne
      have hpos : 0 < b.limbs_.length := List.length_pos.mpr hbne
      have e : a.limbs_.length =
          (b.limbs_.length - 1) + (a.limbs_.length - b.limbs_.length) + 1 := by omega
      have h3 : BASE ^ a.limbs_.length =
          BASE ^ (b.limbs_.length - 1) * BASE ^ (a.limbs_.length - b.limbs_.length) * BASE := by
        nth_rewrite 1 [e]
        rw [pow_succ, pow_add]
      have h4 : BASE ^ (b.limbs_.length - 1) * BASE ^ (a.limbs_.length - b.limbs_.length) * BASE
          ≤ limbsValue b.limbs_ * BASE ^ (a.limbs_.length - b.limbs_.length) * BASE :=
        Nat.mul_le_mul_right _ (Nat.mul_le_mul_right _ h2)
      omega
    obtain ⟨r1, r2, r3⟩ := modAbsLoop_spec b.limbs_ hb.2.2.2 hBpos
      (a.limbs_.length - b.limbs_.length) (absValue a) ca sa (by rw [la]; exact hR)
    rw [la] at r3
    simp only [la, lb, sb]
    rw [normalize_of_canonical _ r1]
    exact ⟨_, rfl, r1, r2, r3⟩

theorem mod_spec (a b : BigInt) (ha : canonical a) (hb : canonical b) (hb0 : b.sign_ ≠ 0) :
    ∃ r, mod a b = .ok r ∧ canonical r ∧ (r.sign_ = 0 ∨ r.sign_ = a.sign_) ∧
      value r = a.sign_ * ((limbsValue a.limbs_ % limbsValue b.limbs_ : Nat) : Int) := by
  unfold mod
  simp only [hb0, if_false]
  by_cases ha0 : a.sign_ = 0
  · simp only [ha0, if_true]
    exact ⟨zero, rfl, zero_canonical, Or.inl rfl, by simp [value, zero]⟩
  · simp only [ha0, if_false]
    obtain ⟨r, hr, cr, sr, vr⟩ := modAbs_spec a b ha hb hb0
    rw [hr]
    simp only []
    rcases canonical_sign_cases a ha ha0 with hs | hs
    · by_cases hr0 : r.sign_ = 0
      · have hl := cr.2.1.mp hr0
        simp only [hr0, ne_eq, not_true_eq_false, false_and, if_false]
        rw [normalize_of_canonical r cr]
        refine ⟨r, rfl, cr, Or.inl hr0, ?_⟩
        rw [← vr, hl]
        simp [value, hr0]
      · have hc : canonical ⟨-1, r.limbs_⟩ := by
          refine ⟨Or.inl rfl, ?_, cr.2.2.1, cr.2.2.2⟩
          have : r.limbs_ ≠ [] := fun h0 => hr0 (cr.2.1.mpr h0)
          simp [this]
        simp only [hr0, ne_eq, not_false_eq_true, hs, true_and,
          show ((-1 : Int) < 0) from by decide, if_true]
        rw [normalize_of_canonical _ hc]
        refine ⟨_, rfl, hc, Or.inr rfl, ?_⟩
        rw [← vr]
        rfl
    · simp only [hs, show ¬ ((1 : Int) < 0) from by decide, and_false, if_false]
      rw [normalize_of_canonical r cr]
      have hrs : r.sign_ = 0 ∨ r.sign_ = 1 := by
        rcases cr.1 with h | h | h
        · exact absurd h sr
        · exact Or.inl h
        · exact Or.inr h
      refine ⟨r, rfl, cr, hrs, ?_⟩
      rw [value_of_nonneg r cr sr, vr]
      simp

end BigInt

namespace BigInt

/-! ## Values of canonical numbers -/

theorem value_natAbs (v : BigInt) (h : canonical v) : (value v).natAbs = limbsValue v.limbs_ := by
  unfold value
  rcases h.1 with h1 | h1 | h1
  · rw [h1]; simp
  · rw [h1, h.2.1.mp h1]; simp
  · rw [h1]; simp

theorem value_eq_zero_iff (v : BigInt) (h : canonical v) : value v = 0 ↔ v.sign_ = 0 := by
  constructor
  · intro hv
    by_contra hs
    have hne : v.limbs_ ≠ [] := fun h0 => hs (h.2.1.mpr h0)
    have hpos := limbsValue_pos v.limbs_ h.2.2.1 hne
    have := value_natAbs v h
    rw [hv] at this
    simp at this
    omega
  · intro hs
    simp [value, hs]

theorem eq_zero_of_sign (v : BigInt) (h : canonical v) (hs : v.sign_ = 0) : v = zero := by
  have hl := h.2.1.mp hs
  cases v
  simp_all [zero]

theorem value_sign (v : BigInt) (h : canonical v) : (value v).sign = v.sign_ := by
  unfold value
  rcases h.1 with h1 | h1 | h1
  · have hne : v.limbs_ ≠ [] := fun h0 => by
      have := h.2.1.mpr h0
      omega
    have hpos := limbsValue_pos v.limbs_ h.2.2.1 hne
    rw [h1, Int.sign_mul]
    have : ((limbsValue v.limbs_ : Nat) : Int).sign = 1 := Int.sign_eq_one_of_pos (by exact_mod_cast hpos)
    rw [this]; rfl
  · rw [h1]; simp
  · have hne : v.limbs_ ≠ [] := fun h0 => by
      have := h.2.1.mpr h0
      omega
    have hpos := limbsValue_pos v.limbs_ h.2.2.1 hne
    rw [h1, Int.sign_mul]
    have : ((limbsValue v.limbs_ : Nat) : Int).sign = 1 := Int.sign_eq_one_of_pos (by exact_mod_cast hpos)
    rw [this]; rfl

theorem canonical_ext (a b : BigInt) (ha : canonical a) (hb : canonical b)
    (h : value a = value b) : a = b := by
  have hs : a.sign_ = b.sign_ := by rw [← value_sign a ha, ← value_sign b hb, h]
  have hv : limbsValue a.limbs_ = limbsValue b.limbs_ := by
    rw [← value_natAbs a ha, ← value_natAbs b hb, h]
  have hl := limbsValue_inj a.limbs_ b.limbs_ ha.2.2.2 hb.2.2.2 ha.2.2.1 hb.2.2.1 hv
  cases a; cases b
  simp_all

theorem tmod_sign_mul (sa sb : Int) (A B : Nat) (hsa : sa = -1 ∨ sa = 0 ∨ sa = 1)
    (hsb : sb = -1 ∨ sb = 1) :
    Int.tmod (sa * A) (sb * B) = sa * ((A % B : Nat) : Int) := by
  have h1 : Int.tmod (A : Int) (B : Int) = ((A % B : Nat) : Int) := (Int.ofNat_tmod A B).symm
  have h2 : ∀ x : Int, Int.tmod x (sb * B) = Int.tmod x B := by
    intro x
    rcases hsb with h | h
    · rw [h, show (-1 : Int) * (B : Int) = -(B : Int) from by ring, Int.tmod_neg]
    · rw [h, one_mul]
  rw [h2]
  rcases hsa with h | h | h
  · rw [h, show (-1 : Int) * (A : Int) = -(A : Int) from by ring, Int.tmod_def, Int.neg_tdiv,
      ← h1, Int.tmod_def]
    ring
  · rw [h]; simp
  · rw [h, one_mul, one_mul, h1]

end BigInt

namespace BigInt

/-! ## Arithmetic contracts -/

/-- Claim C3. Addition is exact integer addition: for canonical `a` and `b`,
`value (a + b) = value a + value b`; operands of equal sign go through `addAbs`,
operands of opposite sign through `cmpAbs` and `subAbs`; and
`100000000000000000 + 100000000000000004` renders `"200000000000000004"`. -/
theorem add_is_exact (a b : BigInt) (ha : canonical a) (hb : canonical b) :
    value (add a b) = value a + value b ∧
    (a.sign_ ≠ 0 → b.sign_ ≠ 0 → a.sign_ = b.sign_ →
      add a b = normalize ⟨a.sign_, (addAbs a b).limbs_⟩) ∧
    (a.sign_ ≠ 0 → b.sign_ ≠ 0 → a.sign_ ≠ b.sign_ →
      add a b = if cmpAbs a b = 0 then zero
        else if cmpAbs a b > 0 then normalize ⟨a.sign_, (subAbs a b).limbs_⟩
        else normalize ⟨b.sign_, (subAbs b a).limbs_⟩) ∧
    (fromString "100000000000000000".toList = .ok ⟨1, [0, 100000000]⟩ ∧
      fromString "100000000000000004".toList = .ok ⟨1, [4, 100000000]⟩ ∧
      toString (add ⟨1, [0, 100000000]⟩ ⟨1, [4, 100000000]⟩) = "200000000000000004".toList) := by
  refine ⟨add_value a b ha hb, ?_, ?_, rfl, rfl, by decide⟩
  · intro h1 h2 h3
    simp only [add, h1, h2, h3, if_false, if_true]
  · intro h1 h2 h3
    simp only [add, h1, h2, h3, if_false]

theorem add_is_exact_witness :
    canonical ⟨-1, [5, 7]⟩ ∧ canonical ⟨1, [999999999, 2]⟩ ∧
    value (add ⟨-1, [5, 7]⟩ ⟨1, [999999999, 2]⟩) =
      value ⟨-1, [5, 7]⟩ + value ⟨1, [999999999, 2]⟩ :=
  ⟨by decide, by decide, (add_is_exact ⟨-1, [5, 7]⟩ ⟨1, [999999999, 2]⟩ (by decide) (by decide)).1⟩

/-- Claim C4. Multiplication is exact integer multiplication: for canonical `a` and
`b`, `value (a * b) = value a * value b`, the sign of the product is the product of
the signs, a zero operand gives zero, and `1234567891 * 1234567892` renders
`"1524157878722755772"`. -/
theorem mul_is_exact (a b : BigInt) (ha : canonical a) (hb : canonical b) :
    value (mul a b) = value a * value b ∧
    (mul a b).sign_ = a.sign_ * b.sign_ ∧
    (a.sign_ = 0 ∨ b.sign_ = 0 → mul a b = zero) ∧
    (fromString "1234567891".toList = .ok ⟨1, [234567891, 1]⟩ ∧
      fromString "1234567892".toList = .ok ⟨1, [234567892, 1]⟩ ∧
      toString (mul ⟨1, [234567891, 1]⟩ ⟨1, [234567892, 1]⟩) = "1524157878722755772".toList) := by
  have hv := mul_value a b ha hb
  have hc := mul_canonical a b ha hb
  refine ⟨hv, ?_, ?_, rfl, rfl, by decide⟩
  · rw [← value_sign _ hc, hv, Int.sign_mul, value_sign a ha, value_sign b hb]
  · intro h
    simp only [mul, h, if_true]

theorem mul_is_exact_witness :
    canonical ⟨-1, [999999999, 999999999]⟩ ∧ canonical ⟨1, [999999999, 2]⟩ ∧
    value (mul ⟨-1, [999999999, 999999999]⟩ ⟨1, [999999999, 2]⟩) =
      value ⟨-1, [999999999, 999999999]⟩ * value ⟨1, [999999999, 2]⟩ :=
  ⟨by decide, by decide,
    (mul_is_exact ⟨-1, [999999999, 999999999]⟩ ⟨1, [999999999, 2]⟩ (by decide) (by decide)).1⟩

/-- Claim C5. Modulo is the exact truncating remainder: for canonical `a` and `b`
with `b` not zero, `a % b` returns a value `r` with
`value r = value a - value b * trunc (value a / value b)`,
`|value r| = |value a| mod |value b| < |value b|`, carrying the sign of `a` (or zero);
and `100000000000000004 % 100000000000000000` renders `"4"`. -/
theorem mod_is_truncating (a b : BigInt) (ha : canonical a) (hb : canonical b)
    (hb0 : b ≠ zero) :
    (∃ r, mod a b = .ok r ∧
      value r = value a - value b * Int.tdiv (value a) (value b) ∧
      (value r).natAbs = (value a).natAbs % (value b).natAbs ∧
      (value r).natAbs < (value b).natAbs ∧
      value r = (value a).sign * (((value a).natAbs % (value b).natAbs : Nat) : Int) ∧
      (value r = 0 ∨ (value r).sign = (value a).sign)) ∧
    (fromString "100000000000000004".toList = .ok ⟨1, [4, 100000000]⟩ ∧
      fromString "100000000000000000".toList = .ok ⟨1, [0, 100000000]⟩ ∧
      mod ⟨1, [4, 100000000]⟩ ⟨1, [0, 100000000]⟩ = .ok ⟨1, [4]⟩ ∧
      toString ⟨1, [4]⟩ = "4".toList) := by
  have hs : b.sign_ ≠ 0 := fun h => hb0 (eq_zero_of_sign b hb h)
  obtain ⟨r, hr, cr, sr, vr⟩ := mod_spec a b ha hb hs
  have hbne : b.limbs_ ≠ [] := fun h0 => hs (hb.2.1.mpr h0)
  have hBpos := limbsValue_pos b.limbs_ hb.2.2.1 hbne
  have htm : value r = Int.tmod (value a) (value b) := by
    rw [vr]
    exact (tmod_sign_mul a.sign_ b.sign_ _ _ ha.1 (canonical_sign_cases b hb hs)).symm
  have hna : (value r).natAbs = limbsValue a.limbs_ % limbsValue b.limbs_ := by
    rw [vr, Int.natAbs_mul, Int.natAbs_ofNat]
    rcases ha.1 with h | h | h
    · rw [h]; simp
    · rw [h, ha.2.1.mp h]; simp
    · rw [h]; simp
  refine ⟨⟨r, hr, ?_, ?_, ?_, ?_, ?_⟩, rfl, rfl, rfl, by decide⟩
  · rw [htm, Int.tmod_def]
  · rw [hna, value_natAbs a ha, value_natAbs b hb]
  · rw [hna, value_natAbs b hb]
    exact Nat.mod_lt _ hBpos
  · rw [value_sign a ha, value_natAbs a ha, value_natAbs b hb, vr]
  · rw [value_sign r cr, value_sign a ha, value_eq_zero_iff r cr]
    exact sr

theorem mod_is_truncating_witness :
    canonical ⟨-1, [5, 7]⟩ ∧ canonical ⟨1, [999999999, 2]⟩ ∧
    (⟨1, [999999999, 2]⟩ : BigInt) ≠ zero ∧
    ∃ r, mod ⟨-1, [5, 7]⟩ ⟨1, [999999999, 2]⟩ = .ok r ∧
      value r = value ⟨-1, [5, 7]⟩ -
        value ⟨1, [999999999, 2]⟩ * Int.tdiv (value ⟨-1, [5, 7]⟩) (value ⟨1, [999999999, 2]⟩) ∧
      (value r).natAbs = (value ⟨-1, [5, 7]⟩).natAbs % (value ⟨1, [999999999, 2]⟩).natAbs ∧
      (value r).natAbs < (value ⟨1, [999999999, 2]⟩).natAbs ∧
      value r = (value ⟨-1, [5, 7]⟩).sign *
        (((value ⟨-1, [5, 7]⟩).natAbs % (value ⟨1, [999999999, 2]⟩).natAbs : Nat) : Int) ∧
      (value r = 0 ∨ (value r).sign = (value ⟨-1, [5, 7]⟩).sign) :=
  ⟨by decide, by decide, by decide,
    (mod_is_truncating ⟨-1, [5, 7]⟩ ⟨1, [999999999, 2]⟩ (by decide) (by decide) (by decide)).1⟩

/-- Claim C6. Division by zero: for every canonical `a` (zero included), `a % b`
fails with the division-by-zero error when `b` is zero, and for every canonical
non-zero `b` it returns a value. -/
theorem mod_by_zero (a b : BigInt) (ha : canonical a) (hb : canonical b) :
    (b = zero → mod a b = .error (.runtime_error "mod by zero")) ∧
    (b ≠ zero → ∃ r, mod a b = .ok r) := by
  constructor
  · intro h
    rw [h]
    rfl
  · intro h
    have hs : b.sign_ ≠ 0 := fun h0 => h (eq_zero_of_sign b hb h0)
    obtain ⟨r, hr, _⟩ := mod_spec a b ha hb hs
    exact ⟨r, hr⟩

theorem mod_by_zero_witness :
    canonical zero ∧ canonical ⟨-1, [7]⟩ ∧
    mod zero zero = .error (.runtime_error "mod by zero") ∧
    mod ⟨-1, [7]⟩ zero = .error (.runtime_error "mod by zero") ∧
    ∃ r, mod zero ⟨-1, [7]⟩ = .ok r :=
  ⟨by decide, by decide, (mod_by_zero zero zero (by decide) (by decide)).1 rfl,
    (mod_by_zero ⟨-1, [7]⟩ zero (by decide) (by decide)).1 rfl,
    (mod_by_zero zero ⟨-1, [7]⟩ (by decide) (by decide)).2 (by decide)⟩

/-- Claim C8. Canonical form is unique: for canonical `a` and `b`, `operator==`
returns true exactly when the two values are equal; in particular a canonical
number of value zero is the representation with sign 0 and no limbs. -/
theorem canonical_unique (a b : BigInt) (ha : canonical a) (hb : canonical b) :
    (eq a b = true ↔ value a = value b) ∧ (value a = 0 → a = ⟨0, []⟩) := by
  constructor
  · constructor
    · intro h
      simp only [eq, Bool.and_eq_true, decide_eq_true_eq] at h
      cases a; cases b
      simp_all
    · intro h
      have := canonical_ext a b ha hb h
      simp [eq, this]
  · intro h
    exact eq_zero_of_sign a ha ((value_eq_zero_iff a ha).mp h)

theorem canonical_unique_witness :
    canonical ⟨-1, [5, 7]⟩ ∧ canonical ⟨1, [5, 7]⟩ ∧
    (eq ⟨-1, [5, 7]⟩ ⟨1, [5, 7]⟩ = true ↔ value ⟨-1, [5, 7]⟩ = value ⟨1, [5, 7]⟩) ∧
    eq ⟨-1, [5, 7]⟩ ⟨1, [5, 7]⟩ = false ∧ eq ⟨-1, [5, 7]⟩ ⟨-1, [5, 7]⟩ = true :=
  ⟨by decide, by decide, (canonical_unique ⟨-1, [5, 7]⟩ ⟨1, [5, 7]⟩ (by decide) (by decide)).1,
    by decide, by decide⟩

/-- Claim C9. Modulo sign rule: for canonical `a` and `b` with `b` not zero, the sign
of `a % b` is 0 or the sign of `a`, whatever the sign of `b`; and `(-10) % 3`
renders `"-1"`. -/
theorem mod_sign_rule (a b : BigInt) (ha : canonical a) (hb : canonical b) (hb0 : b ≠ zero) :
    (∃ r, mod a b = .ok r ∧ (r.sign_ = 0 ∨ r.sign_ = a.sign_)) ∧
    (mod (ofInt64 (-10)) (ofInt64 3)).map toString = .ok "-1".toList := by
  have hs : b.sign_ ≠ 0 := fun h => hb0 (eq_zero_of_sign b hb h)
  obtain ⟨r, hr, _, sr, _⟩ := mod_spec a b ha hb hs
  exact ⟨⟨r, hr, sr⟩, rfl⟩

theorem mod_sign_rule_witness :
    canonical ⟨-1, [10]⟩ ∧ canonical ⟨-1, [3]⟩ ∧ (⟨-1, [3]⟩ : BigInt) ≠ zero ∧
    ∃ r, mod ⟨-1, [10]⟩ ⟨-1, [3]⟩ = .ok r ∧ (r.sign_ = 0 ∨ r.sign_ = (⟨-1, [10]⟩ : BigInt).sign_) :=
  ⟨by decide, by decide, by decide,
    (mod_sign_rule ⟨-1, [10]⟩ ⟨-1, [3]⟩ (by decide) (by decide) (by decide)).1⟩

/-- Claim C10. Subtraction is addition of the negation and is exact: for canonical
`a` and `b`, `a - b` is `a + (-b)` and `value (a - b) = value a - value b`; and
`100000000000000000 - 100000000000000004` renders `"-4"`. -/
theorem sub_is_add_neg (a b : BigInt) (ha : canonical a) (hb : canonical b) :
    sub a b = add a (neg b) ∧ value (sub a b) = value a - value b ∧
    (fromString "100000000000000000".toList = .ok ⟨1, [0, 100000000]⟩ ∧
      fromString "100000000000000004".toList = .ok ⟨1, [4, 100000000]⟩ ∧
      toString (sub ⟨1, [0, 100000000]⟩ ⟨1, [4, 100000000]⟩) = "-4".toList) :=
  ⟨rfl, sub_value a b ha hb, rfl, rfl, by decide⟩

theorem sub_is_add_neg_witness :
    canonical ⟨-1, [5, 7]⟩ ∧ canonical ⟨1, [999999999, 2]⟩ ∧
    value (sub ⟨-1, [5, 7]⟩ ⟨1, [999999999, 2]⟩) =
      value ⟨-1, [5, 7]⟩ - value ⟨1, [999999999, 2]⟩ :=
  ⟨by decide, by decide,
    (sub_is_add_neg ⟨-1, [5, 7]⟩ ⟨1, [999999999, 2]⟩ (by decide) (by decide)).2.1⟩

end BigInt

namespace BigInt

/-! ## Decimal digits -/

theorem isdigit_iff (c : Char) : isdigit c = true ↔ 48 ≤ c.toNat ∧ c.toNat ≤ 57 := by
  simp [isdigit]

theorem char_eq_zero_iff (c : Char) : c = '0' ↔ c.toNat = 48 := by
  constructor
  · intro h; rw [h]; rfl
  · intro h
    have := Char.ofNat_toNat c
    rw [h] at this
    exact this.symm

theorem digitChar_of_isdigit (c : Char) (h : isdigit c = true) : digitChar (c.toNat - 48) = c := by
  have h1 := (isdigit_iff c).mp h
  unfold digitChar
  rw [show 48 + (c.toNat - 48) = c.toNat from by omega]
  exact Char.ofNat_toNat c

theorem stoul_append (s : List Char) (x : Char) :
    stoul (s ++ [x]) = stoul s * 10 + (x.toNat - 48) := by
  simp [stoul, List.foldl_append]

theorem stoul_lt (s : List Char) (h : ∀ c ∈ s, isdigit c = true) : stoul s < 10 ^ s.length := by
  induction s using List.reverseRecOn with
  | nil => simp [stoul]
  | append_singleton s x ih =>
    have h1 := ih (fun c hc => h c (List.mem_append_left _ hc))
    have h2 := (isdigit_iff x).mp (h x (by simp))
    rw [stoul_append, List.length_append, List.length_singleton, pow_succ]
    omega

theorem stoul_eq_zero_iff (s : List Char) (h : ∀ c ∈ s, isdigit c = true) :
    stoul s = 0 ↔ ∀ c ∈ s, c = '0' := by
  induction s using List.reverseRecOn with
  | nil => simp [stoul]
  | append_singleton s x ih =>
    have h1 := ih (fun c hc => h c (List.mem_append_left _ hc))
    have h2 := (isdigit_iff x).mp (h x (by simp))
    rw [stoul_append]
    constructor
    · intro h0
      have hs : stoul s = 0 := by omega
      have hx : x.toNat = 48 := by omega
      intro c hc
      rcases List.mem_append.mp hc with hc | hc
      · exact h1.mp hs c hc
      · rw [List.mem_singleton.mp hc]; exact (char_eq_zero_iff x).mpr hx
    · intro h0
      have hs := h1.mpr (fun c hc => h0 c (List.mem_append_left _ hc))
      have hx := (char_eq_zero_iff x).mp (h0 x (by simp))
      omega

/-- Digit string without its leading zeros, a single zero standing for an empty result. -/
theorem to_string_digits_stoul (s : List Char) (h : ∀ c ∈ s, isdigit c = true) (hne : s ≠ []) :
    ∀ f, s.length ≤ f →
      to_string_digits f (stoul s) =
        if s.dropWhile (fun c => decide (c = '0')) = [] then ['0']
        else s.dropWhile (fun c => decide (c = '0')) := by
  induction s using List.reverseRecOn with
  | nil => exact absurd rfl hne
  | append_singleton s x ih =>
    intro f hf
    have hds : ∀ c ∈ s, isdigit c = true := fun c hc => h c (List.mem_append_left _ hc)
    have hx := h x (by simp)
    have h2 := (isdigit_iff x).mp hx
    rw [List.length_append, List.length_singleton] at hf
    obtain ⟨f1, rfl⟩ : ∃ f1, f = f1 + 1 := ⟨f - 1, by omega⟩
    rw [stoul_append]
    by_cases hs0 : stoul s = 0
    · have hz := (stoul_eq_zero_iff s hds).mp hs0
      have hdw : s.dropWhile (fun c => decide (c = '0')) = [] := by
        rw [List.dropWhile_eq_nil_iff]
        intro c hc
        simpa using hz c hc
      rw [List.dropWhile_append, hdw]
      simp only [hs0, zero_mul, zero_add, to_string_digits, if_true]
      rw [if_pos (by omega), digitChar_of_isdigit x hx]
      by_cases hx0 : x = '0'
      · simp [hx0]
      · simp [List.dropWhile, hx0]
    · have hsne : s ≠ [] := by
        intro h0; rw [h0] at hs0; exact hs0 rfl
      have hnz : ¬ ∀ c ∈ s, c = '0' := fun hz => hs0 ((stoul_eq_zero_iff s hds).mpr hz)
      have hdw : s.dropWhile (fun c => decide (c = '0')) ≠ [] := by
        rw [Ne, List.dropWhile_eq_nil_iff]
        intro hz
        exact hnz (fun c hc => by simpa using hz c hc)
      have ih1 := ih hds hsne f1 (by omega)
      rw [if_neg hdw] at ih1
      simp only [to_string_digits]
      rw [if_neg (by omega)]
      rw [show (stoul s * 10 + (x.toNat - 48)) / 10 = stoul s from by omega,
        show (stoul s * 10 + (x.toNat - 48)) % 10 = x.toNat - 48 from by omega,
        ih1, digitChar_of_isdigit x hx, List.dropWhile_append]
      simp [hdw]

end BigInt

namespace BigInt

theorem to_string_stoul_of_head (s : List Char) (h : ∀ c ∈ s, isdigit c = true)
    (hh : ∀ c, s.head? = some c → c ≠ '0') (hne : s ≠ []) (hlen : s.length ≤ 10) :
    to_string (stoul s) = s := by
  have hdw : s.dropWhile (fun c => decide (c = '0')) = s := by
    cases s with
    | nil => rfl
    | cons x xs =>
      have := hh x rfl
      simp [List.dropWhile, this]
  unfold to_string
  rw [to_string_digits_stoul s h hne 10 hlen, hdw, if_neg hne]

theorem all_zero_eq_replicate (l : List Char) (h : ∀ c ∈ l, c = '0') :
    l = List.replicate l.length '0' :=
  List.eq_replicate_iff.mpr ⟨rfl, h⟩

theorem to_string_stoul_pad (s : List Char) (h : ∀ c ∈ s, isdigit c = true)
    (hlen : s.length = 9) :
    List.replicate (9 - (to_string (stoul s)).length) '0' ++ to_string (stoul s) = s := by
  have hne : s ≠ [] := by
    intro h0; rw [h0] at hlen; simp at hlen
  have hsplit := List.takeWhile_append_dropWhile (fun c => decide (c = '0')) s
  have htw : ∀ c ∈ s.takeWhile (fun c => decide (c = '0')), c = '0' := by
    intro c hc
    simpa using List.mem_takeWhile_imp hc
  have hrep := all_zero_eq_replicate _ htw
  have hl : (s.takeWhile (fun c => decide (c = '0'))).length +
      (s.dropWhile (fun c => decide (c = '0'))).length = 9 := by
    rw [← List.length_append, hsplit, hlen]
  unfold to_string
  rw [to_string_digits_stoul s h hne 10 (by omega)]
  by_cases hd : s.dropWhile (fun c => decide (c = '0')) = []
  · rw [if_pos hd]
    rw [hd] at hl hsplit
    simp only [List.length_nil, add_zero, List.append_nil, List.length_singleton] at hl hsplit ⊢
    rw [hl] at hrep
    rw [← hsplit, hrep]
    rfl
  · rw [if_neg hd]
    nth_rewrite 3 [← hsplit]
    rw [show 9 - (s.dropWhile (fun c => decide (c = '0'))).length =
      (s.takeWhile (fun c => decide (c = '0'))).length from by omega, ← hrep]

theorem stoul_lt_base (s : List Char) (h : ∀ c ∈ s, isdigit c = true) (hlen : s.length ≤ 9) :
    stoul s < BASE := by
  have h1 := stoul_lt s h
  have h2 : 10 ^ s.length ≤ 10 ^ 9 := Nat.pow_le_pow_right (by decide) hlen
  have h3 : BASE = 10 ^ 9 := by decide
  omega

theorem stoul_pos_of_head (s : List Char) (h : ∀ c ∈ s, isdigit c = true)
    (hh : ∀ c, s.head? = some c → c ≠ '0') (hne : s ≠ []) : stoul s ≠ 0 := by
  intro h0
  have hz := (stoul_eq_zero_iff s h).mp h0
  cases s with
  | nil => exact hne rfl
  | cons x xs => exact hh x rfl (hz x (by simp))

end BigInt

namespace BigInt

/-! ## Grouping digits into limbs and back -/

theorem lowText_cons (x : Nat) (l : List Nat) : lowText (x :: l) = lowText l ++ padChunk x := by
  simp [lowText]

theorem lowText_concat (l : List Nat) (x : Nat) : lowText (l ++ [x]) = padChunk x ++ lowText l := by
  simp [lowText]

theorem toStringLoop_spec (limbs : List Nat) :
    ∀ (i : Nat) (out : List Char), i + 1 ≤ limbs.length →
      toStringLoop limbs i out = out ++ lowText (limbs.take i) := by
  intro i
  induction i with
  | zero => intro out _; simp [toStringLoop, lowText]
  | succ i ih =>
    intro out hi
    rw [toStringLoop, if_neg (by omega)]
    simp only []
    rw [ih _ (by omega), take_succ_getD limbs i (by omega), lowText_concat]
    simp [padChunk, List.append_assoc]

theorem toStringLoop_full (l : List Nat) (top : Nat) (out : List Char) :
    toStringLoop (l ++ [top]) (l ++ [top]).length out = out ++ lowText l := by
  rw [List.length_append, List.length_singleton, toStringLoop, if_pos (by simp)]
  rw [toStringLoop_spec _ _ _ (by simp)]
  simp

theorem chunkLoop_spec (d : List Char) (hd : ∀ c ∈ d, isdigit c = true) :
    ∀ (fuel i : Nat) (limbs : List Nat), 0 < i → i ≤ d.length → i ≤ fuel →
      ∃ (M : List Nat) (c : List Char),
        chunkLoop d fuel i limbs = limbs ++ M ++ [stoul c] ∧ c ≠ [] ∧ c.length ≤ 9 ∧
        (∀ x ∈ c, isdigit x = true) ∧ d.take i = c ++ lowText M ∧ (∀ x ∈ M, x < BASE) ∧
        c.head? = d.head? := by
  intro fuel
  induction fuel with
  | zero => intro i limbs h1 _ h3; omega
  | succ fuel ih =>
    intro i limbs h1 h2 h3
    rw [chunkLoop, if_pos h1]
    by_cases h9 : i ≤ 9
    · have hcs : (if i ≥ 9 then i - 9 else 0) = 0 := by
        split <;> omega
      simp only [hcs, Nat.sub_zero, if_true, substr, List.drop_zero]
      have hdt : ∀ x ∈ d.take i, isdigit x = true := fun x hx => hd x (List.mem_of_mem_take hx)
      have hlen : (d.take i).length = i := by
        rw [List.length_take]; omega
      have hlt := stoul_lt_base (d.take i) hdt (by omega)
      have hne : d.take i ≠ [] := by
        intro h0; rw [h0] at hlen; simp at hlen; omega
      refine ⟨[], d.take i, ?_, hne, by omega, hdt, by simp [lowText], by simp, ?_⟩
      · rw [u32_of_lt _ (by have : BASE = 1000000000 := rfl; omega)]
        simp
      · cases d with
        | nil => simp at h2; omega
        | cons x xs =>
          obtain ⟨j, rfl⟩ : ∃ j, i = j + 1 := ⟨i - 1, by omega⟩
          simp
    · have hcs : (if i ≥ 9 then i - 9 else 0) = i - 9 := by
        split <;> omega
      have hlen9 : i - (i - 9) = 9 := by omega
      simp only [hcs, hlen9]
      rw [if_neg (by omega)]
      set chunk := substr d (i - 9) 9 with hchunk
      have hcd : ∀ x ∈ chunk, isdigit x = true := by
        intro x hx
        exact hd x (List.mem_of_mem_drop (List.mem_of_mem_take hx))
      have hcl : chunk.length = 9 := by
        rw [hchunk, substr, List.length_take, List.length_drop]; omega
      have hlt := stoul_lt_base chunk hcd (by omega)
      rw [u32_of_lt _ (by have : BASE = 1000000000 := rfl; omega)]
      obtain ⟨M, c, e1, e2, e3, e4, e5, e6, e7⟩ := ih (i - 9) (limbs ++ [stoul chunk])
        (by omega) (by omega) (by omega)
      refine ⟨stoul chunk :: M, c, ?_, e2, e3, e4, ?_, ?_, e7⟩
      · rw [e1]; simp
      · rw [lowText_cons, padChunk, to_string_stoul_pad chunk hcd hcl, ← List.append_assoc, ← e5,
          hchunk, substr]
        have : i = (i - 9) + 9 := by omega
        nth_rewrite 1 [this]
        rw [List.take_add]
      · intro x hx
        rcases List.mem_cons.mp hx with h | h
        · rw [h]; exact hlt
        · exact e6 x h

theorem find_first_not_of_zero (s : List Char) :
    (find_first_not_of s '0' = none ∧ s.dropWhile (fun c => decide (c = '0')) = []) ∨
    (∃ k, find_first_not_of s '0' = some k ∧
      s.drop k = s.dropWhile (fun c => decide (c = '0')) ∧
      s.dropWhile (fun c => decide (c = '0')) ≠ []) := by
  induction s with
  | nil => left; simp [find_first_not_of]
  | cons x xs ih =>
    by_cases hx : x = '0'
    · rcases ih with ⟨h1, h2⟩ | ⟨k, h1, h2, h3⟩
      · left
        simp [find_first_not_of, hx, h1, h2, List.dropWhile]
      · right
        refine ⟨k + 1, ?_, ?_, ?_⟩
        · simp [find_first_not_of, hx, h1]
        · simpa [List.dropWhile, hx] using h2
        · simpa [List.dropWhile, hx] using h3
    · right
      refine ⟨0, ?_, ?_, ?_⟩
      · simp [find_first_not_of, hx]
      · simp [List.dropWhile, hx]
      · simp [List.dropWhile, hx]

theorem head_dropWhile_zero (s : List Char) :
    ∀ c, (s.dropWhile (fun c => decide (c = '0'))).head? = some c → c ≠ '0' := by
  induction s with
  | nil => simp
  | cons x xs ih =>
    intro c hc
    by_cases hx : x = '0'
    · simp only [List.dropWhile, hx, decide_True] at hc
      exact ih c hc
    · simp only [List.dropWhile, hx, decide_False, List.head?_cons, Option.some.injEq] at hc
      rw [← hc]; exact hx

/-- Limbs built from a digit string without leading zeros render back to that string. -/
theorem chunk_roundtrip (d : List Char) (hd : ∀ c ∈ d, isdigit c = true) (hne : d ≠ [])
    (hh : ∀ c, d.head? = some c → c ≠ '0') (sign : Int) (hs : sign = -1 ∨ sign = 1) :
    canonical (normalize ⟨sign, chunkLoop d d.length d.length []⟩) ∧
    (normalize ⟨sign, chunkLoop d d.length d.length []⟩).sign_ = sign ∧
    toString (normalize ⟨sign, chunkLoop d d.length d.length []⟩) =
      (if sign < 0 then ['-'] else []) ++ d := by
  have hpos : 0 < d.length := List.length_pos.mpr hne
  obtain ⟨M, c, e1, e2, e3, e4, e5, e6, e7⟩ := chunkLoop_spec d hd d.length d.length []
    hpos le_rfl le_rfl
  rw [List.take_length] at e5
  rw [List.nil_append] at e1
  have hc0 : stoul c ≠ 0 := stoul_pos_of_head c e4 (by rw [e7]; exact hh) e2
  have hcl := stoul_lt_base c e4 e3
  have hlimbs : ∀ x ∈ M ++ [stoul c], x < BASE := by
    intro x hx
    rcases List.mem_append.mp hx with h | h
    · exact e6 x h
    · rw [List.mem_singleton.mp h]; exact hcl
  have hcan : canonical ⟨sign, M ++ [stoul c]⟩ := by
    refine ⟨?_, ?_, ?_, hlimbs⟩
    · rcases hs with h | h
      · exact Or.inl h
      · exact Or.inr (Or.inr h)
    · constructor
      · intro h0
        have h1 : sign = 0 := h0
        rcases hs with h | h <;> omega
      · intro h0
        have h1 : M ++ [stoul c] = [] := h0
        simp at h1
    · rw [List.getLast?_concat]
      simpa using hc0
  rw [e1, normalize_of_canonical _ hcan]
  refine ⟨hcan, rfl, ?_⟩
  have hs0 : sign ≠ 0 := by rcases hs with h | h <;> omega
  unfold toString
  simp only [hs0, if_false]
  rw [toStringLoop_full]
  have hne2 : M ++ [stoul c] ≠ [] := by simp
  rw [if_neg hne2, List.getLastD_concat, to_string_stoul_of_head c e4 (by rw [e7]; exact hh) e2
    (by omega), List.append_assoc, ← e5]

end BigInt

namespace BigInt

/-! ## Scanning loops of `fromString` -/

theorem getD_mid (w1 core w2 : List Char) (i : Nat) (hi : i < core.length) :
    (w1 ++ core ++ w2).getD (w1.length + i) nul = core.getD i nul := by
  rw [List.append_assoc, List.getD_append_right _ _ _ _ (by omega),
    List.getD_append _ _ _ _ (by omega)]
  congr 1
  omega

theorem skipSpaceFront_spec (w1 rest : List Char) (hw : ∀ c ∈ w1, isspace c = true)
    (hr : ∀ c, rest.head? = some c → isspace c = false) :
    ∀ (fuel start : Nat), start ≤ w1.length → w1.length ≤ start + fuel →
      skipSpaceFront (w1 ++ rest) fuel start (w1 ++ rest).length = w1.length := by
  intro fuel
  induction fuel with
  | zero => intro start h1 h2; simp only [skipSpaceFront]; omega
  | succ fuel ih =>
    intro start h1 h2
    rw [skipSpaceFront]
    by_cases hlt : start < w1.length
    · have hg : (w1 ++ rest).getD start nul = w1.getD start nul :=
        List.getD_append _ _ _ _ hlt
      have hsp : isspace ((w1 ++ rest).getD start nul) = true := by
        rw [hg, List.getD_eq_getElem _ _ hlt]
        exact hw _ (List.getElem_mem hlt)
      rw [if_pos ⟨by rw [List.length_append]; omega, hsp⟩]
      exact ih (start + 1) (by omega) (by omega)
    · have hst : start = w1.length := by omega
      rw [if_neg, hst]
      rintro ⟨h3, h4⟩
      rw [hst] at h3 h4
      rw [List.getD_append_right _ _ _ _ (le_refl _), Nat.sub_self] at h4
      cases rest with
      | nil => simp at h3
      | cons x xs =>
        have := hr x rfl
        simp only [List.getD_cons_zero] at h4
        rw [this] at h4
        exact absurd h4 (by decide)

theorem skipSpaceBack_spec (pre w2 : List Char) (start : Nat) (hw : ∀ c ∈ w2, isspace c = true)
    (hs : start ≤ pre.length)
    (hp : start = pre.length ∨ ∀ c, pre.getLast? = some c → isspace c = false) :
    ∀ (fuel end_ : Nat), pre.length ≤ end_ → end_ ≤ (pre ++ w2).length →
      end_ ≤ pre.length + fuel →
      skipSpaceBack (pre ++ w2) fuel start end_ = pre.length := by
  intro fuel
  induction fuel with
  | zero => intro end_ h1 h2 h3; simp only [skipSpaceBack]; omega
  | succ fuel ih =>
    intro end_ h1 h2 h3
    rw [skipSpaceBack]
    rw [List.length_append] at h2
    by_cases hlt : pre.length < end_
    · have hg : (pre ++ w2).getD (end_ - 1) nul = w2.getD (end_ - 1 - pre.length) nul :=
        List.getD_append_right _ _ _ _ (by omega)
      have hin : end_ - 1 - pre.length < w2.length := by omega
      have hsp : isspace ((pre ++ w2).getD (end_ - 1) nul) = true := by
        rw [hg, List.getD_eq_getElem _ _ hin]
        exact hw _ (List.getElem_mem hin)
      rw [if_pos ⟨by omega, hsp⟩]
      exact ih (end_ - 1) (by omega) (by rw [List.length_append]; omega) (by omega)
    · have he : end_ = pre.length := by omega
      rw [if_neg, he]
      rintro ⟨h4, h5⟩
      rw [he] at h4 h5
      rcases hp with hp | hp
      · omega
      · have hne : pre ≠ [] := List.length_pos.mp (by omega)
        have hg : (pre ++ w2).getD (pre.length - 1) nul = pre.getLast hne := by
          rw [List.getD_append _ _ _ _ (by omega), List.getD_eq_getElem _ _ (by omega),
            List.getLast_eq_getElem]
        rw [hg, hp _ (List.getLast?_eq_getLast _ hne)] at h5
        exact absurd h5 (by decide)

theorem digitsLoop_spec (text : List Char) :
    ∀ (k i : Nat), i + k ≤ text.length →
      digitsLoop text k i = ((text.drop i).take k).all isdigit := by
  intro k
  induction k with
  | zero => intro i _; simp [digitsLoop]
  | succ k ih =>
    intro i hi
    have hlt : i < text.length := by omega
    rw [digitsLoop, List.drop_eq_getElem_cons hlt, List.take_succ_cons, List.all_cons,
      List.getD_eq_getElem _ _ hlt, ih (i + 1) (by omega)]
    by_cases hd : isdigit text[i] = true
    · simp [hd]
    · simp [hd]

theorem substr_mid (w1 core w2 : List Char) (p : Nat) (hp : p ≤ core.length) :
    substr (w1 ++ core ++ w2) (w1.length + p) (w1.length + core.length - (w1.length + p)) =
      core.drop p := by
  unfold substr
  rw [List.append_assoc, List.drop_append_eq_append_drop,
    List.drop_of_length_le (by omega : w1.length ≤ w1.length + p), List.nil_append,
    show w1.length + p - w1.length = p from by omega, List.drop_append_eq_append_drop,
    show p - core.length = 0 from by omega, List.drop_zero,
    List.take_append_eq_append_take, List.length_drop,
    show w1.length + core.length - (w1.length + p) - (core.length - p) = 0 from by omega,
    List.take_zero, List.append_nil, List.take_of_length_le]
  rw [List.length_drop]; omega

end BigInt

namespace BigInt

/-! ## `fromString` on a trimmed text -/

theorem fromString_blank (w1 : List Char) (hw1 : ∀ c ∈ w1, isspace c = true) :
    fromString w1 = .error (.invalid_argument "empty integer") := by
  have hstart := skipSpaceFront_spec w1 [] hw1 (by simp) w1.length 0 (by omega) (by omega)
  rw [List.append_nil] at hstart
  have hend := skipSpaceBack_spec w1 [] w1.length (by simp) le_rfl (Or.inl rfl)
    w1.length w1.length le_rfl (by simp) (by omega)
  rw [List.append_nil] at hend
  unfold fromString
  simp only [hstart, hend, if_true]

theorem fromString_core (w1 w2 : List Char) (h : Char) (t : List Char)
    (hw1 : ∀ c ∈ w1, isspace c = true) (hw2 : ∀ c ∈ w2, isspace c = true)
    (hh : isspace h = false) (hl : ∀ c, (h :: t).getLast? = some c → isspace c = false) :
    fromString (w1 ++ (h :: t) ++ w2) =
      if (h = '+' ∨ h = '-') ∧ t = [] then
        .error (.invalid_argument "expected digits after sign")
      else if ¬ (if h = '+' ∨ h = '-' then t else h :: t).all isdigit = true then
        .error (.invalid_argument "invalid digit in integer")
      else
        match find_first_not_of (if h = '+' ∨ h = '-' then t else h :: t) '0' with
        | none => .ok zero
        | some non_zero =>
          .ok (normalize ⟨if h = '-' then -1 else 1,
            chunkLoop ((if h = '+' ∨ h = '-' then t else h :: t).drop non_zero)
              ((if h = '+' ∨ h = '-' then t else h :: t).drop non_zero).length
              ((if h = '+' ∨ h = '-' then t else h :: t).drop non_zero).length []⟩) := by
  have hstart : skipSpaceFront (w1 ++ (h :: t) ++ w2) (w1 ++ (h :: t) ++ w2).length 0
      (w1 ++ (h :: t) ++ w2).length = w1.length := by
    rw [List.append_assoc]
    apply skipSpaceFront_spec w1 ((h :: t) ++ w2) hw1 _ _ 0 (by omega)
    · simp only [List.length_append]; omega
    · intro c hc
      simp only [List.cons_append, List.head?_cons, Option.some.injEq] at hc
      rw [← hc]; exact hh
  have hend : skipSpaceBack (w1 ++ (h :: t) ++ w2) (w1 ++ (h :: t) ++ w2).length w1.length
      (w1 ++ (h :: t) ++ w2).length = w1.length + (t.length + 1) := by
    have := skipSpaceBack_spec (w1 ++ (h :: t)) w2 w1.length hw2 (by simp)
      (Or.inr (by
        intro c hc
        rw [List.getLast?_append] at hc
        cases hg : (h :: t).getLast? with
        | none => simp at hg
        | some x =>
          rw [hg] at hc
          simp only [Option.or, Option.some.injEq] at hc
          rw [← hc]; exact hl x hg))
      (w1 ++ (h :: t) ++ w2).length (w1 ++ (h :: t) ++ w2).length
      (by simp) le_rfl (by simp only [List.length_append]; omega)
    rw [this]; simp
  have hg0 : (w1 ++ (h :: t) ++ w2).getD w1.length nul = h := by
    have := getD_mid w1 (h :: t) w2 0 (by simp)
    simpa using this
  unfold fromString
  simp only [hstart, hend, hg0]
  rw [if_neg (by omega)]
  by_cases hsg : h = '+' ∨ h = '-'
  · simp only [hsg, decide_True, if_true, true_and]
    by_cases ht : t = []
    · subst ht
      simp
    · have htl : 0 < t.length := List.length_pos.mpr ht
      rw [if_neg (by omega), if_neg ht]
      have hsub := substr_mid w1 (h :: t) w2 1 (by simp)
      simp only [List.length_cons, List.drop_succ_cons, List.drop_zero] at hsub
      have hdl := digitsLoop_spec (w1 ++ (h :: t) ++ w2) (w1.length + (t.length + 1) - (w1.length + 1))
        (w1.length + 1) (by simp only [List.length_append, List.length_cons]; omega)
      have hsub2 : ((w1 ++ (h :: t) ++ w2).drop (w1.length + 1)).take
          (w1.length + (t.length + 1) - (w1.length + 1)) = t := hsub
      rw [hsub2] at hdl
      have hg1 : (w1 ++ (h :: t) ++ w2).getD (w1.length + 1) nul = t.getD 0 nul := by
        have := getD_mid w1 (h :: t) w2 1 (by simp; omega)
        simpa using this
      rw [hg1, hdl, hsub]
      have hsign : (if h = '-' then (-1 : Int) else 1) = (if h = '-' then -1 else 1) := rfl
      by_cases hall : t.all isdigit = true
      · have hd0 : isdigit (t.getD 0 nul) = true := by
          cases t with
          | nil => exact absurd rfl ht
          | cons x xs =>
            simp only [List.all_cons, Bool.and_eq_true] at hall
            simpa using hall.1
        simp only [hd0, hall, not_true_eq_false, if_false]
      · simp only [hall, not_false_eq_true, if_true]
        split <;> rfl
  · simp only [hsg, decide_False, if_false, false_and, Bool.false_eq_true]
    have hsub := substr_mid w1 (h :: t) w2 0 (by simp)
    simp only [List.length_cons, List.drop_zero, add_zero] at hsub
    have hdl := digitsLoop_spec (w1 ++ (h :: t) ++ w2) (w1.length + (t.length + 1) - w1.length)
      w1.length (by simp only [List.length_append, List.length_cons]; omega)
    have hsub2 : ((w1 ++ (h :: t) ++ w2).drop w1.length).take
        (w1.length + (t.length + 1) - w1.length) = h :: t := hsub
    rw [hsub2] at hdl
    rw [hdl, hsub]
    have hm : ¬ h = '-' := fun hm => hsg (Or.inr hm)
    by_cases hall : (h :: t).all isdigit = true
    · have hd0 : isdigit h = true := by
        simp only [List.all_cons, Bool.and_eq_true] at hall
        exact hall.1
      simp only [hg0, hd0, hall, not_true_eq_false, if_false, hm, false_and]
    · simp only [hall, not_false_eq_true, if_true]
      split <;> rfl

end BigInt

namespace BigInt

theorem all_isdigit_iff (l : List Char) :
    l.all isdigit = true ↔ ∀ c ∈ l, isdigit c = true := by
  simp [List.all_eq_true]

theorem fromString_core_ok (w1 w2 : List Char) (h : Char) (t : List Char)
    (hw1 : ∀ c ∈ w1, isspace c = true) (hw2 : ∀ c ∈ w2, isspace c = true)
    (hh : isspace h = false) (hl : ∀ c, (h :: t).getLast? = some c → isspace c = false)
    (hne : (if h = '+' ∨ h = '-' then t else h :: t) ≠ [])
    (hd : ∀ c ∈ (if h = '+' ∨ h = '-' then t else h :: t), isdigit c = true) :
    ∃ v, fromString (w1 ++ (h :: t) ++ w2) = .ok v ∧ canonical v ∧
      toString v = canonicalText (if h = '-' then ['-'] else [])
        (if h = '+' ∨ h = '-' then t else h :: t) := by
  rw [fromString_core w1 w2 h t hw1 hw2 hh hl]
  set body := (if h = '+' ∨ h = '-' then t else h :: t) with hbody
  have hall : body.all isdigit = true := (all_isdigit_iff body).mpr hd
  have h1 : ¬ ((h = '+' ∨ h = '-') ∧ t = []) := by
    rintro ⟨hs, ht⟩
    apply hne
    rw [hbody, if_pos hs, ht]
  rw [if_neg h1, if_neg (by simp [hall])]
  unfold canonicalText
  rcases find_first_not_of_zero body with ⟨f1, f2⟩ | ⟨k, f1, f2, f3⟩
  · rw [f1, if_pos f2]
    exact ⟨zero, rfl, zero_canonical, rfl⟩
  · rw [f1, if_neg f3]
    simp only []
    rw [f2]
    set d1 := body.dropWhile (fun c => decide (c = '0')) with hd1
    have hdd : ∀ c ∈ d1, isdigit c = true := fun c hc => hd c (List.dropWhile_subset _ hc)
    have hhd := head_dropWhile_zero body
    by_cases hm : h = '-'
    · obtain ⟨c1, c2, c3⟩ := chunk_roundtrip d1 hdd f3 hhd (-1) (Or.inl rfl)
      simp only [hm, if_true]
      exact ⟨_, rfl, c1, by simpa using c3⟩
    · obtain ⟨c1, c2, c3⟩ := chunk_roundtrip d1 hdd f3 hhd 1 (Or.inr rfl)
      simp only [hm, if_false]
      refine ⟨_, rfl, c1, ?_⟩
      rw [c3]
      simp

theorem isdigit_not_space (c : Char) (h : isdigit c = true) : isspace c = false := by
  have := (isdigit_iff c).mp h
  simp only [isspace, decide_eq_false_iff_not]
  omega

theorem isdigit_not_sign (c : Char) (h : isdigit c = true) : ¬ (c = '+' ∨ c = '-') := by
  have := (isdigit_iff c).mp h
  rintro (h1 | h1) <;> rw [h1] at this <;> revert this <;> decide

theorem getLast?_of_cons_append (x : Char) (ds : List Char) (hne : ds ≠ []) :
    (x :: ds).getLast? = ds.getLast? := by
  cases ds with
  | nil => exact absurd rfl hne
  | cons y ys => simp [List.getLast?_cons_cons]

theorem getLast?_mem (l : List Char) (c : Char) (h : l.getLast? = some c) : c ∈ l := by
  rw [List.getLast?_eq_some_iff] at h
  obtain ⟨ys, rfl⟩ := h
  simp

end BigInt

namespace BigInt

/-! ## Text contracts -/

/-- Claim C1. Round trip text -> value -> text: on every string made of whitespace,
an optional `+` or `-`, one or more decimal digits and whitespace, `fromString`
succeeds and `toString` of the result is the canonical form: `"0"` when all digits
are `'0'`, otherwise the digits without leading zeros, with `'-'` in front exactly
when the string carried a `'-'`. -/
theorem text_roundtrip (w1 sg ds w2 : List Char)
    (hw1 : ∀ c ∈ w1, isspace c = true) (hsg : sg = [] ∨ sg = ['+'] ∨ sg = ['-'])
    (hds : ∀ c ∈ ds, isdigit c = true) (hne : ds ≠ []) (hw2 : ∀ c ∈ w2, isspace c = true) :
    ∃ v, fromString (w1 ++ sg ++ ds ++ w2) = .ok v ∧ toString v = canonicalText sg ds := by
  have hlast : ∀ c, ds.getLast? = some c → isspace c = false := fun c hc =>
    isdigit_not_space c (hds c (getLast?_mem ds c hc))
  rcases hsg with rfl | rfl | rfl
  · cases ds with
    | nil => exact absurd rfl hne
    | cons x xs =>
      have hx := hds x (by simp)
      have hns := isdigit_not_sign x hx
      have hxm : ¬ x = '-' := fun h => hns (Or.inr h)
      obtain ⟨v, h1, _, h3⟩ := fromString_core_ok w1 w2 x xs hw1 hw2 (isdigit_not_space x hx)
        hlast (by rw [if_neg hns]; simp) (by rw [if_neg hns]; exact hds)
      rw [if_neg hns, if_neg hxm] at h3
      exact ⟨v, by simpa using h1, h3⟩
  · obtain ⟨v, h1, _, h3⟩ := fromString_core_ok w1 w2 '+' ds hw1 hw2 (by decide)
      (by rw [getLast?_of_cons_append _ _ hne]; exact hlast)
      (by rw [if_pos (Or.inl rfl)]; exact hne) (by rw [if_pos (Or.inl rfl)]; exact hds)
    rw [if_pos (Or.inl rfl), if_neg (by decide)] at h3
    refine ⟨v, by simpa using h1, ?_⟩
    rw [h3]
    simp [canonicalText]
  · obtain ⟨v, h1, _, h3⟩ := fromString_core_ok w1 w2 '-' ds hw1 hw2 (by decide)
      (by rw [getLast?_of_cons_append _ _ hne]; exact hlast)
      (by rw [if_pos (Or.inr rfl)]; exact hne) (by rw [if_pos (Or.inr rfl)]; exact hds)
    rw [if_pos (Or.inr rfl), if_pos rfl] at h3
    exact ⟨v, by simpa using h1, h3⟩

theorem text_roundtrip_witness :
    (∀ c ∈ "  ".toList, isspace c = true) ∧ (∀ c ∈ "000123".toList, isdigit c = true) ∧
    (∃ v, fromString ("  ".toList ++ ['-'] ++ "000123".toList ++ "  ".toList) = .ok v ∧
      toString v = canonicalText ['-'] "000123".toList) ∧
    canonicalText ['-'] "000123".toList = "-123".toList ∧
    fromString "  -000123  ".toList = .ok ⟨-1, [123]⟩ ∧
    toString ⟨-1, [123]⟩ = "-123".toList :=
  ⟨by decide, by decide,
    text_roundtrip "  ".toList ['-'] "000123".toList "  ".toList (by decide)
      (Or.inr (Or.inr rfl)) (by decide) (by decide) (by decide),
    by decide, rfl, by decide⟩

end BigInt

namespace BigInt

theorem head_dropWhile_space (l : List Char) :
    ∀ c, (l.dropWhile isspace).head? = some c → isspace c = false := by
  induction l with
  | nil => simp
  | cons x xs ih =>
    intro c hc
    by_cases hx : isspace x = true
    · simp only [List.dropWhile, hx] at hc
      exact ih c hc
    · simp only [Bool.not_eq_true] at hx
      simp only [List.dropWhile, hx, List.head?_cons, Option.some.injEq] at hc
      rw [← hc]; exact hx

/-- Every text is whitespace, then its trimmed part, then whitespace; the trimmed
part neither begins nor ends with whitespace. -/
theorem trim_decompose (text : List Char) :
    ∃ w1 w2, text = w1 ++ trim text ++ w2 ∧ (∀ c ∈ w1, isspace c = true) ∧
      (∀ c ∈ w2, isspace c = true) ∧ (trim text = [] → w2 = []) ∧
      (∀ c, (trim text).head? = some c → isspace c = false) ∧
      (∀ c, (trim text).getLast? = some c → isspace c = false) := by
  set r := text.dropWhile isspace with hr
  have h1 : text = text.takeWhile isspace ++ r := (List.takeWhile_append_dropWhile _ _).symm
  have h2 : r.reverse = r.reverse.takeWhile isspace ++ r.reverse.dropWhile isspace :=
    (List.takeWhile_append_dropWhile _ _).symm
  have h3 : r = trim text ++ (r.reverse.takeWhile isspace).reverse := by
    have := congrArg List.reverse h2
    rw [List.reverse_reverse, List.reverse_append] at this
    exact this
  have hlast : ∀ c, (trim text).getLast? = some c → isspace c = false := by
    intro c hc
    unfold trim at hc
    rw [List.getLast?_reverse] at hc
    exact head_dropWhile_space _ c hc
  have hrhead := head_dropWhile_space text
  have hw2 : ∀ c ∈ (r.reverse.takeWhile isspace).reverse, isspace c = true := by
    intro c hc
    exact List.mem_takeWhile_imp (List.mem_reverse.mp hc)
  have hnil : trim text = [] → (r.reverse.takeWhile isspace).reverse = [] := by
    intro h0
    rw [h0, List.nil_append] at h3
    cases hrc : r with
    | nil => simp
    | cons x xs =>
      exfalso
      have hx := hrhead x (by rw [← hr, hrc]; rfl)
      have : x ∈ (r.reverse.takeWhile isspace).reverse := by
        rw [← h3, hrc]; simp
      rw [hw2 x this] at hx
      exact absurd hx (by decide)
  refine ⟨text.takeWhile isspace, (r.reverse.takeWhile isspace).reverse, ?_,
    fun c hc => List.mem_takeWhile_imp hc, hw2, hnil, ?_, hlast⟩
  · rw [List.append_assoc, ← h3]
    exact h1
  · intro c hc
    apply hrhead c
    rw [← hr, h3]
    simp [hc]

theorem afterSign_cons (h : Char) (t : List Char) :
    afterSign (h :: t) = if h = '+' ∨ h = '-' then t else h :: t := by
  simp [afterSign]

/-- Outcome of `fromString` on malformed and on well-formed text. -/
theorem fromString_outcome (text : List Char) :
    (malformed text → ∃ what, fromString text = .error (.invalid_argument what)) ∧
    (¬ malformed text → ∃ v, fromString text = .ok v ∧ canonical v) := by
  obtain ⟨w1, w2, e, hw1, hw2, hnil, hhead, hlast⟩ := trim_decompose text
  unfold malformed
  cases hc : trim text with
  | nil =>
    have hw : w2 = [] := hnil hc
    rw [hc, hw] at e
    simp only [List.append_nil] at e
    constructor
    · intro _
      exact ⟨_, by rw [e]; exact fromString_blank w1 hw1⟩
    · intro h
      exact absurd (Or.inl rfl) h
  | cons h t =>
    rw [hc] at e hhead hlast
    have hcore := fromString_core w1 w2 h t hw1 hw2 (hhead h rfl) hlast
    rw [← e] at hcore
    rw [afterSign_cons]
    constructor
    · rintro (h0 | h0 | ⟨c, hc1, hc2⟩)
      · exact absurd h0 (by simp)
      · by_cases hs : h = '+' ∨ h = '-'
        · rw [if_pos hs] at h0
          rw [hcore, if_pos ⟨hs, h0⟩]
          exact ⟨_, rfl⟩
        · rw [if_neg hs] at h0
          exact absurd h0 (by simp)
      · rw [hcore]
        by_cases hs : (h = '+' ∨ h = '-') ∧ t = []
        · rw [if_pos hs]
          exact ⟨_, rfl⟩
        · rw [if_neg hs, if_pos]
          · exact ⟨_, rfl⟩
          · intro hall
            have := (all_isdigit_iff _).mp hall c hc1
            rw [hc2] at this
            exact absurd this (by decide)
    · intro hm
      have hne : (if h = '+' ∨ h = '-' then t else h :: t) ≠ [] := fun h0 => hm (Or.inr (Or.inl h0))
      have hd : ∀ c ∈ (if h = '+' ∨ h = '-' then t else h :: t), isdigit c = true := by
        intro c hc1
        by_contra hc2
        exact hm (Or.inr (Or.inr ⟨c, hc1, by simpa using hc2⟩))
      obtain ⟨v, hv, cv, _⟩ := fromString_core_ok w1 w2 h t hw1 hw2 (hhead h rfl) hlast hne hd
      rw [← e] at hv
      exact ⟨v, hv, cv⟩

/-- Claim C2. The function `fromString` fails, with the malformed-integer error
`std::invalid_argument`, exactly when the input stripped of leading and trailing
whitespace is empty, or is a lone sign, or has a character that is not a decimal
digit after the optional sign; on every other input it returns a value. -/
theorem fromString_fails_iff (text : List Char) :
    ((∃ e, fromString text = .error e) ↔ malformed text) ∧
    (malformed text → ∃ what, fromString text = .error (.invalid_argument what)) ∧
    (¬ malformed text → ∃ v, fromString text = .ok v) := by
  obtain ⟨h1, h2⟩ := fromString_outcome text
  refine ⟨⟨?_, ?_⟩, h1, ?_⟩
  · rintro ⟨e, he⟩
    by_contra hm
    obtain ⟨v, hv, _⟩ := h2 hm
    rw [hv] at he
    exact absurd he (by simp)
  · intro hm
    obtain ⟨what, hw⟩ := h1 hm
    exact ⟨_, hw⟩
  · intro hm
    obtain ⟨v, hv, _⟩ := h2 hm
    exact ⟨v, hv⟩

end BigInt

namespace BigInt

theorem fromString_fails_iff_witness :
    malformed "12a".toList ∧ malformed " + ".toList ∧ malformed "   ".toList ∧
    ¬ malformed " -007 ".toList ∧
    (∃ what, fromString "12a".toList = .error (.invalid_argument what)) ∧
    (∃ v, fromString " -007 ".toList = .ok v) ∧
    fromString "12a".toList = .error (.invalid_argument "invalid digit in integer") ∧
    fromString " + ".toList = .error (.invalid_argument "expected digits after sign") ∧
    fromString "   ".toList = .error (.invalid_argument "empty integer") :=
  ⟨by decide, by decide, by decide, by decide,
    (fromString_fails_iff "12a".toList).2.1 (by decide),
    (fromString_fails_iff " -007 ".toList).2.2 (by decide), rfl, rfl, rfl⟩

/-! ## The 64-bit constructor -/

theorem ofInt64Loop_spec :
    ∀ (fuel value : Nat) (limbs : List Nat), value < BASE ^ fuel →
      ofInt64Loop fuel value limbs = limbs ++ Nat.digits BASE value := by
  intro fuel
  induction fuel with
  | zero =>
    intro value limbs h
    have : value = 0 := by simpa using h
    simp [ofInt64Loop, this]
  | succ fuel ih =>
    intro value limbs h
    rw [ofInt64Loop]
    by_cases hv : value > 0
    · rw [if_pos hv]
      have hmod : value % BASE < BASE := Nat.mod_lt _ (by decide)
      rw [u32_of_lt _ (by have : BASE = 1000000000 := rfl; omega)]
      rw [ih (value / BASE) _ (Nat.div_lt_of_lt_mul (by rw [pow_succ] at h; rw [Nat.mul_comm]; exact h))]
      rw [Nat.digits_def' (by decide) hv]
      simp
    · have : value = 0 := by omega
      rw [if_neg hv, this]
      simp

theorem ofInt64_spec (v : Int) (h1 : -9223372036854775808 ≤ v) (h2 : v < 9223372036854775808) :
    canonical (ofInt64 v) ∧ value (ofInt64 v) = v := by
  unfold ofInt64
  by_cases h0 : v = 0
  · rw [if_pos h0, h0]
    exact ⟨zero_canonical, by simp [value, zero]⟩
  · rw [if_neg h0]
    simp only []
    set n : Nat := if v < 0 then ((-v) % 18446744073709551616).toNat
      else (v % 18446744073709551616).toNat with hn
    have hnv : (n : Int) = |v| := by
      rw [hn]
      by_cases hneg : v < 0
      · rw [if_pos hneg, Int.emod_eq_of_lt (by omega) (by omega), abs_of_neg hneg]
        exact Int.toNat_of_nonneg (by omega)
      · rw [if_neg hneg, Int.emod_eq_of_lt (by omega) (by omega), abs_of_nonneg (by omega)]
        exact Int.toNat_of_nonneg (by omega)
    have hnpos : n ≠ 0 := by
      intro h
      rw [h] at hnv
      have : |v| = 0 := by rw [← hnv]; rfl
      exact h0 (abs_eq_zero.mp this)
    have hnlt : n < BASE ^ 3 := by
      have hB : BASE ^ 3 = 1000000000000000000000000000 := by decide
      have : |v| ≤ 9223372036854775808 := abs_le.mpr ⟨by omega, by omega⟩
      omega
    rw [ofInt64Loop_spec 3 n [] hnlt, List.nil_append]
    have hlt : ∀ x ∈ Nat.digits BASE n, x < BASE := fun x hx =>
      Nat.digits_lt_base (by decide) hx
    have hne : Nat.digits BASE n ≠ [] := by
      rw [Ne, Nat.digits_eq_nil_iff_eq_zero]; exact hnpos
    have hlast : (Nat.digits BASE n).getLast? ≠ some 0 := by
      rw [List.getLast?_eq_getLast _ hne]
      intro h
      exact Nat.getLast_digit_ne_zero BASE hnpos (Option.some.inj h)
    constructor
    · refine ⟨?_, ?_, hlast, hlt⟩
      · by_cases hneg : v < 0
        · left; simp [hneg]
        · right; right; simp [hneg]
      · constructor
        · intro h
          exfalso
          by_cases hneg : v < 0
          · simp [hneg] at h
          · simp [hneg] at h
        · intro h
          exact absurd h hne
    · unfold value
      simp only []
      rw [limbsValue_eq_ofDigits, Nat.ofDigits_digits, hnv]
      by_cases hneg : v < 0
      · rw [if_pos hneg, abs_of_neg hneg]; ring
      · rw [if_neg hneg, abs_of_nonneg (by omega)]; ring

/-! ## The canonical-form invariant -/

theorem fromString_canonical (text : List Char) (r : BigInt) (h : fromString text = .ok r) :
    canonical r := by
  by_cases hm : malformed text
  · obtain ⟨what, hw⟩ := (fromString_outcome text).1 hm
    rw [hw] at h
    exact absurd h (by simp)
  · obtain ⟨v, hv, cv⟩ := (fromString_outcome text).2 hm
    rw [h, Except.ok.injEq] at hv
    rw [hv]; exact cv

/-- Claim C7. Canonical form is an invariant of every public operation: the result
of `fromString` (when it succeeds), of `BigInt(int64_t)`, of unary `-` and of `+`,
`-`, `*`, `%` (when it succeeds) on canonical operands is canonical, that is: the sign
is -1, 0 or 1, it is 0 exactly when there are no limbs, the last limb of a non-empty
vector is not zero, and every limb is below 1,000,000,000. -/
theorem canonical_invariant (a b : BigInt) (ha : canonical a) (hb : canonical b)
    (text : List Char) (v : Int) (h1 : -9223372036854775808 ≤ v)
    (h2 : v < 9223372036854775808) :
    (∀ r, fromString text = .ok r → canonical r) ∧
    canonical (ofInt64 v) ∧ canonical (neg a) ∧ canonical (add a b) ∧
    canonical (sub a b) ∧ canonical (mul a b) ∧
    (∀ r, mod a b = .ok r → canonical r) ∧
    (∀ x : BigInt, canonical x ↔
      ((x.sign_ = -1 ∨ x.sign_ = 0 ∨ x.sign_ = 1) ∧ (x.sign_ = 0 ↔ x.limbs_ = []) ∧
        (∀ hne : x.limbs_ ≠ [], x.limbs_.getLast hne ≠ 0) ∧
        ∀ l ∈ x.limbs_, l < 1000000000)) := by
  refine ⟨fun r h => fromString_canonical text r h, (ofInt64_spec v h1 h2).1,
    neg_canonical a ha, add_canonical a b ha hb, sub_canonical a b ha hb,
    mul_canonical a b ha hb, ?_, ?_⟩
  · intro r hr
    by_cases hs : b.sign_ = 0
    · simp [mod, hs] at hr
    · obtain ⟨r1, e1, c1, _⟩ := mod_spec a b ha hb hs
      rw [e1, Except.ok.injEq] at hr
      rw [← hr]; exact c1
  · intro x
    unfold canonical
    have hiff : x.limbs_.getLast? ≠ some 0 ↔ ∀ hne : x.limbs_ ≠ [], x.limbs_.getLast hne ≠ 0 := by
      constructor
      · intro h hne; exact getLast_ne_zero_of _ h hne
      · intro h h0
        cases hl : x.limbs_ with
        | nil => rw [hl] at h0; simp at h0
        | cons y ys =>
          have hne : x.limbs_ ≠ [] := by rw [hl]; simp
          rw [List.getLast?_eq_getLast _ hne] at h0
          exact h hne (Option.some.inj h0)
    rw [hiff]
    rfl

theorem canonical_invariant_witness :
    canonical ⟨-1, [5, 7]⟩ ∧ canonical ⟨1, [999999999, 2]⟩ ∧
    canonical (ofInt64 (-9223372036854775808)) ∧ canonical (neg ⟨-1, [5, 7]⟩) ∧
    canonical (add ⟨-1, [5, 7]⟩ ⟨1, [999999999, 2]⟩) ∧
    canonical (sub ⟨-1, [5, 7]⟩ ⟨1, [999999999, 2]⟩) ∧
    canonical (mul ⟨-1, [5, 7]⟩ ⟨1, [999999999, 2]⟩) ∧
    (∀ r, fromString " -00012345678901234567890 ".toList = .ok r → canonical r) ∧
    fromString " -00012345678901234567890 ".toList = .ok ⟨-1, [234567890, 345678901, 12]⟩ :=
  have h := canonical_invariant ⟨-1, [5, 7]⟩ ⟨1, [999999999, 2]⟩ (by decide) (by decide)
    " -00012345678901234567890 ".toList (-9223372036854775808) (by decide) (by decide)
  ⟨by decide, by decide, h.2.1, h.2.2.1, h.2.2.2.1, h.2.2.2.2.1, h.2.2.2.2.2.1, h.1, rfl⟩

end BigInt

namespace BigInt

/-! ## Algebraic laws -/

theorem eq_of_structural (a b : BigInt) (h : a = b) : eq a b = true := by
  subst h
  simp [eq]

theorem zero_value : value zero = 0 := by simp [value, zero]

/-- Claim C11. Additive identity and inverse: for every canonical `x`, `x + 0 == x`,
`0 + x == x` and `x + (-x) == 0` under the structural `operator==`, with `0` the
canonical zero; and `(-5) + 5` renders `"0"`. -/
theorem add_identity_inverse (x : BigInt) (hx : canonical x) :
    eq (add x zero) x = true ∧ eq (add zero x) x = true ∧
    eq (add x (neg x)) zero = true ∧
    toString (add (ofInt64 (-5)) (ofInt64 5)) = "0".toList := by
  refine ⟨?_, ?_, ?_, by decide⟩
  · apply eq_of_structural
    apply canonical_ext _ _ (add_canonical x zero hx zero_canonical) hx
    rw [add_value x zero hx zero_canonical, zero_value, add_zero]
  · apply eq_of_structural
    apply canonical_ext _ _ (add_canonical zero x zero_canonical hx) hx
    rw [add_value zero x zero_canonical hx, zero_value, zero_add]
  · apply eq_of_structural
    apply canonical_ext _ _ (add_canonical x (neg x) hx (neg_canonical x hx)) zero_canonical
    rw [add_value x (neg x) hx (neg_canonical x hx), neg_value, zero_value]
    ring

theorem add_identity_inverse_witness :
    canonical ⟨-1, [5, 7]⟩ ∧ eq (add ⟨-1, [5, 7]⟩ zero) ⟨-1, [5, 7]⟩ = true ∧
    eq (add zero ⟨-1, [5, 7]⟩) ⟨-1, [5, 7]⟩ = true ∧
    eq (add ⟨-1, [5, 7]⟩ (neg ⟨-1, [5, 7]⟩)) zero = true :=
  have h := add_identity_inverse ⟨-1, [5, 7]⟩ (by decide)
  ⟨by decide, h.1, h.2.1, h.2.2.1⟩

/-- Claim C12. Addition is commutative as a structural equality: for canonical `a`
and `b`, `a + b == b + a`, that is the same sign and the same limb sequence. -/
theorem add_comm_structural (a b : BigInt) (ha : canonical a) (hb : canonical b) :
    eq (add a b) (add b a) = true ∧ (add a b).sign_ = (add b a).sign_ ∧
    (add a b).limbs_ = (add b a).limbs_ := by
  have h : add a b = add b a := by
    apply canonical_ext _ _ (add_canonical a b ha hb) (add_canonical b a hb ha)
    rw [add_value a b ha hb, add_value b a hb ha]
    ring
  exact ⟨eq_of_structural _ _ h, by rw [h], by rw [h]⟩

theorem add_comm_structural_witness :
    canonical ⟨-1, [5, 7]⟩ ∧ canonical ⟨1, [999999999, 2]⟩ ∧
    eq (add ⟨-1, [5, 7]⟩ ⟨1, [999999999, 2]⟩) (add ⟨1, [999999999, 2]⟩ ⟨-1, [5, 7]⟩) = true ∧
    add ⟨-1, [5, 7]⟩ ⟨1, [999999999, 2]⟩ = ⟨-1, [6, 4]⟩ :=
  ⟨by decide, by decide,
    (add_comm_structural ⟨-1, [5, 7]⟩ ⟨1, [999999999, 2]⟩ (by decide) (by decide)).1, by decide⟩

/-- Claim C13. Multiplication is commutative as a structural equality: for canonical
`a` and `b`, `a * b == b * a`, that is the same sign and the same limb sequence,
although `mulAbs` runs its outer loop over the limbs of its first argument and its
inner loop over those of the second. -/
theorem mul_comm_structural (a b : BigInt) (ha : canonical a) (hb : canonical b) :
    eq (mul a b) (mul b a) = true ∧ (mul a b).sign_ = (mul b a).sign_ ∧
    (mul a b).limbs_ = (mul b a).limbs_ ∧
    limbsValue (mulAbs a b).limbs_ = limbsValue (mulAbs b a).limbs_ := by
  have h : mul a b = mul b a := by
    apply canonical_ext _ _ (mul_canonical a b ha hb) (mul_canonical b a hb ha)
    rw [mul_value a b ha hb, mul_value b a hb ha]
    ring
  refine ⟨eq_of_structural _ _ h, by rw [h], by rw [h], ?_⟩
  rw [(mulAbs_limbs_value a b ha hb).1, (mulAbs_limbs_value b a hb ha).1, Nat.mul_comm]

theorem mul_comm_structural_witness :
    canonical ⟨-1, [5, 7, 3]⟩ ∧ canonical ⟨1, [999999999, 2]⟩ ∧
    eq (mul ⟨-1, [5, 7, 3]⟩ ⟨1, [999999999, 2]⟩) (mul ⟨1, [999999999, 2]⟩ ⟨-1, [5, 7, 3]⟩) = true ∧
    mul ⟨-1, [5, 7, 3]⟩ ⟨1, [999999999, 2]⟩ = mul ⟨1, [999999999, 2]⟩ ⟨-1, [5, 7, 3]⟩ :=
  ⟨by decide, by decide,
    (mul_comm_structural ⟨-1, [5, 7, 3]⟩ ⟨1, [999999999, 2]⟩ (by decide) (by decide)).1,
    by decide⟩

end BigInt

namespace BigInt

/-! ## States of the long-division loop -/

theorem modAbsLoop_one (ds rem : BigInt) :
    modAbsLoop 1 ds rem =
      if modAbsSearch ds rem 32 0 (BASE - 1) 0 ≠ 0
      then sub rem (mulAbsByUint ds (modAbsSearch ds rem 32 0 (BASE - 1) 0)) else rem := by
  simp only [modAbsLoop]

theorem modAbsLoop_succ_shift (k m : Nat) (dl : List Nat) (rem : BigInt) :
    modAbsLoop (m + 1) ⟨1, List.replicate (k + 1) 0 ++ dl⟩ rem =
      modAbsLoop m ⟨1, List.replicate k 0 ++ dl⟩
        (modAbsLoop 1 ⟨1, List.replicate (k + 1) 0 ++ dl⟩ rem) := by
  have hne : List.replicate (k + 1) 0 ++ dl ≠ [] := by simp [List.replicate_succ]
  have htail : (List.replicate (k + 1) 0 ++ dl).tail = List.replicate k 0 ++ dl := by
    simp [List.replicate_succ]
  rw [modAbsLoop_one]
  rw [modAbsLoop]
  simp only [hne, ne_eq, not_false_eq_true, if_true, htail]

theorem replicate_append_value (k : Nat) (dl : List Nat) :
    limbsValue (List.replicate k 0 ++ dl) = limbsValue dl * BASE ^ k := by
  rw [limbsValue_append]; simp [Nat.mul_comm]

theorem replicate_append_lt (k : Nat) (dl : List Nat) (hdl : ∀ x ∈ dl, x < BASE) :
    ∀ x ∈ List.replicate k 0 ++ dl, x < BASE := by
  intro x hx
  rcases List.mem_append.mp hx with h | h
  · exact replicate_zero_lt k x h
  · exact hdl x h

/-- State of the loop of `modAbs` after `j` of its `s + 1` iterations: the divisor is
shifted by `s - j` limbs, and the remainder is below `BASE` times that divisor. -/
theorem modAbsLoop_state (dl : List Nat) (hdl : ∀ x ∈ dl, x < BASE) (hD : 0 < limbsValue dl)
    (s : Nat) (rem0 : BigInt) (hrem : canonical rem0) (hs : rem0.sign_ ≠ -1)
    (hR : limbsValue rem0.limbs_ < limbsValue dl * BASE ^ s * BASE) :
    ∀ j, j ≤ s →
      canonical (modAbsLoop j ⟨1, List.replicate s 0 ++ dl⟩ rem0) ∧
      (modAbsLoop j ⟨1, List.replicate s 0 ++ dl⟩ rem0).sign_ ≠ -1 ∧
      limbsValue (modAbsLoop j ⟨1, List.replicate s 0 ++ dl⟩ rem0).limbs_ <
        limbsValue dl * BASE ^ (s - j) * BASE ∧
      ∀ m, modAbsLoop (j + m) ⟨1, List.replicate s 0 ++ dl⟩ rem0 =
        modAbsLoop m ⟨1, List.replicate (s - j) 0 ++ dl⟩
          (modAbsLoop j ⟨1, List.replicate s 0 ++ dl⟩ rem0) := by
  intro j
  induction j with
  | zero =>
    intro _
    simp only [modAbsLoop, Nat.sub_zero, Nat.zero_add]
    exact ⟨hrem, hs, hR, fun _ => trivial⟩
  | succ j ih =>
    intro hj
    obtain ⟨c1, c2, c3, c4⟩ := ih (by omega)
    have hpos : 0 < limbsValue dl * BASE ^ (s - j) := Nat.mul_pos hD (pow_pos (by decide) _)
    obtain ⟨_, s1, s2, s3⟩ := modAbs_step ⟨1, List.replicate (s - j) 0 ++ dl⟩
      (modAbsLoop j ⟨1, List.replicate s 0 ++ dl⟩ rem0) rfl (replicate_append_lt _ dl hdl)
      (by rw [replicate_append_value]; exact hpos) c1 c2
      (by rw [replicate_append_value]; exact c3)
    rw [← modAbsLoop_one] at s1 s2 s3
    dsimp only at s3
    rw [replicate_append_value] at s3
    have e1 : modAbsLoop (j + 1) ⟨1, List.replicate s 0 ++ dl⟩ rem0 =
        modAbsLoop 1 ⟨1, List.replicate (s - j) 0 ++ dl⟩
          (modAbsLoop j ⟨1, List.replicate s 0 ++ dl⟩ rem0) := c4 1
    have e2 : s - j = (s - (j + 1)) + 1 := by omega
    rw [e1]
    refine ⟨s1, s2, ?_, ?_⟩
    · rw [s3]
      have := Nat.mod_lt (limbsValue (modAbsLoop j ⟨1, List.replicate s 0 ++ dl⟩ rem0).limbs_) hpos
      have e3 : limbsValue dl * BASE ^ (s - j) = limbsValue dl * BASE ^ (s - (j + 1)) * BASE := by
        rw [e2, pow_succ]
        ring
      omega
    · intro m
      rw [show j + 1 + m = j + (m + 1) from by omega, c4 (m + 1)]
      rw [e2, modAbsLoop_succ_shift]

end BigInt

namespace BigInt

/-! ## The quotient digit -/

theorem cmpAbs_prod_iff (ds rem : BigInt) (hds : ds.sign_ = 1) (hdl : ∀ x ∈ ds.limbs_, x < BASE)
    (hrem : canonical rem) (mid : Nat) (hmid : mid < BASE) :
    cmpAbs (mulAbsByUint ds mid) rem ≤ 0 ↔ limbsValue ds.limbs_ * mid ≤ limbsValue rem.limbs_ := by
  have hsign0 : ds.sign_ = 0 → ds.limbs_ = [] := by
    intro h; rw [hds] at h; exact absurd h (by decide)
  obtain ⟨v1, v2⟩ := mulAbsByUint_limbs_value ds mid hdl hmid hsign0
  obtain ⟨c1, _⟩ := mulAbsByUint_canonical ds mid hdl hmid hsign0
  rcases cmpAbs_spec (mulAbsByUint ds mid) rem v2 hrem.2.2.2 c1.2.2.1 hrem.2.2.1 with
    ⟨hc, hv⟩ | ⟨hc, hv⟩ | ⟨hc, hv⟩
  · rw [hc]
    rw [v1] at hv
    exact ⟨fun _ => le_of_lt hv, fun _ => by decide⟩
  · rw [hc]
    have : limbsValue (mulAbsByUint ds mid).limbs_ = limbsValue rem.limbs_ := by rw [hv]
    rw [v1] at this
    exact ⟨fun _ => le_of_eq this, fun _ => by decide⟩
  · rw [hc]
    rw [v1] at hv
    exact ⟨fun h => absurd h (by decide), fun h => by omega⟩

/-- The binary search of `modAbs` leaves its loop within thirty iterations, with the
largest digit whose product with the divisor does not exceed the remainder. -/
theorem modAbsSearch_quotient (ds rem : BigInt) (hds : ds.sign_ = 1)
    (hdl : ∀ x ∈ ds.limbs_, x < BASE) (hD : 0 < limbsValue ds.limbs_) (hrem : canonical rem)
    (hR : limbsValue rem.limbs_ < limbsValue ds.limbs_ * BASE) (fuel : Nat) (hf : 30 ≤ fuel) :
    modAbsSearch ds rem fuel 0 (BASE - 1) 0 < BASE ∧
    limbsValue ds.limbs_ * modAbsSearch ds rem fuel 0 (BASE - 1) 0 ≤ limbsValue rem.limbs_ ∧
    (∀ q, q < BASE → limbsValue ds.limbs_ * q ≤ limbsValue rem.limbs_ →
      q ≤ modAbsSearch ds rem fuel 0 (BASE - 1) 0) ∧
    modAbsSearch ds rem fuel 0 (BASE - 1) 0 = limbsValue rem.limbs_ / limbsValue ds.limbs_ := by
  have hB : BASE = 1000000000 := rfl
  have hpow : BASE - 1 + 1 - 0 < 2 ^ fuel := by
    have h1 : 2 ^ 30 ≤ 2 ^ fuel := Nat.pow_le_pow_right (by decide) hf
    have h2 : (2 : Nat) ^ 30 = 1073741824 := by decide
    omega
  obtain ⟨s1, s2, s3⟩ := modAbsSearch_spec ds rem
    (fun q => limbsValue ds.limbs_ * q ≤ limbsValue rem.limbs_)
    (fun mid hmid => cmpAbs_prod_iff ds rem hds hdl hrem mid hmid)
    (fun q q1 h1 h2 => le_trans (Nat.mul_le_mul_left _ h1) h2) (by simp)
    fuel 0 (BASE - 1) 0 hpow (by omega) (by omega) (by simp)
    (Or.inr ⟨rfl, rfl⟩) (by intro q h1 h2; omega)
  refine ⟨s1, s2, s3, ?_⟩
  apply le_antisymm
  · exact (Nat.le_div_iff_mul_le hD).mpr (by rw [Nat.mul_comm]; exact s2)
  · exact s3 _ (Nat.div_lt_of_lt_mul hR) (Nat.mul_div_le _ _)

/-- Claim C19. Quotient-digit search in `modAbs`: at each of the `shift + 1` positions
the running remainder is below `divisorShifted * 10^9`; the binary search over
`[0, 10^9 - 1]` ends with `best` the largest digit `q` with
`divisorShifted * q <= remainder`, which is `remainder / divisorShifted`; the product
subtracted next does not exceed the remainder, and the remainder after the step is
below `divisorShifted`. -/
theorem quotient_digit_search (a b : BigInt) (ha : canonical a) (hb : canonical b)
    (hb0 : b ≠ zero) (hge : ¬ cmpAbs (absValue a) (absValue b) < 0) (j : Nat)
    (hj : j ≤ a.limbs_.length - b.limbs_.length) (ds rem : BigInt) (best : Nat)
    (hds : ds = ⟨1, List.replicate (a.limbs_.length - b.limbs_.length - j) 0 ++ b.limbs_⟩)
    (hrem : rem = modAbsLoop j
      ⟨1, List.replicate (a.limbs_.length - b.limbs_.length) 0 ++ b.limbs_⟩ (absValue a))
    (hbest : best = modAbsSearch ds rem 32 0 (BASE - 1) 0) :
    modAbs a b = .ok (normalize
      (modAbsLoop (a.limbs_.length - b.limbs_.length + 1 - j) ds rem)) ∧
    limbsValue rem.limbs_ < limbsValue ds.limbs_ * BASE ∧
    (∀ q, q < BASE →
      (cmpAbs (mulAbsByUint ds q) rem ≤ 0 ↔ limbsValue ds.limbs_ * q ≤ limbsValue rem.limbs_)) ∧
    best < BASE ∧ limbsValue ds.limbs_ * best ≤ limbsValue rem.limbs_ ∧
    (∀ q, q < BASE → limbsValue ds.limbs_ * q ≤ limbsValue rem.limbs_ → q ≤ best) ∧
    best = limbsValue rem.limbs_ / limbsValue ds.limbs_ ∧
    (∀ fuel, 30 ≤ fuel → modAbsSearch ds rem fuel 0 (BASE - 1) 0 = best) ∧
    limbsValue (mulAbsByUint ds best).limbs_ ≤ limbsValue rem.limbs_ ∧
    modAbsLoop (j + 1)
      ⟨1, List.replicate (a.limbs_.length - b.limbs_.length) 0 ++ b.limbs_⟩ (absValue a) =
      modAbsLoop 1 ds rem ∧
    limbsValue (modAbsLoop 1 ds rem).limbs_ < limbsValue ds.limbs_ := by
  have hs : b.sign_ ≠ 0 := fun h => hb0 (eq_zero_of_sign b hb h)
  obtain ⟨ca, sa, la, _⟩ := absValue_canonical a ha
  obtain ⟨cb, _, lb, sb1⟩ := absValue_canonical b hb
  have sb := sb1 hs
  have hbne : b.limbs_ ≠ [] := fun h0 => hs (hb.2.1.mpr h0)
  have hBpos := limbsValue_pos b.limbs_ hb.2.2.1 hbne
  have hle : limbsValue b.limbs_ ≤ limbsValue a.limbs_ := by
    rcases cmpAbs_spec (absValue a) (absValue b) ca.2.2.2 cb.2.2.2 ca.2.2.1 cb.2.2.1 with
      ⟨hc, hv⟩ | ⟨hc, hv⟩ | ⟨hc, hv⟩
    · rw [hc] at hge; exact absurd (by decide) hge
    · rw [la, lb] at hv; rw [hv]
    · rw [la, lb] at hv; exact le_of_lt hv
  have hlen := length_le_of_value_le a.limbs_ b.limbs_ ha.2.2.2 hb.2.2.1 hle
  have hR0 : limbsValue (absValue a).limbs_ <
      limbsValue b.limbs_ * BASE ^ (a.limbs_.length - b.limbs_.length) * BASE := by
    rw [la]
    have h1 := limbsValue_lt a.limbs_ ha.2.2.2
    have h2 := limbsValue_ge_pow b.limbs_ hb.2.2.1 hbne
    have hpos : 0 < b.limbs_.length := List.length_pos.mpr hbne
    have e : a.limbs_.length =
        (b.limbs_.length - 1) + (a.limbs_.length - b.limbs_.length) + 1 := by omega
    have h3 : BASE ^ a.limbs_.length =
        BASE ^ (b.limbs_.length - 1) * BASE ^ (a.limbs_.length - b.limbs_.length) * BASE := by
      nth_rewrite 1 [e]
      rw [pow_succ, pow_add]
    have h4 : BASE ^ (b.limbs_.length - 1) * BASE ^ (a.limbs_.length - b.limbs_.length) * BASE
        ≤ limbsValue b.limbs_ * BASE ^ (a.limbs_.length - b.limbs_.length) * BASE :=
      Nat.mul_le_mul_right _ (Nat.mul_le_mul_right _ h2)
    omega
  obtain ⟨c1, c2, c3, c4⟩ := modAbsLoop_state b.limbs_ hb.2.2.2 hBpos
    (a.limbs_.length - b.limbs_.length) (absValue a) ca sa hR0 j hj
  rw [← hrem] at c1 c2 c3 c4
  have hdsl : ds.limbs_ =
      List.replicate (a.limbs_.length - b.limbs_.length - j) 0 ++ b.limbs_ := by rw [hds]
  have hdss : ds.sign_ = 1 := by rw [hds]
  have hdlt : ∀ x ∈ ds.limbs_, x < BASE := by
    rw [hdsl]; exact replicate_append_lt _ _ hb.2.2.2
  have hDv : limbsValue ds.limbs_ =
      limbsValue b.limbs_ * BASE ^ (a.limbs_.length - b.limbs_.length - j) := by
    rw [hdsl, replicate_append_value]
  have hDpos : 0 < limbsValue ds.limbs_ := by
    rw [hDv]; exact Nat.mul_pos hBpos (pow_pos (by decide) _)
  have hRD : limbsValue rem.limbs_ < limbsValue ds.limbs_ * BASE := by rw [hDv]; exact c3
  obtain ⟨q1, q2, q3, q4⟩ := modAbsSearch_quotient ds rem hdss hdlt hDpos c1 hRD 32 (by decide)
  rw [← hbest] at q1 q2 q3 q4
  obtain ⟨_, _, _, t4⟩ := modAbs_step ds rem hdss hdlt hDpos c1 c2 hRD
  rw [← modAbsLoop_one] at t4
  have hsign0 : ds.sign_ = 0 → ds.limbs_ = [] := by
    intro h; rw [hdss] at h; exact absurd h (by decide)
  refine ⟨?_, hRD, fun q hq => cmpAbs_prod_iff ds rem hdss hdlt c1 q hq, q1, q2, q3, q4, ?_, ?_,
    ?_, ?_⟩
  · unfold modAbs
    rw [if_neg hs, if_neg hge]
    simp only [la, lb, sb]
    have := c4 (a.limbs_.length - b.limbs_.length + 1 - j)
    rw [show j + (a.limbs_.length - b.limbs_.length + 1 - j) =
      a.limbs_.length - b.limbs_.length + 1 from by omega] at this
    rw [this, hds]
  · intro fuel hf
    rw [q4]
    exact (modAbsSearch_quotient ds rem hdss hdlt hDpos c1 hRD fuel hf).2.2.2
  · rw [(mulAbsByUint_limbs_value ds best hdlt q1 hsign0).1]
    exact q2
  · rw [c4 1, hds]
  · rw [t4]
    exact Nat.mod_lt _ hDpos

theorem quotient_digit_search_witness :
    canonical ⟨1, [5, 7, 3]⟩ ∧ canonical ⟨-1, [999999999, 2]⟩ ∧
    modAbsLoop 1 ⟨1, [0, 999999999, 2]⟩ ⟨1, [5, 7, 3]⟩ = ⟨1, [5, 8]⟩ ∧
    modAbsSearch ⟨1, [999999999, 2]⟩ ⟨1, [5, 8]⟩ 32 0 (BASE - 1) 0 = 2 ∧
    limbsValue (⟨1, [5, 8]⟩ : BigInt).limbs_ <
      limbsValue (⟨1, [999999999, 2]⟩ : BigInt).limbs_ * BASE ∧
    modAbsLoop 1 ⟨1, [999999999, 2]⟩ ⟨1, [5, 8]⟩ = ⟨1, [7, 2]⟩ ∧
    limbsValue (modAbsLoop 1 ⟨1, [999999999, 2]⟩ ⟨1, [5, 8]⟩).limbs_ <
      limbsValue (⟨1, [999999999, 2]⟩ : BigInt).limbs_ :=
  have h := quotient_digit_search ⟨1, [5, 7, 3]⟩ ⟨-1, [999999999, 2]⟩ (by decide) (by decide)
    (by decide) (by decide) 1 (by decide) ⟨1, [999999999, 2]⟩ ⟨1, [5, 8]⟩ 2 rfl (by decide)
    (by decide)
  ⟨by decide, by decide, by decide, by decide, h.2.1, by decide, h.2.2.2.2.2.2.2.2.2.2⟩

end BigInt

namespace BigInt

/-! ## Intermediate states of `mulAbs` -/

theorem mulAbsOuter_add (a b : List Nat) :
    ∀ (n m i : Nat) (res : List Nat),
      mulAbsOuter a b (n + m) i res = mulAbsOuter a b m (i + n) (mulAbsOuter a b n i res) := by
  intro n
  induction n with
  | zero => intro m i res; simp [mulAbsOuter]
  | succ n ih =>
    intro m i res
    rw [show n + 1 + m = (n + m) + 1 from by omega]
    simp only [mulAbsOuter]
    rw [ih, show i + 1 + n = i + (n + 1) from by omega]

theorem mulAbsInner_bounds (a b : List Nat) (i : Nat) (ha : ∀ x ∈ a, x < BASE)
    (hb : ∀ x ∈ b, x < BASE) :
    ∀ (k j carry : Nat) (res : List Nat), carry < BASE → (∀ x ∈ res, x < BASE) →
      (mulAbsInner a b i k j carry res).1.length = res.length ∧
      (mulAbsInner a b i k j carry res).2 < BASE ∧
      ∀ x ∈ (mulAbsInner a b i k j carry res).1, x < BASE := by
  intro k
  induction k with
  | zero =>
    intro j carry res hc hres
    simp only [mulAbsInner]
    exact ⟨trivial, hc, hres⟩
  | succ k ih =>
    intro j carry res hc hres
    have hai := getD_lt_of_forall a ha i
    have hbj := getD_lt_of_forall b hb j
    have hr := getD_lt_of_forall res hres (i + j)
    have hB : BASE = 1000000000 := rfl
    have hprod : a.getD i 0 * b.getD j 0 ≤ (BASE - 1) * (BASE - 1) :=
      Nat.mul_le_mul (by omega) (by omega)
    have h2 : (BASE - 1) * (BASE - 1) = 999999998000000001 := by decide
    have e1 : u64 (u64 (res.getD (i + j) 0 + u64 (a.getD i 0 * b.getD j 0)) + carry) =
        res.getD (i + j) 0 + a.getD i 0 * b.getD j 0 + carry := by
      rw [u64_of_lt (a.getD i 0 * b.getD j 0) (by omega),
        u64_of_lt (res.getD (i + j) 0 + a.getD i 0 * b.getD j 0) (by omega),
        u64_of_lt _ (by omega)]
    simp only [mulAbsInner, e1]
    set s := res.getD (i + j) 0 + a.getD i 0 * b.getD j 0 + carry with hs
    have hmod : s % BASE < BASE := Nat.mod_lt _ (by decide)
    have hdiv : s / BASE < BASE := by
      apply Nat.div_lt_of_lt_mul
      have : BASE * BASE = 1000000000000000000 := by decide
      omega
    rw [u32_of_lt _ (by omega)]
    obtain ⟨r1, r2, r3⟩ := ih (j + 1) (s / BASE) (res.set (i + j) (s % BASE)) hdiv
      (forall_lt_set res hres _ _ hmod)
    exact ⟨by simpa using r1, r2, r3⟩

/-- One iteration of the outer loop of `mulAbs`: after the inner loop, the limb at
`k = i + b.size()` absorbs the carry entirely, so `carry2` is zero and the `while`
loop is not entered. -/
theorem mulAbsRow_spec (a b : List Nat) (ha : ∀ x ∈ a, x < BASE) (hb : ∀ x ∈ b, x < BASE)
    (i : Nat) (res : List Nat) (hi : i < a.length) (hlen : res.length = a.length + b.length + 1)
    (hres : ∀ x ∈ res, x < BASE)
    (hv : limbsValue res = limbsValue (a.take i) * limbsValue b) :
    (mulAbsInner a b i b.length 0 0 res).1.getD (i + b.length) 0 +
        (mulAbsInner a b i b.length 0 0 res).2 < BASE ∧
    mulAbsOuter a b 1 i res =
      (mulAbsInner a b i b.length 0 0 res).1.set (i + b.length)
        ((mulAbsInner a b i b.length 0 0 res).1.getD (i + b.length) 0 +
          (mulAbsInner a b i b.length 0 0 res).2) ∧
    (mulAbsOuter a b 1 i res).length = a.length + b.length + 1 ∧
    (∀ x ∈ mulAbsOuter a b 1 i res, x < BASE) ∧
    limbsValue (mulAbsOuter a b 1 i res) = limbsValue (a.take (i + 1)) * limbsValue b := by
  have hB : BASE = 1000000000 := rfl
  obtain ⟨r1, r2, r3, r4⟩ := mulAbsInner_spec a b i ha hb b.length 0 0 res
    (by omega) (by omega) (by decide) hres
  simp only [mulAbsOuter]
  set r := mulAbsInner a b i b.length 0 0 res with hr
  have hk := getD_lt_of_forall r.1 r3 (i + b.length)
  set s := r.1.getD (i + b.length) 0 + r.2 with hs
  have hset := limbsValue_set r.1 (i + b.length) s (by omega)
  simp only [List.drop_zero, add_zero, zero_add] at r4
  have htake := limbsValue_take_succ a i (by omega)
  have hval : limbsValue (r.1.set (i + b.length) s) =
      limbsValue (a.take (i + 1)) * limbsValue b := by
    rw [htake]
    clear_value s
    zify at hset r4 hv hs ⊢
    linear_combination hset + r4 + hv + (BASE : Int) ^ (i + b.length) * hs
  have hbound : limbsValue (a.take (i + 1)) * limbsValue b < BASE ^ (i + b.length + 1) := by
    have h1 : limbsValue (a.take (i + 1)) < BASE ^ (i + 1) := by
      have := limbsValue_lt (a.take (i + 1)) (fun x hx => ha x (List.mem_of_mem_take hx))
      rwa [List.length_take, Nat.min_eq_left (by omega)] at this
    have h2 := limbsValue_lt b hb
    have h3 : limbsValue (a.take (i + 1)) * limbsValue b < BASE ^ (i + 1) * BASE ^ b.length :=
      Nat.mul_lt_mul'' h1 h2
    rw [← pow_add] at h3
    rw [show i + b.length + 1 = i + 1 + b.length from by omega]
    exact h3
  have hslt : s < BASE := by
    by_contra hcon
    have hge : BASE ≤ s := by omega
    have h1 : limbsValue ((r.1.set (i + b.length) s).take (i + b.length + 1)) ≤
        limbsValue (r.1.set (i + b.length) s) := by
      nth_rewrite 2 [← List.take_append_drop (i + b.length + 1) (r.1.set (i + b.length) s)]
      rw [limbsValue_append]
      exact Nat.le_add_right _ _
    have h2 : limbsValue ((r.1.set (i + b.length) s).take (i + b.length + 1)) =
        limbsValue ((r.1.set (i + b.length) s).take (i + b.length)) + BASE ^ (i + b.length) * s := by
      have := limbsValue_take_succ (r.1.set (i + b.length) s) (i + b.length)
        (by rw [List.length_set]; omega)
      rw [this]
      congr 2
      rw [List.getD_eq_getElem _ _ (by rw [List.length_set]; omega)]
      simp
    have h3 : BASE ^ (i + b.length) * BASE ≤ BASE ^ (i + b.length) * s :=
      Nat.mul_le_mul_left _ hge
    rw [← pow_succ] at h3
    omega
  have hc0 : u64 s / BASE = 0 := by
    rw [u64_of_lt s (by omega)]
    exact Nat.div_eq_of_lt hslt
  have hcm : u32 (u64 s % BASE) = s := by
    rw [u64_of_lt s (by omega), Nat.mod_eq_of_lt hslt, u32_of_lt s (by omega)]
  rw [hc0, hcm]
  have hcarry : ∀ fuel k (l : List Nat), mulAbsCarry fuel k 0 l = (0, l) := by
    intro fuel k l
    cases fuel <;> simp [mulAbsCarry]
  rw [hcarry]
  simp only []
  refine ⟨hslt, trivial, by rw [List.length_set]; omega, forall_lt_set r.1 r3 _ _ hslt, hval⟩

theorem mulAbsOuter_upto (a b : List Nat) (ha : ∀ x ∈ a, x < BASE) (hb : ∀ x ∈ b, x < BASE) :
    ∀ i, i ≤ a.length →
      (mulAbsOuter a b i 0 (List.replicate (a.length + b.length + 1) 0)).length =
        a.length + b.length + 1 ∧
      (∀ x ∈ mulAbsOuter a b i 0 (List.replicate (a.length + b.length + 1) 0), x < BASE) ∧
      limbsValue (mulAbsOuter a b i 0 (List.replicate (a.length + b.length + 1) 0)) =
        limbsValue (a.take i) * limbsValue b := by
  intro i
  induction i with
  | zero =>
    intro _
    simp only [mulAbsOuter]
    exact ⟨by simp, replicate_zero_lt _, by simp⟩
  | succ i ih =>
    intro hi
    obtain ⟨h1, h2, h3⟩ := ih (by omega)
    rw [mulAbsOuter_add a b i 1 0, Nat.zero_add]
    obtain ⟨_, _, r1, r2, r3⟩ := mulAbsRow_spec a b ha hb i _ (by omega) h1 h2 h3
    exact ⟨r1, r2, r3⟩

end BigInt

namespace BigInt

/-- Claim C20. No overflow and no buffer growth in `mulAbs`: for canonical non-zero
`a` and `b`, at every inner iteration `(i, j)` the accumulator
`result[i+j] + a[i]*b[j] + carry` is below `2^64` and every carry is below `10^9`, so
the `uint64_t` arithmetic is exact and every stored limb is below `10^9`; the buffer
of `len(a) + len(b) + 1` limbs never grows: the index `k` of the trailing carry
loop stays below the buffer size and the `push_back` branch is never taken. -/
theorem mulAbs_no_overflow (a b : BigInt) (ha : canonical a) (hb : canonical b)
    (ha0 : a ≠ zero) (hb0 : b ≠ zero) (i j : Nat) (hi : i < a.limbs_.length)
    (hj : j < b.limbs_.length) (buf : List Nat) (st fin : List Nat × Nat)
    (hbuf : buf = mulAbsOuter a.limbs_ b.limbs_ i 0
      (List.replicate (a.limbs_.length + b.limbs_.length + 1) 0))
    (hst : st = mulAbsInner a.limbs_ b.limbs_ i j 0 0 buf)
    (hfin : fin = mulAbsInner a.limbs_ b.limbs_ i b.limbs_.length 0 0 buf) :
    mulAbs a b = normalize ⟨1, mulAbsOuter a.limbs_ b.limbs_ (a.limbs_.length - i) i buf⟩ ∧
    buf.length = a.limbs_.length + b.limbs_.length + 1 ∧
    st.1.length = a.limbs_.length + b.limbs_.length + 1 ∧ i + j < st.1.length ∧
    (∀ x ∈ st.1, x < BASE) ∧ st.2 < BASE ∧
    st.1.getD (i + j) 0 + a.limbs_.getD i 0 * b.limbs_.getD j 0 + st.2 < 2 ^ 64 ∧
    u64 (u64 (st.1.getD (i + j) 0 + u64 (a.limbs_.getD i 0 * b.limbs_.getD j 0)) + st.2) =
      st.1.getD (i + j) 0 + a.limbs_.getD i 0 * b.limbs_.getD j 0 + st.2 ∧
    (st.1.getD (i + j) 0 + a.limbs_.getD i 0 * b.limbs_.getD j 0 + st.2) / BASE < BASE ∧
    (st.1.getD (i + j) 0 + a.limbs_.getD i 0 * b.limbs_.getD j 0 + st.2) % BASE < BASE ∧
    fin.1.length = a.limbs_.length + b.limbs_.length + 1 ∧
    i + b.limbs_.length < fin.1.length ∧ fin.2 < BASE ∧
    fin.1.getD (i + b.limbs_.length) 0 + fin.2 < BASE ∧
    u64 (fin.1.getD (i + b.limbs_.length) 0 + fin.2) / BASE = 0 ∧
    (∀ fuel, mulAbsCarry fuel (i + b.limbs_.length)
        (u64 (fin.1.getD (i + b.limbs_.length) 0 + fin.2) / BASE)
        (fin.1.set (i + b.limbs_.length)
          (u32 (u64 (fin.1.getD (i + b.limbs_.length) 0 + fin.2) % BASE))) =
      (0, fin.1.set (i + b.limbs_.length)
          (u32 (u64 (fin.1.getD (i + b.limbs_.length) 0 + fin.2) % BASE)))) ∧
    (mulAbsOuter a.limbs_ b.limbs_ a.limbs_.length 0
      (List.replicate (a.limbs_.length + b.limbs_.length + 1) 0)).length =
      a.limbs_.length + b.limbs_.length + 1 := by
  have hB : BASE = 1000000000 := rfl
  have hsa : a.sign_ ≠ 0 := fun h => ha0 (eq_zero_of_sign a ha h)
  have hsb : b.sign_ ≠ 0 := fun h => hb0 (eq_zero_of_sign b hb h)
  have hla := ha.2.2.2
  have hlb := hb.2.2.2
  obtain ⟨p1, p2, p3⟩ := mulAbsOuter_upto a.limbs_ b.limbs_ hla hlb i (by omega)
  rw [← hbuf] at p1 p2 p3
  obtain ⟨s1, s2, s3⟩ := mulAbsInner_bounds a.limbs_ b.limbs_ i hla hlb j 0 0 buf (by decide) p2
  rw [← hst] at s1 s2 s3
  obtain ⟨f1, f2, f3⟩ := mulAbsInner_bounds a.limbs_ b.limbs_ i hla hlb b.limbs_.length 0 0 buf
    (by decide) p2
  obtain ⟨w1, _⟩ := mulAbsRow_spec a.limbs_ b.limbs_ hla hlb i buf hi p1 p2 p3
  rw [← hfin] at f1 f2 f3 w1
  have hai := getD_lt_of_forall a.limbs_ hla i
  have hbj := getD_lt_of_forall b.limbs_ hlb j
  have hr := getD_lt_of_forall st.1 s3 (i + j)
  have hprod : a.limbs_.getD i 0 * b.limbs_.getD j 0 ≤ (BASE - 1) * (BASE - 1) :=
    Nat.mul_le_mul (by omega) (by omega)
  have h2 : (BASE - 1) * (BASE - 1) = 999999998000000001 := by decide
  have hp64 : (2 : Nat) ^ 64 = 18446744073709551616 := by decide
  have hfull := (mulAbsOuter_upto a.limbs_ b.limbs_ hla hlb a.limbs_.length le_rfl).1
  refine ⟨?_, p1, by omega, by omega, s3, s2, by omega, ?_, ?_, Nat.mod_lt _ (by decide), by omega,
    by omega, f2, w1, ?_, ?_, hfull⟩
  · unfold mulAbs
    rw [if_neg (by simp [hsa, hsb])]
    have := mulAbsOuter_add a.limbs_ b.limbs_ i (a.limbs_.length - i) 0
      (List.replicate (a.limbs_.length + b.limbs_.length + 1) 0)
    rw [show i + (a.limbs_.length - i) = a.limbs_.length from by omega, Nat.zero_add,
      ← hbuf] at this
    rw [this]
  · rw [u64_of_lt (a.limbs_.getD i 0 * b.limbs_.getD j 0) (by omega),
      u64_of_lt (st.1.getD (i + j) 0 + a.limbs_.getD i 0 * b.limbs_.getD j 0) (by omega),
      u64_of_lt _ (by omega)]
  · apply Nat.div_lt_of_lt_mul
    have : BASE * BASE = 1000000000000000000 := by decide
    omega
  · rw [u64_of_lt _ (by omega)]
    exact Nat.div_eq_of_lt w1
  · intro fuel
    rw [u64_of_lt _ (by omega), Nat.div_eq_of_lt w1]
    cases fuel <;> simp [mulAbsCarry]

theorem mulAbs_no_overflow_witness :
    canonical ⟨1, [999999999, 999999999]⟩ ∧ canonical ⟨-1, [999999999, 999999999]⟩ ∧
    mulAbsOuter [999999999, 999999999] [999999999, 999999999] 1 0 (List.replicate 5 0) =
      [1, 999999999, 999999998, 0, 0] ∧
    mulAbsInner [999999999, 999999999] [999999999, 999999999] 1 1 0 0
      [1, 999999999, 999999998, 0, 0] = ([1, 0, 999999998, 0, 0], 999999999) ∧
    (999999998 : Nat) + 999999999 * 999999999 + 999999999 < 2 ^ 64 ∧
    mulAbsInner [999999999, 999999999] [999999999, 999999999] 1 2 0 0
      [1, 999999999, 999999998, 0, 0] = ([1, 0, 999999998, 0, 0], 999999999) ∧
    (0 : Nat) + 999999999 < BASE :=
  have h := mulAbs_no_overflow ⟨1, [999999999, 999999999]⟩ ⟨-1, [999999999, 999999999]⟩
    (by decide) (by decide) (by decide) (by decide) 1 1 (by decide) (by decide)
    [1, 999999999, 999999998, 0, 0] ([1, 0, 999999998, 0, 0], 999999999)
    ([1, 0, 999999998, 0, 0], 999999999) (by decide) (by decide) (by decide)
  ⟨by decide, by decide, by decide, by decide, h.2.2.2.2.2.2.1, by decide,
    h.2.2.2.2.2.2.2.2.2.2.2.2.2.1⟩

end BigInt

namespace BigInt

/-! ## Decimal text of a number -/

theorem digitChar_toNat (d : Nat) (h : d < 10) : (digitChar d).toNat = 48 + d := by
  interval_cases d <;> rfl

theorem digitChar_isdigit (d : Nat) (h : d < 10) : isdigit (digitChar d) = true := by
  rw [isdigit_iff, digitChar_toNat d h]
  omega

theorem stoul_singleton (c : Char) : stoul [c] = c.toNat - 48 := by
  simp [stoul]

theorem stoul_append_list (s t : List Char) :
    stoul (s ++ t) = stoul s * 10 ^ t.length + stoul t := by
  induction t using List.reverseRecOn with
  | nil => simp [stoul]
  | append_singleton t x ih =>
    rw [← List.append_assoc, stoul_append, ih, stoul_append, List.length_append,
      List.length_singleton, pow_succ]
    ring

/-- Digits of `std::to_string`: for a number of at most `k` digits and any bound on
the digits that is at least `k`, the text consists of decimal digits, is not
empty, has at most `k` characters, reads back as the number, and starts with `'0'`
only for zero. -/
theorem to_string_digits_spec :
    ∀ (k f n : Nat), n < 10 ^ k → 1 ≤ k → k ≤ f →
      (∀ c ∈ to_string_digits f n, isdigit c = true) ∧ to_string_digits f n ≠ [] ∧
      (to_string_digits f n).length ≤ k ∧ stoul (to_string_digits f n) = n ∧
      (∀ c, (to_string_digits f n).head? = some c → c = '0' → n = 0) := by
  intro k
  induction k with
  | zero => intro f n _ h1 _; omega
  | succ k ih =>
    intro f n hn _ hf
    obtain ⟨f1, rfl⟩ : ∃ f1, f = f1 + 1 := ⟨f - 1, by omega⟩
    rw [to_string_digits]
    by_cases h10 : n < 10
    · rw [if_pos h10]
      refine ⟨?_, by simp, by simp, ?_, ?_⟩
      · intro c hc
        rw [List.mem_singleton.mp hc]
        exact digitChar_isdigit n h10
      · rw [stoul_singleton, digitChar_toNat n h10]; omega
      · intro c hc h0
        simp only [List.head?_cons, Option.some.injEq] at hc
        have := digitChar_toNat n h10
        rw [hc, h0] at this
        have h48 : ('0' : Char).toNat = 48 := rfl
        omega
    · rw [if_neg h10]
      have hk : 1 ≤ k := by
        by_contra hk0
        have : k = 0 := by omega
        rw [this] at hn
        simp at hn
        omega
      have hdiv : n / 10 < 10 ^ k := by
        apply Nat.div_lt_of_lt_mul
        rw [pow_succ] at hn
        omega
      obtain ⟨i1, i2, i3, i4, i5⟩ := ih f1 (n / 10) hdiv hk (by omega)
      have hm : n % 10 < 10 := Nat.mod_lt _ (by decide)
      refine ⟨?_, by simp, ?_, ?_, ?_⟩
      · intro c hc
        rcases List.mem_append.mp hc with h | h
        · exact i1 c h
        · rw [List.mem_singleton.mp h]
          exact digitChar_isdigit _ hm
      · rw [List.length_append, List.length_singleton]; omega
      · rw [stoul_append, i4, digitChar_toNat _ hm]; omega
      · intro c hc h0
        rw [List.head?_append_of_ne_nil _ i2] at hc
        have := i5 c hc h0
        omega

theorem stoul_replicate_zero (k : Nat) : stoul (List.replicate k '0') = 0 := by
  induction k with
  | zero => simp [stoul]
  | succ k ih =>
    rw [List.replicate_succ', stoul_append, ih]
    rfl

theorem stoul_dropWhile_zero (s : List Char) :
    stoul (s.dropWhile (fun c => decide (c = '0'))) = stoul s := by
  have hsplit := List.takeWhile_append_dropWhile (fun c => decide (c = '0')) s
  have htw : ∀ c ∈ s.takeWhile (fun c => decide (c = '0')), c = '0' := by
    intro c hc
    simpa using List.mem_takeWhile_imp hc
  have hrep := all_zero_eq_replicate _ htw
  nth_rewrite 2 [← hsplit]
  rw [stoul_append_list, hrep, stoul_replicate_zero]
  simp

theorem to_string_spec (n : Nat) (h : n < BASE) :
    (∀ c ∈ to_string n, isdigit c = true) ∧ to_string n ≠ [] ∧ (to_string n).length ≤ 9 ∧
    stoul (to_string n) = n ∧ (∀ c, (to_string n).head? = some c → c = '0' → n = 0) :=
  to_string_digits_spec 9 10 n (by have : BASE = 10 ^ 9 := by decide
                                   omega) (by decide) (by decide)

theorem padChunk_spec (n : Nat) (h : n < BASE) :
    (∀ c ∈ padChunk n, isdigit c = true) ∧ (padChunk n).length = 9 ∧ stoul (padChunk n) = n := by
  obtain ⟨t1, t2, t3, t4, _⟩ := to_string_spec n h
  unfold padChunk
  refine ⟨?_, ?_, ?_⟩
  · intro c hc
    rcases List.mem_append.mp hc with h1 | h1
    · rw [List.eq_of_mem_replicate h1]; rfl
    · exact t1 c h1
  · rw [List.length_append, List.length_replicate]; omega
  · rw [stoul_append_list, stoul_replicate_zero, t4]; simp

theorem lowText_spec (M : List Nat) (hM : ∀ x ∈ M, x < BASE) :
    (∀ c ∈ lowText M, isdigit c = true) ∧
    ∀ c : List Char, stoul (c ++ lowText M) = limbsValue (M ++ [stoul c]) := by
  induction M with
  | nil =>
    simp [lowText]
  | cons x M ih =>
    obtain ⟨i1, i2⟩ := ih (fun y hy => hM y (List.mem_cons_of_mem _ hy))
    obtain ⟨p1, p2, p3⟩ := padChunk_spec x (hM x (by simp))
    rw [lowText_cons]
    constructor
    · intro c hc
      rcases List.mem_append.mp hc with h | h
      · exact i1 c h
      · exact p1 c h
    · intro c
      rw [← List.append_assoc, stoul_append_list, i2 c, p2, p3, List.cons_append,
        limbsValue_cons]
      have : BASE = 10 ^ 9 := by decide
      rw [this]
      ring

theorem chunkLoop_value (d : List Char) (hd : ∀ c ∈ d, isdigit c = true) (hne : d ≠ []) :
    limbsValue (chunkLoop d d.length d.length []) = stoul d := by
  obtain ⟨M, c, e1, _, _, _, e5, e6, _⟩ := chunkLoop_spec d hd d.length d.length []
    (List.length_pos.mpr hne) le_rfl le_rfl
  rw [List.take_length] at e5
  rw [List.nil_append] at e1
  rw [e1, ← (lowText_spec M e6).2 c, ← e5]

end BigInt

namespace BigInt

theorem fromString_core_value (w1 w2 : List Char) (h : Char) (t : List Char)
    (hw1 : ∀ c ∈ w1, isspace c = true) (hw2 : ∀ c ∈ w2, isspace c = true)
    (hh : isspace h = false) (hl : ∀ c, (h :: t).getLast? = some c → isspace c = false)
    (hne : (if h = '+' ∨ h = '-' then t else h :: t) ≠ [])
    (hd : ∀ c ∈ (if h = '+' ∨ h = '-' then t else h :: t), isdigit c = true) :
    ∃ v, fromString (w1 ++ (h :: t) ++ w2) = .ok v ∧
      value v = (if h = '-' then -1 else 1) *
        (stoul (if h = '+' ∨ h = '-' then t else h :: t) : Int) := by
  rw [fromString_core w1 w2 h t hw1 hw2 hh hl]
  set body := (if h = '+' ∨ h = '-' then t else h :: t) with hbody
  have hall : body.all isdigit = true := (all_isdigit_iff body).mpr hd
  have h1 : ¬ ((h = '+' ∨ h = '-') ∧ t = []) := by
    rintro ⟨hs, ht⟩
    apply hne
    rw [hbody, if_pos hs, ht]
  rw [if_neg h1, if_neg (by simp [hall])]
  have hst := stoul_dropWhile_zero body
  rcases find_first_not_of_zero body with ⟨f1, f2⟩ | ⟨k, f1, f2, f3⟩
  · rw [f1]
    refine ⟨zero, rfl, ?_⟩
    rw [f2] at hst
    rw [← hst, zero_value]
    simp [stoul]
  · rw [f1]
    simp only []
    rw [f2]
    set d1 := body.dropWhile (fun c => decide (c = '0')) with hd1
    have hdd : ∀ c ∈ d1, isdigit c = true := fun c hc => hd c (List.dropWhile_subset _ hc)
    refine ⟨_, rfl, ?_⟩
    rw [normalize_value, value_mk, chunkLoop_value d1 hdd f3, hst]

/-- Parsing of whitespace, an optional sign, digits and whitespace: the value is the
number the digits spell, negated under a `'-'`. -/
theorem fromString_signed (w1 sg ds w2 : List Char)
    (hw1 : ∀ c ∈ w1, isspace c = true) (hsg : sg = [] ∨ sg = ['+'] ∨ sg = ['-'])
    (hds : ∀ c ∈ ds, isdigit c = true) (hne : ds ≠ []) (hw2 : ∀ c ∈ w2, isspace c = true) :
    ∃ v, fromString (w1 ++ sg ++ ds ++ w2) = .ok v ∧ canonical v ∧
      toString v = canonicalText sg ds ∧
      value v = (if sg = ['-'] then -1 else 1) * (stoul ds : Int) := by
  have hlast : ∀ c, ds.getLast? = some c → isspace c = false := fun c hc =>
    isdigit_not_space c (hds c (getLast?_mem ds c hc))
  rcases hsg with rfl | rfl | rfl
  · cases ds with
    | nil => exact absurd rfl hne
    | cons x xs =>
      have hx := hds x (by simp)
      have hns := isdigit_not_sign x hx
      have hxm : ¬ x = '-' := fun h => hns (Or.inr h)
      obtain ⟨v, h1, h2, h3⟩ := fromString_core_ok w1 w2 x xs hw1 hw2 (isdigit_not_space x hx)
        hlast (by rw [if_neg hns]; simp) (by rw [if_neg hns]; exact hds)
      obtain ⟨v1, g1, g2⟩ := fromString_core_value w1 w2 x xs hw1 hw2 (isdigit_not_space x hx)
        hlast (by rw [if_neg hns]; simp) (by rw [if_neg hns]; exact hds)
      rw [h1, Except.ok.injEq] at g1
      rw [if_neg hns, if_neg hxm] at h3 g2
      refine ⟨v, by simpa using h1, h2, h3, ?_⟩
      rw [g1, g2]
      simp
  · obtain ⟨v, h1, h2, h3⟩ := fromString_core_ok w1 w2 '+' ds hw1 hw2 (by decide)
      (by rw [getLast?_of_cons_append _ _ hne]; exact hlast)
      (by rw [if_pos (Or.inl rfl)]; exact hne) (by rw [if_pos (Or.inl rfl)]; exact hds)
    obtain ⟨v1, g1, g2⟩ := fromString_core_value w1 w2 '+' ds hw1 hw2 (by decide)
      (by rw [getLast?_of_cons_append _ _ hne]; exact hlast)
      (by rw [if_pos (Or.inl rfl)]; exact hne) (by rw [if_pos (Or.inl rfl)]; exact hds)
    rw [h1, Except.ok.injEq] at g1
    rw [if_pos (Or.inl rfl), if_neg (by decide)] at h3 g2
    refine ⟨v, by simpa using h1, h2, ?_, ?_⟩
    · rw [h3]
      simp [canonicalText]
    · rw [g1, g2]
      simp
  · obtain ⟨v, h1, h2, h3⟩ := fromString_core_ok w1 w2 '-' ds hw1 hw2 (by decide)
      (by rw [getLast?_of_cons_append _ _ hne]; exact hlast)
      (by rw [if_pos (Or.inr rfl)]; exact hne) (by rw [if_pos (Or.inr rfl)]; exact hds)
    obtain ⟨v1, g1, g2⟩ := fromString_core_value w1 w2 '-' ds hw1 hw2 (by decide)
      (by rw [getLast?_of_cons_append _ _ hne]; exact hlast)
      (by rw [if_pos (Or.inr rfl)]; exact hne) (by rw [if_pos (Or.inr rfl)]; exact hds)
    rw [h1, Except.ok.injEq] at g1
    rw [if_pos (Or.inr rfl), if_pos rfl] at h3 g2
    refine ⟨v, by simpa using h1, h2, h3, ?_⟩
    rw [g1, g2]
    simp

/-- Text of a canonical non-zero number: sign, top limb unpadded, lower limbs padded. -/
theorem toString_canonical (v : BigInt) (hv : canonical v) (h0 : v.sign_ ≠ 0) :
    ∃ (M : List Nat) (top : Nat), v.limbs_ = M ++ [top] ∧ top ≠ 0 ∧ top < BASE ∧
      (∀ x ∈ M, x < BASE) ∧
      toString v = (if v.sign_ < 0 then ['-'] else []) ++ (to_string top ++ lowText M) := by
  obtain ⟨s, l⟩ := v
  have hne : l ≠ [] := fun h => h0 (hv.2.1.mpr h)
  obtain ⟨M, top, rfl⟩ : ∃ M top, l = M ++ [top] :=
    ⟨l.dropLast, l.getLast hne, (List.dropLast_append_getLast hne).symm⟩
  have htop0 : top ≠ 0 := by
    have := hv.2.2.1
    simp only [List.getLast?_concat] at this
    intro h
    exact this (by rw [h])
  have hlt : ∀ x ∈ M ++ [top], x < BASE := hv.2.2.2
  refine ⟨M, top, rfl, htop0, hlt top (by simp), fun x hx => hlt x (by simp [hx]), ?_⟩
  have h0s : s ≠ 0 := h0
  unfold toString
  simp only [h0s, if_false]
  have hif : (if M ++ [top] = [] then 0 else top) = top := if_neg (by simp)
  rw [toStringLoop_full, List.getLastD_concat, hif, List.append_assoc]

end BigInt

namespace BigInt

/-- Digits that `toString` writes for a canonical non-zero number, and what
`fromString` makes of the text. -/
theorem toString_fromString (v : BigInt) (hv : canonical v) (h0 : v.sign_ ≠ 0) :
    ∃ (M : List Nat) (top : Nat), v.limbs_ = M ++ [top] ∧
      toString v = (if v.sign_ < 0 then ['-'] else []) ++ (to_string top ++ lowText M) ∧
      (∀ c ∈ to_string top ++ lowText M, isdigit c = true) ∧
      to_string top ≠ [] ∧ (to_string top).length ≤ 9 ∧
      (∀ c, (to_string top ++ lowText M).head? = some c → c ≠ '0') ∧
      (lowText M).length = 9 * M.length ∧
      fromString (toString v) = .ok v := by
  obtain ⟨M, top, e1, e2, e3, e4, e5⟩ := toString_canonical v hv h0
  obtain ⟨t1, t2, t3, t4, t5⟩ := to_string_spec top e3
  obtain ⟨l1, l2⟩ := lowText_spec M e4
  have hdig : ∀ c ∈ to_string top ++ lowText M, isdigit c = true := by
    intro c hc
    rcases List.mem_append.mp hc with h | h
    · exact t1 c h
    · exact l1 c h
  have hhead : ∀ c, (to_string top ++ lowText M).head? = some c → c ≠ '0' := by
    intro c hc hc0
    rw [List.head?_append_of_ne_nil _ t2] at hc
    exact e2 (t5 c hc hc0)
  have hlow : (lowText M).length = 9 * M.length := by
    clear e1 e5 l1 l2 hdig hhead
    induction M with
    | nil => simp [lowText]
    | cons x M ih =>
      rw [lowText_cons, List.length_append, ih (fun y hy => e4 y (List.mem_cons_of_mem _ hy)),
        (padChunk_spec x (e4 x (by simp))).2.1, List.length_cons]
      ring
  refine ⟨M, top, e1, e5, hdig, t2, t3, hhead, hlow, ?_⟩
  have hsg : (if v.sign_ < 0 then ['-'] else ([] : List Char)) = [] ∨
      (if v.sign_ < 0 then ['-'] else ([] : List Char)) = ['+'] ∨
      (if v.sign_ < 0 then ['-'] else ([] : List Char)) = ['-'] := by
    by_cases hs : v.sign_ < 0
    · right; right; rw [if_pos hs]
    · left; rw [if_neg hs]
  obtain ⟨w, f1, f2, _, f4⟩ := fromString_signed [] (if v.sign_ < 0 then ['-'] else [])
    (to_string top ++ lowText M) [] (by simp) hsg hdig (by simp [t2]) (by simp)
  simp only [List.nil_append, List.append_nil] at f1
  rw [e5, f1]
  congr 1
  apply canonical_ext w v f2 hv
  rw [f4, l2, t4, ← e1]
  unfold value
  rcases canonical_sign_cases v hv h0 with hs | hs
  · rw [hs]; simp
  · rw [hs]; simp

/-- Claim C14. Round trip value -> text -> value: for every canonical `v`,
`fromString (toString v)` succeeds and is `v`; the text of a non-zero `v` is its
sign, the top limb unpadded and every lower limb padded to exactly nine digits; it
has no leading zero, and is `"0"` only for zero. -/
theorem value_roundtrip (v : BigInt) (hv : canonical v) :
    fromString (toString v) = .ok v ∧
    (toString v = ['0'] ↔ v = zero) ∧
    (∃ ds, toString v = (if v.sign_ < 0 then ['-'] else []) ++ ds ∧ ds ≠ [] ∧
      (∀ c ∈ ds, isdigit c = true) ∧ (ds.head? = some '0' → v = zero)) ∧
    (v ≠ zero → ∃ (M : List Nat) (top : Nat), v.limbs_ = M ++ [top] ∧
      toString v = (if v.sign_ < 0 then ['-'] else []) ++ (to_string top ++ lowText M) ∧
      to_string top ≠ [] ∧ (to_string top).length ≤ 9 ∧ (lowText M).length = 9 * M.length) := by
  by_cases h0 : v.sign_ = 0
  · have hz := eq_zero_of_sign v hv h0
    subst hz
    refine ⟨rfl, ⟨fun _ => rfl, fun _ => rfl⟩, ⟨['0'], rfl, by simp, by decide, fun _ => rfl⟩,
      fun h => absurd rfl h⟩
  · have hnz : v ≠ zero := by
      intro h
      rw [h] at h0
      exact h0 rfl
    obtain ⟨M, top, e1, e2, e3, e4, e5, e6, e7, e8⟩ := toString_fromString v hv h0
    refine ⟨e8, ⟨?_, fun h => absurd h hnz⟩, ⟨to_string top ++ lowText M, e2, by simp [e4], e3, ?_⟩,
      fun _ => ⟨M, top, e1, e2, e4, e5, e7⟩⟩
    · intro h
      exfalso
      rw [e2] at h
      by_cases hs : v.sign_ < 0
      · rw [if_pos hs] at h
        simp only [List.singleton_append, List.cons.injEq] at h
        exact absurd h.1 (by decide)
      · rw [if_neg hs, List.nil_append] at h
        exact e6 '0' (by rw [h]; rfl) rfl
    · intro h
      exact absurd rfl (e6 '0' h)

theorem value_roundtrip_witness :
    canonical ⟨-1, [5, 0, 70]⟩ ∧
    fromString (toString ⟨-1, [5, 0, 70]⟩) = .ok ⟨-1, [5, 0, 70]⟩ ∧
    toString ⟨-1, [5, 0, 70]⟩ = "-70000000000000000005".toList :=
  ⟨by decide, (value_roundtrip ⟨-1, [5, 0, 70]⟩ (by decide)).1, by decide⟩

end BigInt

namespace BigInt

/-! ## Comparison with 64-bit arithmetic -/

theorem wrapInt64_of_isInt64 (z : Int) (h : isInt64 z) : wrapInt64 z = z := by
  unfold wrapInt64
  unfold isInt64 at h
  rw [Int.emod_eq_of_lt (by omega) (by omega)]
  omega

/-- Text of `std::to_string` parses to a canonical number of that value, which
renders back to that text. -/
theorem decimal_parse (z : Int) (hz : z.natAbs < 10 ^ 20) :
    ∃ v, fromString (decimal z) = .ok v ∧ canonical v ∧ value v = z ∧
      toString v = decimal z := by
  obtain ⟨t1, t2, _, t4, t5⟩ := to_string_digits_spec 20 20 z.natAbs hz (by decide) le_rfl
  have hsg : (if z < 0 then ['-'] else ([] : List Char)) = [] ∨
      (if z < 0 then ['-'] else ([] : List Char)) = ['+'] ∨
      (if z < 0 then ['-'] else ([] : List Char)) = ['-'] := by
    by_cases hs : z < 0
    · right; right; rw [if_pos hs]
    · left; rw [if_neg hs]
  have hdec : decimal z = (if z < 0 then ['-'] else []) ++ to_string_digits 20 z.natAbs := by
    unfold decimal
    by_cases hs : z < 0
    · rw [if_pos hs, if_pos hs]; rfl
    · rw [if_neg hs, if_neg hs]; rfl
  obtain ⟨v, f1, f2, f3, f4⟩ := fromString_signed [] (if z < 0 then ['-'] else [])
    (to_string_digits 20 z.natAbs) [] (by simp) hsg t1 t2 (by simp)
  simp only [List.nil_append, List.append_nil] at f1
  rw [← hdec] at f1
  refine ⟨v, f1, f2, ?_, ?_⟩
  · rw [f4, t4]
    by_cases hs : z < 0
    · rw [if_pos hs, if_pos rfl]
      omega
    · rw [if_neg hs, if_neg (by simp)]
      omega
  · rw [f3, hdec]
    unfold canonicalText
    by_cases h0 : z = 0
    · subst h0
      decide
    · have hhead : ∀ c, (to_string_digits 20 z.natAbs).head? = some c → c ≠ '0' := by
        intro c hc hc0
        have := t5 c hc hc0
        omega
      have hdw : (to_string_digits 20 z.natAbs).dropWhile (fun c => decide (c = '0')) =
          to_string_digits 20 z.natAbs := by
        cases hl : to_string_digits 20 z.natAbs with
        | nil => rfl
        | cons x xs =>
          have := hhead x (by rw [hl]; rfl)
          simp [List.dropWhile, this]
      rw [hdw, if_neg t2]
      by_cases hs : z < 0
      · rw [if_pos hs, if_pos rfl]
      · rw [if_neg hs, if_neg (by simp)]

theorem toString_decimal (r : BigInt) (hr : canonical r) (hz : (value r).natAbs < 10 ^ 20) :
    toString r = decimal (value r) := by
  obtain ⟨v, _, f2, f3, f4⟩ := decimal_parse (value r) hz
  have he := canonical_ext v r f2 hr f3
  rw [← he, f4, he]

theorem isInt64_natAbs (z : Int) (h : isInt64 z) : z.natAbs < 10 ^ 20 := by
  unfold isInt64 at h
  have : (10 : Nat) ^ 20 = 100000000000000000000 := by decide
  omega

end BigInt

namespace BigInt

/-- Claim C18, as stated, fails: with `x = y = 2^62` the sum rendered by `BigInt` is
`"9223372036854775808"`, while 64-bit arithmetic wraps to `-9223372036854775808`;
the rendered text is the `std::to_string` of no `int64_t` at all. -/
theorem cross_check_overflow_counterexample :
    isInt64 4611686018427387904 ∧
    fromString (decimal 4611686018427387904) = .ok ⟨1, [427387904, 611686018, 4]⟩ ∧
    toString (add ⟨1, [427387904, 611686018, 4]⟩ ⟨1, [427387904, 611686018, 4]⟩) =
      "9223372036854775808".toList ∧
    decimal (wrapInt64 (4611686018427387904 + 4611686018427387904)) =
      "-9223372036854775808".toList ∧
    toString (add ⟨1, [427387904, 611686018, 4]⟩ ⟨1, [427387904, 611686018, 4]⟩) ≠
      decimal (wrapInt64 (4611686018427387904 + 4611686018427387904)) ∧
    ∀ z, isInt64 z →
      toString (add ⟨1, [427387904, 611686018, 4]⟩ ⟨1, [427387904, 611686018, 4]⟩) ≠
        decimal z := by
  refine ⟨by decide, rfl, by decide, by decide, by decide, ?_⟩
  intro z hz h
  have ht : toString (add ⟨1, [427387904, 611686018, 4]⟩ ⟨1, [427387904, 611686018, 4]⟩) =
      "9223372036854775808".toList := by decide
  rw [ht] at h
  have hn := isInt64_natAbs z hz
  obtain ⟨_, _, _, t4, _⟩ := to_string_digits_spec 20 20 z.natAbs hn (by decide) le_rfl
  unfold decimal at h
  by_cases hs : z < 0
  · rw [if_pos hs] at h
    have h1 := congrArg List.head? h
    simp only [List.head?_cons, Option.some.injEq] at h1
    exact absurd h1 (by decide)
  · rw [if_neg hs] at h
    rw [← h] at t4
    have h9 : stoul "9223372036854775808".toList = 9223372036854775808 := by decide
    rw [h9] at t4
    unfold isInt64 at hz
    omega

theorem tdiv_isInt64_iff (x y : Int) (hx : isInt64 x) (hy : isInt64 y) (hy0 : y ≠ 0) :
    isInt64 (Int.tdiv x y) ↔ ¬ (x = -9223372036854775808 ∧ y = -1) := by
  constructor
  · rintro h ⟨rfl, rfl⟩
    revert h
    decide
  · intro hne
    have hq : (Int.tdiv x y).natAbs = x.natAbs / y.natAbs := Int.natAbs_tdiv x y
    unfold isInt64 at hx hy ⊢
    by_cases h2 : 2 ≤ y.natAbs
    · have hle : x.natAbs / y.natAbs ≤ x.natAbs / 2 :=
        Nat.div_le_div_left h2 (by decide)
      omega
    · have h1 : y = 1 ∨ y = -1 := by omega
      rcases h1 with rfl | rfl
      · rw [Int.tdiv_one]
        omega
      · rw [show (-1 : Int) = -(1 : Int) from rfl, Int.tdiv_neg, Int.tdiv_one]
        have : x ≠ -9223372036854775808 := fun h => hne ⟨h, rfl⟩
        omega

/-- Claim C18, amended. For signed 64-bit `x` and `y`, the texts `std::to_string`
gives them parse to numbers of values `x` and `y`, and for each operator whose
64-bit result is defined and exact the rendering of the `BigInt` result is the
`std::to_string` of the 64-bit result: for `+`, `-`, `*` when the exact result fits
in 64 bits, for `%` when `y` is not zero and the quotient fits in 64 bits, which
excludes exactly the pair `x = -2^63`, `y = -1`. -/
theorem cross_check_no_overflow (x y : Int) (hx : isInt64 x) (hy : isInt64 y) :
    ∃ a b, fromString (decimal x) = .ok a ∧ fromString (decimal y) = .ok b ∧
      value a = x ∧ value b = y ∧
      (isInt64 (x + y) → toString (add a b) = decimal (wrapInt64 (x + y))) ∧
      (isInt64 (x - y) → toString (sub a b) = decimal (wrapInt64 (x - y))) ∧
      (isInt64 (x * y) → toString (mul a b) = decimal (wrapInt64 (x * y))) ∧
      (y ≠ 0 → isInt64 (Int.tdiv x y) → isInt64 (Int.tmod x y) ∧
        ∃ r, mod a b = .ok r ∧ toString r = decimal (wrapInt64 (Int.tmod x y)) ∧
          toString r = decimal (Int.tmod x y)) ∧
      (y ≠ 0 → (isInt64 (Int.tdiv x y) ↔ ¬ (x = -9223372036854775808 ∧ y = -1))) := by
  obtain ⟨a, a1, a2, a3, _⟩ := decimal_parse x (isInt64_natAbs x hx)
  obtain ⟨b, b1, b2, b3, _⟩ := decimal_parse y (isInt64_natAbs y hy)
  refine ⟨a, b, a1, b1, a3, b3, ?_, ?_, ?_, ?_, tdiv_isInt64_iff x y hx hy⟩
  · intro h
    have hv := add_value a b a2 b2
    rw [a3, b3] at hv
    rw [wrapInt64_of_isInt64 _ h, ← hv]
    exact toString_decimal _ (add_canonical a b a2 b2) (by rw [hv]; exact isInt64_natAbs _ h)
  · intro h
    have hv := sub_value a b a2 b2
    rw [a3, b3] at hv
    rw [wrapInt64_of_isInt64 _ h, ← hv]
    exact toString_decimal _ (sub_canonical a b a2 b2) (by rw [hv]; exact isInt64_natAbs _ h)
  · intro h
    have hv := mul_value a b a2 b2
    rw [a3, b3] at hv
    rw [wrapInt64_of_isInt64 _ h, ← hv]
    exact toString_decimal _ (mul_canonical a b a2 b2) (by rw [hv]; exact isInt64_natAbs _ h)
  · intro hy0 _
    have hbs : b.sign_ ≠ 0 := by
      intro h
      have := (value_eq_zero_iff b b2).mpr h
      rw [b3] at this
      exact hy0 this
    obtain ⟨r, r1, r2, _, r4⟩ := mod_spec a b a2 b2 hbs
    have htm : value r = Int.tmod x y := by
      rw [r4, ← a3, ← b3]
      exact (tmod_sign_mul a.sign_ b.sign_ _ _ a2.1 (canonical_sign_cases b b2 hbs)).symm
    have hrange : isInt64 (Int.tmod x y) := by
      have h1 : (Int.tmod x y).natAbs ≤ x.natAbs := by
        rw [← htm, r4, Int.natAbs_mul, Int.natAbs_ofNat, ← a3, value_natAbs a a2]
        have hmod := Nat.mod_le (limbsValue a.limbs_) (limbsValue b.limbs_)
        rcases a2.1 with h | h | h <;> rw [h] <;> simp <;> omega
      have h2 : (Int.tmod x y).natAbs < (y.natAbs) := by
        rw [← htm, r4, Int.natAbs_mul, Int.natAbs_ofNat, ← b3, value_natAbs b b2]
        have hbne : b.limbs_ ≠ [] := fun h0 => hbs (b2.2.1.mpr h0)
        have hmod := Nat.mod_lt (limbsValue a.limbs_) (limbsValue_pos b.limbs_ b2.2.2.1 hbne)
        rcases a2.1 with h | h | h <;> rw [h] <;> simp <;> omega
      unfold isInt64 at hx hy ⊢
      omega
    have hstr : toString r = decimal (Int.tmod x y) := by
      rw [← htm]
      exact toString_decimal r r2 (by rw [htm]; exact isInt64_natAbs _ hrange)
    refine ⟨hrange, r, r1, ?_, hstr⟩
    rw [wrapInt64_of_isInt64 _ hrange]
    exact hstr

theorem cross_check_no_overflow_witness :
    isInt64 (-9223372036854775808) ∧ isInt64 3 ∧
    (∃ a b, fromString (decimal (-9223372036854775808)) = .ok a ∧
      fromString (decimal 3) = .ok b ∧
      value a = -9223372036854775808 ∧ value b = 3 ∧
      (isInt64 (-9223372036854775808 + 3) →
        toString (add a b) = decimal (wrapInt64 (-9223372036854775808 + 3))) ∧
      (isInt64 (-9223372036854775808 - 3) →
        toString (sub a b) = decimal (wrapInt64 (-9223372036854775808 - 3))) ∧
      (isInt64 (-9223372036854775808 * 3) →
        toString (mul a b) = decimal (wrapInt64 (-9223372036854775808 * 3))) ∧
      ((3 : Int) ≠ 0 → isInt64 (Int.tdiv (-9223372036854775808) 3) →
        isInt64 (Int.tmod (-9223372036854775808) 3) ∧
        ∃ r, mod a b = .ok r ∧
          toString r = decimal (wrapInt64 (Int.tmod (-9223372036854775808) 3)) ∧
          toString r = decimal (Int.tmod (-9223372036854775808) 3)) ∧
      ((3 : Int) ≠ 0 → (isInt64 (Int.tdiv (-9223372036854775808) 3) ↔
        ¬ ((-9223372036854775808 : Int) = -9223372036854775808 ∧ (3 : Int) = -1)))) ∧
    isInt64 (Int.tdiv (-9223372036854775808) 3) ∧
    Int.tmod (-9223372036854775808) 3 = -2 ∧
    ¬ isInt64 (Int.tdiv (-9223372036854775808) (-1)) :=
  ⟨by decide, by decide,
    cross_check_no_overflow (-9223372036854775808) 3 (by decide) (by decide),
    by decide, by decide, by decide⟩

end BigInt

/-! ## The lexer read on the unread text -/

theorem drop_takeWhile_length (p : Char → Bool) (l : List Char) :
    l.drop (l.takeWhile p).length = l.dropWhile p := by
  induction l with
  | nil => rfl
  | cons a l ih =>
    by_cases h : p a = true
    · rw [List.takeWhile_cons_of_pos h, List.dropWhile_cons_of_pos h, List.length_cons,
        List.drop_succ_cons, ih]
    · rw [List.takeWhile_cons_of_neg h, List.dropWhile_cons_of_neg h]
      rfl

theorem take_takeWhile_length (p : Char → Bool) (l : List Char) :
    l.take (l.takeWhile p).length = l.takeWhile p := by
  induction l with
  | nil => rfl
  | cons a l ih =>
    by_cases h : p a = true
    · rw [List.takeWhile_cons_of_pos h, List.length_cons, List.take_succ_cons, ih]
    · rw [List.takeWhile_cons_of_neg h]
      rfl

theorem takeWhile_length_le (p : Char → Bool) (l : List Char) :
    (l.takeWhile p).length ≤ l.length := by
  have h := congrArg List.length (List.takeWhile_append_dropWhile p l)
  rw [List.length_append] at h
  omega

theorem Lexer.skipSpacesLoop_eq (input : List Char) :
    ∀ (fuel pos : Nat), pos ≤ input.length → input.length ≤ pos + fuel →
      Lexer.skipSpacesLoop input fuel pos =
        pos + ((input.drop pos).takeWhile BigInt.isspace).length := by
  intro fuel
  induction fuel with
  | zero =>
    intro pos h1 h2
    have : input.drop pos = [] := List.drop_eq_nil_of_le (by omega)
    simp [Lexer.skipSpacesLoop, this]
  | succ fuel ih =>
    intro pos h1 h2
    rw [Lexer.skipSpacesLoop]
    by_cases hlt : pos < input.length
    · rw [List.drop_eq_getElem_cons hlt, List.getD_eq_getElem _ _ hlt]
      by_cases hsp : BigInt.isspace input[pos] = true
      · rw [if_pos ⟨hlt, hsp⟩, ih (pos + 1) (by omega) (by omega), List.takeWhile_cons_of_pos hsp,
          List.length_cons]
        omega
      · rw [if_neg (fun h => hsp h.2), List.takeWhile_cons_of_neg hsp]
        rfl
    · have : input.drop pos = [] := List.drop_eq_nil_of_le (by omega)
      rw [if_neg (fun h => hlt h.1), this]
      rfl

theorem Lexer.digitsLoop_eq (input : List Char) :
    ∀ (fuel pos : Nat), pos ≤ input.length → input.length ≤ pos + fuel →
      Lexer.digitsLoop input fuel pos =
        pos + ((input.drop pos).takeWhile BigInt.isdigit).length := by
  intro fuel
  induction fuel with
  | zero =>
    intro pos h1 h2
    have : input.drop pos = [] := List.drop_eq_nil_of_le (by omega)
    simp [Lexer.digitsLoop, this]
  | succ fuel ih =>
    intro pos h1 h2
    rw [Lexer.digitsLoop]
    by_cases hlt : pos < input.length
    · rw [List.drop_eq_getElem_cons hlt, List.getD_eq_getElem _ _ hlt]
      by_cases hsp : BigInt.isdigit input[pos] = true
      · rw [if_pos ⟨hlt, hsp⟩, ih (pos + 1) (by omega) (by omega), List.takeWhile_cons_of_pos hsp,
          List.length_cons]
        omega
      · rw [if_neg (fun h => hsp h.2), List.takeWhile_cons_of_neg hsp]
        rfl
    · have : input.drop pos = [] := List.drop_eq_nil_of_le (by omega)
      rw [if_neg (fun h => hlt h.1), this]
      rfl

/-- The method `next` at position `pos` is the reading `scan` of the text from `pos`
on, with the position of the token and of the lexer counted from `pos`. -/
theorem Lexer.next_scan (input : List Char) (pos : Nat) (hpos : pos ≤ input.length) :
    Lexer.next ⟨input, pos⟩ =
      (⟨(scan (input.drop pos)).1.type, (scan (input.drop pos)).1.lexeme,
          pos + (scan (input.drop pos)).1.position, (scan (input.drop pos)).1.op,
          (scan (input.drop pos)).1.error⟩,
        ⟨input, pos + (scan (input.drop pos)).2⟩) := by
  have hskip := Lexer.skipSpacesLoop_eq input input.length pos hpos (by omega)
  have hdrop : input.drop (pos + ((input.drop pos).takeWhile BigInt.isspace).length) =
      (input.drop pos).dropWhile BigInt.isspace := by
    rw [← List.drop_drop, drop_takeWhile_length]
  have hle := takeWhile_length_le BigInt.isspace (input.drop pos)
  rw [List.length_drop] at hle
  unfold Lexer.next Lexer.skipSpaces scan
  simp only [hskip]
  set start := pos + ((input.drop pos).takeWhile BigInt.isspace).length with hstart
  cases hr : (input.drop pos).dropWhile BigInt.isspace with
  | nil =>
    rw [hr] at hdrop
    have hge : input.length ≤ start := by
      by_contra hcon
      have hlen := congrArg List.length hdrop
      rw [List.length_drop, List.length_nil] at hlen
      omega
    rw [if_pos hge]
  | cons c t =>
    rw [hr] at hdrop
    have hlt : start < input.length := by
      have hlen := congrArg List.length hdrop
      rw [List.length_drop, List.length_cons] at hlen
      omega
    have hcons := List.drop_eq_getElem_cons hlt
    rw [hdrop, List.cons.injEq] at hcons
    obtain ⟨hc, ht⟩ := hcons
    have hg : input.getD start BigInt.nul = c := by
      rw [List.getD_eq_getElem _ _ hlt, hc]
    have hnext : (start + 1 < input.length ∧
        BigInt.isdigit (input.getD (start + 1) BigInt.nul) = true) ↔
        ∃ d, t.head? = some d ∧ BigInt.isdigit d = true := by
      constructor
      · rintro ⟨h1, h2⟩
        rw [List.getD_eq_getElem _ _ h1] at h2
        refine ⟨input[start + 1], ?_, h2⟩
        rw [ht, List.drop_eq_getElem_cons h1]
        rfl
      · rintro ⟨d, h1, h2⟩
        have h3 : start + 1 < input.length := by
          by_contra hcon
          have := List.drop_eq_nil_of_le (show input.length ≤ start + 1 by omega)
          rw [← ht] at this
          rw [this] at h1
          exact absurd h1 (by simp)
        refine ⟨h3, ?_⟩
        rw [ht, List.drop_eq_getElem_cons h3] at h1
        simp only [List.head?_cons, Option.some.injEq] at h1
        rw [List.getD_eq_getElem _ _ h3, h1]
        exact h2
    have hsub1 : BigInt.substr input start 1 = [c] := by
      unfold BigInt.substr
      rw [hdrop]
      rfl
    rw [if_neg (by omega)]
    simp only [hg, hnext, hsub1]
    by_cases hint : BigInt.isdigit c = true ∨
        ((c = '+' ∨ c = '-') ∧ ∃ d, t.head? = some d ∧ BigInt.isdigit d = true)
    · rw [if_pos hint, if_pos hint]
      have hdl := Lexer.digitsLoop_eq input input.length (start + 1) (by omega) (by omega)
      rw [← ht] at hdl
      rw [hdl]
      have hsub : BigInt.substr input start
          (start + 1 + (t.takeWhile BigInt.isdigit).length - start) =
          c :: t.takeWhile BigInt.isdigit := by
        unfold BigInt.substr
        rw [hdrop, show start + 1 + (t.takeWhile BigInt.isdigit).length - start =
          (t.takeWhile BigInt.isdigit).length + 1 from by omega, List.take_succ_cons,
          take_takeWhile_length]
      rw [hsub]
      simp only [hstart, Nat.add_assoc]
    · rw [if_neg hint, if_neg hint]
      by_cases hop : c = '+' ∨ c = '-' ∨ c = '*' ∨ c = '%'
      · rw [if_pos hop, if_pos hop]
        simp only [hstart, Nat.add_assoc]
      · rw [if_neg hop, if_neg hop]
        simp only [hstart, Nat.add_assoc]

/-! ## What `scan` reads -/

theorem takeWhile_dropWhile_append (p : Char → Bool) (ws tl : List Char)
    (hws : ∀ c ∈ ws, p c = true) (htl : ∀ c, tl.head? = some c → p c = false) :
    (ws ++ tl).takeWhile p = ws ∧ (ws ++ tl).dropWhile p = tl := by
  induction ws with
  | nil =>
    cases tl with
    | nil => exact ⟨rfl, rfl⟩
    | cons a t =>
      have h : ¬ p a = true := by rw [htl a rfl]; simp
      exact ⟨List.takeWhile_cons_of_neg h, List.dropWhile_cons_of_neg h⟩
  | cons a ws ih =>
    have ha : p a = true := hws a (List.mem_cons_self _ _)
    have := ih (fun c hc => hws c (List.mem_cons_of_mem _ hc))
    rw [List.cons_append, List.takeWhile_cons_of_pos ha, List.dropWhile_cons_of_pos ha,
      this.1, this.2]
    exact ⟨rfl, rfl⟩

theorem integerLexeme_cons (l : List Char) (h : integerLexeme l) :
    ∃ c t, l = c :: t ∧ BigInt.isspace c = false ∧ (∀ x ∈ t, BigInt.isdigit x = true) ∧
      (BigInt.isdigit c = true ∨
        ((c = '+' ∨ c = '-') ∧ ∃ d, t.head? = some d ∧ BigInt.isdigit d = true)) := by
  obtain ⟨hne, hd⟩ := h
  cases l with
  | nil => exact absurd rfl hne
  | cons c t =>
    rw [BigInt.afterSign_cons] at hne hd
    refine ⟨c, t, rfl, ?_⟩
    by_cases hs : c = '+' ∨ c = '-'
    · rw [if_pos hs] at hne hd
      refine ⟨?_, hd, Or.inr ⟨hs, ?_⟩⟩
      · rcases hs with rfl | rfl <;> decide
      · cases t with
        | nil => exact absurd rfl hne
        | cons d t2 => exact ⟨d, rfl, hd d (List.mem_cons_self _ _)⟩
    · rw [if_neg hs] at hne hd
      have hc := hd c (List.mem_cons_self _ _)
      exact ⟨BigInt.isdigit_not_space c hc, fun x hx => hd x (List.mem_cons_of_mem _ hx),
        Or.inl hc⟩

/-- An integer lexeme after whitespace, not followed by a digit, is read as one
Integer token. -/
theorem scan_integer (ws l rest : List Char) (hws : ∀ c ∈ ws, BigInt.isspace c = true)
    (hl : integerLexeme l) (hrest : ∀ d, rest.head? = some d → BigInt.isdigit d = false) :
    scan (ws ++ (l ++ rest)) =
      (⟨TokenType.Integer, l, ws.length, BigInt.nul, []⟩, ws.length + l.length) := by
  obtain ⟨c, t, rfl, hc, ht, hint⟩ := integerLexeme_cons l hl
  have h1 := takeWhile_dropWhile_append BigInt.isspace ws (c :: t ++ rest) hws
    (by intro x hx; simp only [List.cons_append, List.head?_cons, Option.some.injEq] at hx
        rw [← hx]; exact hc)
  have h2 := takeWhile_dropWhile_append BigInt.isdigit t rest ht hrest
  have hint2 : BigInt.isdigit c = true ∨
      ((c = '+' ∨ c = '-') ∧ ∃ d, (t ++ rest).head? = some d ∧ BigInt.isdigit d = true) := by
    rcases hint with h | ⟨h, d, hd1, hd2⟩
    · exact Or.inl h
    · refine Or.inr ⟨h, d, ?_, hd2⟩
      cases t with
      | nil => simp at hd1
      | cons a t2 => simpa using hd1
  unfold scan
  rw [h1.1, h1.2]
  simp only [List.cons_append]
  rw [if_pos hint2, h2.1, List.length_cons]
  simp only [Nat.add_assoc, Nat.add_comm 1]

/-- An operator symbol after whitespace is read as an Operator token, unless it is
`+` or `-` and a digit follows it at once. -/
theorem scan_operator (ws : List Char) (o : Char) (rest : List Char)
    (hws : ∀ c ∈ ws, BigInt.isspace c = true) (ho : isOperator o)
    (hrest : ¬ ((o = '+' ∨ o = '-') ∧ ∃ d, rest.head? = some d ∧ BigInt.isdigit d = true)) :
    scan (ws ++ o :: rest) = (⟨TokenType.Operator, [o], ws.length, o, []⟩, ws.length + 1) := by
  have hsp : BigInt.isspace o = false := by
    rcases ho with rfl | rfl | rfl | rfl <;> decide
  have hdg : ¬ BigInt.isdigit o = true := by
    rcases ho with rfl | rfl | rfl | rfl <;> decide
  have h1 := takeWhile_dropWhile_append BigInt.isspace ws (o :: rest) hws
    (by intro x hx; simp only [List.head?_cons, Option.some.injEq] at hx; rw [← hx]; exact hsp)
  unfold scan
  rw [h1.1, h1.2]
  simp only
  rw [if_neg (by rintro (h | h); exact hdg h; exact hrest h),
    if_pos (show o = '+' ∨ o = '-' ∨ o = '*' ∨ o = '%' from ho)]

/-- A sign followed at once by a digit is read, with the digits after it, as one
Integer token. -/
theorem scan_signed (ws : List Char) (o d : Char) (ds rest : List Char)
    (hws : ∀ c ∈ ws, BigInt.isspace c = true) (ho : o = '+' ∨ o = '-')
    (hd : BigInt.isdigit d = true) (hds : ∀ c ∈ ds, BigInt.isdigit c = true)
    (hrest : ∀ x, rest.head? = some x → BigInt.isdigit x = false) :
    scan (ws ++ o :: (d :: ds ++ rest)) =
      (⟨TokenType.Integer, o :: d :: ds, ws.length, BigInt.nul, []⟩,
        ws.length + (ds.length + 2)) := by
  have hl : integerLexeme (o :: d :: ds) := by
    unfold integerLexeme
    rw [BigInt.afterSign_cons, if_pos ho]
    refine ⟨by simp, ?_⟩
    intro c hc
    rcases List.mem_cons.mp hc with rfl | h
    · exact hd
    · exact hds c h
  have := scan_integer ws (o :: d :: ds) rest hws hl hrest
  simpa using this

/-- Whitespace alone is read as the End token, positioned at its end. -/
theorem scan_end (ws : List Char) (hws : ∀ c ∈ ws, BigInt.isspace c = true) :
    scan ws = (⟨TokenType.End, [], ws.length, BigInt.nul, []⟩, ws.length) := by
  have h1 := takeWhile_dropWhile_append BigInt.isspace ws [] hws (by simp)
  rw [List.append_nil] at h1
  unfold scan
  rw [h1.1, h1.2]

theorem dropWhile_head_not (p : Char → Bool) :
    ∀ (l : List Char) (c : Char) (t : List Char), l.dropWhile p = c :: t → p c = false := by
  intro l
  induction l with
  | nil => intro c t h; simp at h
  | cons a l ih =>
    intro c t h
    by_cases ha : p a = true
    · rw [List.dropWhile_cons_of_pos ha] at h
      exact ih c t h
    · rw [List.dropWhile_cons_of_neg ha, List.cons.injEq] at h
      rw [← h.1]
      simpa using ha

theorem dropWhile_head?_not (p : Char → Bool) (l : List Char) (c : Char)
    (h : (l.dropWhile p).head? = some c) : p c = false := by
  cases hd : l.dropWhile p with
  | nil => rw [hd] at h; simp at h
  | cons a t =>
    rw [hd] at h
    simp only [List.head?_cons, Option.some.injEq] at h
    rw [← h]
    exact dropWhile_head_not p l a t hd

/-- What `scan` returns on any text: the token starts after the leading whitespace,
the text is the whitespace, the lexeme and the unread remainder, and the lexeme has
the shape of its token type. -/
theorem scan_spec (rest : List Char) :
    (scan rest).1.position = (rest.takeWhile BigInt.isspace).length ∧
    (scan rest).2 = (scan rest).1.position + (scan rest).1.lexeme.length ∧
    rest = rest.takeWhile BigInt.isspace ++ ((scan rest).1.lexeme ++ rest.drop (scan rest).2) ∧
    ((scan rest).1.type = TokenType.End →
      (scan rest).1.lexeme = [] ∧ (scan rest).2 = rest.length) ∧
    ((scan rest).1.type = TokenType.Integer →
      integerLexeme (scan rest).1.lexeme ∧
      ∀ d, (rest.drop (scan rest).2).head? = some d → BigInt.isdigit d = false) ∧
    ((scan rest).1.type = TokenType.Operator →
      (scan rest).1.lexeme = [(scan rest).1.op] ∧ isOperator (scan rest).1.op ∧
      ¬ (((scan rest).1.op = '+' ∨ (scan rest).1.op = '-') ∧
        ∃ d, (rest.drop (scan rest).2).head? = some d ∧ BigInt.isdigit d = true)) ∧
    ((scan rest).1.type = TokenType.Invalid →
      (scan rest).1.error = "invalid character".toList ∧
      ∃ c, (scan rest).1.lexeme = [c] ∧ BigInt.isdigit c = false ∧ ¬ isOperator c) ∧
    ((scan rest).1.type ≠ TokenType.End →
      ∃ c, (scan rest).1.lexeme.head? = some c ∧ BigInt.isspace c = false) := by
  have hsplit := List.takeWhile_append_dropWhile BigInt.isspace rest
  have hdrop : ∀ k, rest.drop ((rest.takeWhile BigInt.isspace).length + k) =
      (rest.dropWhile BigInt.isspace).drop k := by
    intro k
    rw [← List.drop_drop, drop_takeWhile_length]
  cases hr : rest.dropWhile BigInt.isspace with
  | nil =>
    have hs : scan rest =
        (⟨TokenType.End, [], (rest.takeWhile BigInt.isspace).length, BigInt.nul, []⟩,
          (rest.takeWhile BigInt.isspace).length) := by
      unfold scan; rw [hr]
    rw [hr, List.append_nil] at hsplit
    rw [hs]
    refine ⟨rfl, rfl, ?_, ?_, ?_, ?_, ?_, ?_⟩
    · have := hdrop 0
      rw [hr] at this
      simp only [Nat.add_zero, List.drop_nil] at this
      dsimp only
      rw [this, List.append_nil, List.append_nil]
      exact hsplit.symm
    · intro _
      exact ⟨rfl, by simp only [hsplit]⟩
    · intro h; simp at h
    · intro h; simp at h
    · intro h; simp at h
    · intro h; simp at h
  | cons c t =>
    have hc : BigInt.isspace c = false := dropWhile_head_not BigInt.isspace rest c t hr
    rw [hr] at hsplit
    by_cases hint : BigInt.isdigit c = true ∨
        ((c = '+' ∨ c = '-') ∧ ∃ d, t.head? = some d ∧ BigInt.isdigit d = true)
    · have hs : scan rest =
          (⟨TokenType.Integer, c :: t.takeWhile BigInt.isdigit,
              (rest.takeWhile BigInt.isspace).length, BigInt.nul, []⟩,
            (rest.takeWhile BigInt.isspace).length + 1 +
              (t.takeWhile BigInt.isdigit).length) := by
        unfold scan; rw [hr]; simp only; rw [if_pos hint]
      have hd := hdrop (1 + (t.takeWhile BigInt.isdigit).length)
      rw [hr, Nat.add_comm 1, List.drop_succ_cons, drop_takeWhile_length, ← Nat.add_assoc,
        Nat.add_right_comm] at hd
      rw [hs]
      refine ⟨rfl, ?_, ?_, ?_, ?_, ?_, ?_, ?_⟩
      · simp only [List.length_cons]; omega
      · dsimp only
        rw [hd, List.cons_append, List.takeWhile_append_dropWhile]
        exact hsplit.symm
      · intro h; simp at h
      · intro _
        dsimp only
        rw [hd]
        refine ⟨?_, fun d hd2 => dropWhile_head?_not BigInt.isdigit t d hd2⟩
        unfold integerLexeme
        rw [BigInt.afterSign_cons]
        rcases hint with h | ⟨h, d, hd1, hd2⟩
        · rw [if_neg (BigInt.isdigit_not_sign c h)]
          refine ⟨by simp, ?_⟩
          intro x hx
          rcases List.mem_cons.mp hx with rfl | hx
          · exact h
          · exact (List.mem_takeWhile_imp hx)
        · rw [if_pos h]
          refine ⟨?_, fun x hx => List.mem_takeWhile_imp hx⟩
          cases t with
          | nil => simp at hd1
          | cons a t2 =>
            simp only [List.head?_cons, Option.some.injEq] at hd1
            rw [hd1, List.takeWhile_cons_of_pos hd2]
            simp
      · intro h; simp at h
      · intro h; simp at h
      · intro _
        exact ⟨c, rfl, hc⟩
    · have hd := hdrop 1
      rw [hr, List.drop_succ_cons, List.drop_zero] at hd
      by_cases hop : c = '+' ∨ c = '-' ∨ c = '*' ∨ c = '%'
      · have hs : scan rest =
            (⟨TokenType.Operator, [c], (rest.takeWhile BigInt.isspace).length, c, []⟩,
              (rest.takeWhile BigInt.isspace).length + 1) := by
          unfold scan; rw [hr]; simp only; rw [if_neg hint, if_pos hop]
        rw [hs]
        refine ⟨rfl, rfl, ?_, ?_, ?_, ?_, ?_, ?_⟩
        · dsimp only
          rw [hd]
          exact hsplit.symm
        · intro h; simp at h
        · intro h; simp at h
        · intro _
          dsimp only
          rw [hd]
          exact ⟨rfl, hop, fun h => hint (Or.inr h)⟩
        · intro h; simp at h
        · intro _
          exact ⟨c, rfl, hc⟩
      · have hs : scan rest =
            (⟨TokenType.Invalid, [c], (rest.takeWhile BigInt.isspace).length, BigInt.nul,
                "invalid character".toList⟩,
              (rest.takeWhile BigInt.isspace).length + 1) := by
          unfold scan; rw [hr]; simp only; rw [if_neg hint, if_neg hop]
        rw [hs]
        refine ⟨rfl, rfl, ?_, ?_, ?_, ?_, ?_, ?_⟩
        · dsimp only
          rw [hd]
          exact hsplit.symm
        · intro h; simp at h
        · intro h; simp at h
        · intro h; simp at h
        · intro _
          refine ⟨rfl, c, rfl, ?_, hop⟩
          cases hdc : BigInt.isdigit c with
          | false => rfl
          | true => exact absurd (Or.inl hdc) hint
        · intro _
          exact ⟨c, rfl, hc⟩

theorem scan_le (rest : List Char) : (scan rest).2 ≤ rest.length := by
  obtain ⟨h1, h2, h3, _⟩ := scan_spec rest
  have h := congrArg List.length h3
  rw [List.length_append, List.length_append, List.length_drop, ← h1] at h
  omega

/-! ## The tokens of an input -/

/-- The lexer keeps its input, and its position never passes the end of the input. -/
theorem lexerAfter_inv (input : List Char) :
    ∀ i, (lexerAfter input i).input_ = input ∧ (lexerAfter input i).pos_ ≤ input.length := by
  intro i
  induction i with
  | zero => exact ⟨rfl, Nat.zero_le _⟩
  | succ i ih =>
    obtain ⟨h1, h2⟩ := ih
    have hlx : lexerAfter input i = ⟨input, (lexerAfter input i).pos_⟩ := by
      cases hl : lexerAfter input i with
      | mk a b => rw [hl] at h1; simp only at h1; rw [h1]
    have hn := Lexer.next_scan input (lexerAfter input i).pos_ h2
    rw [← hlx] at hn
    have hle := scan_le (input.drop (lexerAfter input i).pos_)
    rw [List.length_drop] at hle
    rw [lexerAfter, hn]
    exact ⟨rfl, by dsimp only; omega⟩

/-- Token number `i` is the reading `scan` of the text the lexer has not read yet. -/
theorem tokenAt_scan (input : List Char) (i : Nat) :
    tokenAt input i =
      ⟨(scan (input.drop (lexerAfter input i).pos_)).1.type,
        (scan (input.drop (lexerAfter input i).pos_)).1.lexeme,
        (lexerAfter input i).pos_ + (scan (input.drop (lexerAfter input i).pos_)).1.position,
        (scan (input.drop (lexerAfter input i).pos_)).1.op,
        (scan (input.drop (lexerAfter input i).pos_)).1.error⟩ ∧
    lexerAfter input (i + 1) =
      ⟨input, (lexerAfter input i).pos_ + (scan (input.drop (lexerAfter input i).pos_)).2⟩ := by
  obtain ⟨h1, h2⟩ := lexerAfter_inv input i
  have hlx : lexerAfter input i = ⟨input, (lexerAfter input i).pos_⟩ := by
    cases hl : lexerAfter input i with
    | mk a b => rw [hl] at h1; simp only at h1; rw [h1]
  have hn := Lexer.next_scan input (lexerAfter input i).pos_ h2
  rw [← hlx] at hn
  constructor
  · rw [tokenAt, hn]
  · rw [lexerAfter, hn]

/-- The parser in terms of the first four tokens of the input. -/
theorem Parser.parse_tokens (input : List Char) (out : ParsedExpr) (error : List Char) :
    Parser.parse input out error =
      if (tokenAt input 0).type ≠ TokenType.Integer then
        (false, out, unexpectedMessage "integer".toList (tokenAt input 0))
      else if (tokenAt input 1).type ≠ TokenType.Operator then
        (false, out, unexpectedMessage "operator".toList (tokenAt input 1))
      else if (tokenAt input 2).type ≠ TokenType.Integer then
        (false, out, unexpectedMessage "integer".toList (tokenAt input 2))
      else if (tokenAt input 3).type ≠ TokenType.End then
        (false, out, unexpectedMessage "end".toList (tokenAt input 3))
      else
        (true, ⟨(tokenAt input 0).lexeme, (tokenAt input 1).op, (tokenAt input 2).lexeme⟩,
          error) := rfl

/-- Token number `i` of an input whose unread part is `rest`. -/
theorem tokenAt_append (pre rest : List Char) (i : Nat)
    (h : lexerAfter (pre ++ rest) i = ⟨pre ++ rest, pre.length⟩) :
    tokenAt (pre ++ rest) i =
      ⟨(scan rest).1.type, (scan rest).1.lexeme, pre.length + (scan rest).1.position,
        (scan rest).1.op, (scan rest).1.error⟩ ∧
    lexerAfter (pre ++ rest) (i + 1) = ⟨pre ++ rest, pre.length + (scan rest).2⟩ := by
  have := tokenAt_scan (pre ++ rest) i
  rw [h] at this
  simp only [List.drop_left] at this
  exact this

theorem token_step (input pre rest : List Char) (i : Nat) (hin : input = pre ++ rest)
    (hl : lexerAfter input i = ⟨input, pre.length⟩) (tok : Token) (n : Nat)
    (hs : scan rest = (tok, n)) :
    tokenAt input i = ⟨tok.type, tok.lexeme, pre.length + tok.position, tok.op, tok.error⟩ ∧
    lexerAfter input (i + 1) = ⟨input, pre.length + n⟩ := by
  subst hin
  have := tokenAt_append pre rest i hl
  rw [hs] at this
  exact this

/-- The tokens of `w0 l w1 o w2 r w3`.  The first is the integer `l`.  Unless `o` is a
sign with a digit right after it, the next three are the operator `o`, the integer
`r` and End; otherwise the second token is an Integer that starts at `o`. -/
theorem tokens_of_form (w0 l w1 : List Char) (o : Char) (w2 r w3 : List Char)
    (hw0 : ∀ c ∈ w0, BigInt.isspace c = true) (hw1 : ∀ c ∈ w1, BigInt.isspace c = true)
    (hw2 : ∀ c ∈ w2, BigInt.isspace c = true) (hw3 : ∀ c ∈ w3, BigInt.isspace c = true)
    (hl : integerLexeme l) (ho : isOperator o) (hr : integerLexeme r) :
    tokenAt (w0 ++ (l ++ (w1 ++ o :: (w2 ++ (r ++ w3))))) 0 =
      ⟨TokenType.Integer, l, w0.length, BigInt.nul, []⟩ ∧
    (¬ ((o = '+' ∨ o = '-') ∧ w2 = [] ∧ ∃ d, r.head? = some d ∧ BigInt.isdigit d = true) →
      tokenAt (w0 ++ (l ++ (w1 ++ o :: (w2 ++ (r ++ w3))))) 1 =
        ⟨TokenType.Operator, [o], w0.length + l.length + w1.length, o, []⟩ ∧
      tokenAt (w0 ++ (l ++ (w1 ++ o :: (w2 ++ (r ++ w3))))) 2 =
        ⟨TokenType.Integer, r, w0.length + l.length + w1.length + 1 + w2.length,
          BigInt.nul, []⟩ ∧
      tokenAt (w0 ++ (l ++ (w1 ++ o :: (w2 ++ (r ++ w3))))) 3 =
        ⟨TokenType.End, [], w0.length + l.length + w1.length + 1 + w2.length + r.length +
          w3.length, BigInt.nul, []⟩) ∧
    (((o = '+' ∨ o = '-') ∧ w2 = [] ∧ ∃ d, r.head? = some d ∧ BigInt.isdigit d = true) →
      (tokenAt (w0 ++ (l ++ (w1 ++ o :: (w2 ++ (r ++ w3))))) 1).type = TokenType.Integer ∧
      (tokenAt (w0 ++ (l ++ (w1 ++ o :: (w2 ++ (r ++ w3))))) 1).position =
        w0.length + l.length + w1.length) := by
  have hspd : ∀ (w rest : List Char) (x : Char), (∀ c ∈ w, BigInt.isspace c = true) →
      (∀ d, rest.head? = some d → BigInt.isdigit d = false) →
      ∀ d, (w ++ rest).head? = some d → BigInt.isdigit d = false := by
    intro w rest _ hw hrest d hd
    cases w with
    | nil => exact hrest d hd
    | cons a w2 =>
      simp only [List.cons_append, List.head?_cons, Option.some.injEq] at hd
      have hsp := hw a (List.mem_cons_self _ _)
      rw [hd] at hsp
      cases hdd : BigInt.isdigit d with
      | false => rfl
      | true => rw [BigInt.isdigit_not_space d hdd] at hsp; exact absurd hsp (by simp)
  have hod : BigInt.isdigit o = false := by
    rcases ho with rfl | rfl | rfl | rfl <;> decide
  set rest2 := w2 ++ (r ++ w3) with hrest2
  set rest1 := w1 ++ o :: rest2 with hrest1
  set input := w0 ++ (l ++ rest1) with hinput
  have hrest1d : ∀ d, rest1.head? = some d → BigInt.isdigit d = false :=
    hspd w1 (o :: rest2) 'x' hw1
      (by intro d hd; simp only [List.head?_cons, Option.some.injEq] at hd; rw [← hd]; exact hod)
  have hw3d : ∀ d, w3.head? = some d → BigInt.isdigit d = false := by
    have := hspd w3 [] 'x' hw3 (by simp)
    rw [List.append_nil] at this
    exact this
  have s0 := token_step input [] input 0 rfl rfl _ _ (scan_integer w0 l rest1 hw0 hl hrest1d)
  simp only [List.length_nil, Nat.zero_add] at s0
  refine ⟨s0.1, ?_, ?_⟩
  · intro hex
    have hex2 : ¬ ((o = '+' ∨ o = '-') ∧
        ∃ d, rest2.head? = some d ∧ BigInt.isdigit d = true) := by
      rintro ⟨h1, d, h2, h3⟩
      cases hw2e : w2 with
      | nil =>
        rw [hrest2, hw2e, List.nil_append] at h2
        obtain ⟨c, t, rfl, _⟩ := integerLexeme_cons r hr
        exact hex ⟨h1, hw2e, d, by simpa using h2, h3⟩
      | cons a w2t =>
        rw [hrest2, hw2e] at h2
        simp only [List.cons_append, List.head?_cons, Option.some.injEq] at h2
        have hsp := hw2 a (by rw [hw2e]; exact List.mem_cons_self _ _)
        rw [h2, BigInt.isdigit_not_space d h3] at hsp
        exact absurd hsp (by simp)
    have s1 := token_step input (w0 ++ l) rest1 1 (by rw [hinput, List.append_assoc])
      (by rw [s0.2, List.length_append]) _ _ (scan_operator w1 o rest2 hw1 ho hex2)
    have s2 := token_step input (w0 ++ l ++ w1 ++ [o]) rest2 2
      (by rw [hinput, hrest1]; simp only [List.append_assoc, List.singleton_append, List.cons_append, List.nil_append])
      (by rw [s1.2]; simp only [List.length_append, List.length_singleton, Nat.add_assoc]) _ _
      (scan_integer w2 r w3 hw2 hr hw3d)
    have s3 := token_step input (w0 ++ l ++ w1 ++ [o] ++ w2 ++ r) w3 3
      (by rw [hinput, hrest1, hrest2]; simp only [List.append_assoc, List.singleton_append, List.cons_append, List.nil_append])
      (by rw [s2.2]; simp only [List.length_append, List.length_singleton, Nat.add_assoc]) _ _
      (scan_end w3 hw3)
    refine ⟨?_, ?_, ?_⟩
    · rw [s1.1]; simp only [List.length_append]
    · rw [s2.1]; simp only [List.length_append, List.length_singleton]
    · rw [s3.1]; simp only [List.length_append, List.length_singleton]
  · rintro ⟨h1, h2, d, h3, h4⟩
    obtain ⟨c, t, rfl, _, ht, _⟩ := integerLexeme_cons r hr
    simp only [List.head?_cons, Option.some.injEq] at h3
    subst h3
    have hsc := scan_signed w1 o c t w3 hw1 h1 h4 ht hw3d
    have hr2 : rest2 = c :: t ++ w3 := by rw [hrest2, h2, List.nil_append]
    rw [← hr2] at hsc
    have s1 := token_step input (w0 ++ l) rest1 1 (by rw [hinput, List.append_assoc])
      (by rw [s0.2, List.length_append]) _ _ hsc
    rw [s1.1]
    exact ⟨rfl, by simp only [List.length_append]⟩

theorem token_chain (input : List Char) (i p : Nat) (hl : lexerAfter input i = ⟨input, p⟩) :
    (tokenAt input i).type = (scan (input.drop p)).1.type ∧
    (tokenAt input i).lexeme = (scan (input.drop p)).1.lexeme ∧
    (tokenAt input i).op = (scan (input.drop p)).1.op ∧
    (tokenAt input i).position = p + (scan (input.drop p)).1.position ∧
    (tokenAt input i).error = (scan (input.drop p)).1.error ∧
    lexerAfter input (i + 1) = ⟨input, p + (scan (input.drop p)).2⟩ ∧
    (input.drop p).drop (scan (input.drop p)).2 = input.drop (p + (scan (input.drop p)).2) := by
  have := tokenAt_scan input i
  rw [hl] at this
  dsimp only at this
  rw [this.1]
  exact ⟨rfl, rfl, rfl, rfl, rfl, this.2, List.drop_drop _ _ _⟩

/-- An accepted input is `w0 l w1 o w2 r w3`, with `l`, `o`, `r` the fields of `out`,
and `o` is not a sign with a digit right after it. -/
theorem form_of_accepted (input : List Char) (out : ParsedExpr) (error : List Char)
    (h : (Parser.parse input out error).1 = true) :
    ∃ (w0 l w1 : List Char) (o : Char) (w2 r w3 : List Char),
      input = w0 ++ (l ++ (w1 ++ o :: (w2 ++ (r ++ w3)))) ∧
      (∀ c ∈ w0, BigInt.isspace c = true) ∧ (∀ c ∈ w1, BigInt.isspace c = true) ∧
      (∀ c ∈ w2, BigInt.isspace c = true) ∧ (∀ c ∈ w3, BigInt.isspace c = true) ∧
      integerLexeme l ∧ isOperator o ∧ integerLexeme r ∧
      ¬ ((o = '+' ∨ o = '-') ∧ w2 = [] ∧ ∃ d, r.head? = some d ∧ BigInt.isdigit d = true) ∧
      Parser.parse input out error = (true, ⟨l, o, r⟩, error) := by
  rw [Parser.parse_tokens] at h ⊢
  by_cases h0 : (tokenAt input 0).type ≠ TokenType.Integer
  · rw [if_pos h0] at h; simp at h
  by_cases h1 : (tokenAt input 1).type ≠ TokenType.Operator
  · rw [if_neg h0, if_pos h1] at h; simp at h
  by_cases h2 : (tokenAt input 2).type ≠ TokenType.Integer
  · rw [if_neg h0, if_neg h1, if_pos h2] at h; simp at h
  by_cases h3 : (tokenAt input 3).type ≠ TokenType.End
  · rw [if_neg h0, if_neg h1, if_neg h2, if_pos h3] at h; simp at h
  rw [if_neg h0, if_neg h1, if_neg h2, if_neg h3]
  rw [not_not] at h0 h1 h2 h3
  obtain ⟨a0, b0, c0, _, _, l0, d0⟩ := token_chain input 0 0 rfl
  obtain ⟨a1, b1, c1, _, _, l1, d1⟩ := token_chain input 1 _ l0
  obtain ⟨a2, b2, c2, _, _, l2, d2⟩ := token_chain input 2 _ l1
  obtain ⟨a3, b3, c3, _, _, _, _⟩ := token_chain input 3 _ l2
  rw [a0] at h0
  rw [a1] at h1
  rw [a2] at h2
  rw [a3] at h3
  rw [b0, c1, b2]
  obtain ⟨_, _, e0, _, i0, _, _, _⟩ := scan_spec (input.drop 0)
  obtain ⟨_, _, e1, _, _, o1, _, _⟩ := scan_spec (input.drop (0 + (scan (input.drop 0)).2))
  obtain ⟨_, _, e2, _, i2, _, _, _⟩ := scan_spec (input.drop
    (0 + (scan (input.drop 0)).2 + (scan (input.drop (0 + (scan (input.drop 0)).2))).2))
  obtain ⟨_, _, e3, n3, _, _, _, _⟩ := scan_spec (input.drop
    (0 + (scan (input.drop 0)).2 + (scan (input.drop (0 + (scan (input.drop 0)).2))).2 +
      (scan (input.drop (0 + (scan (input.drop 0)).2 +
        (scan (input.drop (0 + (scan (input.drop 0)).2))).2))).2))
  have i0 := (i0 h0).1
  obtain ⟨o1a, o1b, o1c⟩ := o1 h1
  have i2 := (i2 h2).1
  obtain ⟨n3a, n3b⟩ := n3 h3
  rw [d0] at e0
  rw [d1, o1a] at e1
  rw [d1] at o1c
  rw [d2] at e2
  rw [n3a, n3b, List.drop_length, List.append_nil, List.append_nil] at e3
  set R1 := input.drop (0 + (scan (input.drop 0)).2) with hR1
  set R2 := input.drop (0 + (scan (input.drop 0)).2 + (scan R1).2) with hR2
  set R3 := input.drop (0 + (scan (input.drop 0)).2 + (scan R1).2 + (scan R2).2) with hR3
  refine ⟨(input.drop 0).takeWhile BigInt.isspace, (scan (input.drop 0)).1.lexeme,
    R1.takeWhile BigInt.isspace, (scan R1).1.op, R2.takeWhile BigInt.isspace,
    (scan R2).1.lexeme, R3.takeWhile BigInt.isspace, ?_,
    fun c hc => List.mem_takeWhile_imp hc, fun c hc => List.mem_takeWhile_imp hc,
    fun c hc => List.mem_takeWhile_imp hc, fun c hc => List.mem_takeWhile_imp hc,
    i0, o1b, i2, ?_, rfl⟩
  · rw [← e3, ← e2]
    simp only [List.singleton_append] at e1
    rw [← e1, ← e0]
    rfl
  · rintro ⟨g1, g2, d, g3, g4⟩
    apply o1c
    refine ⟨g1, d, ?_, g4⟩
    rw [e2, g2, List.nil_append]
    cases hlex : (scan R2).1.lexeme with
    | nil => rw [hlex] at g3; simp at g3
    | cons a t => rw [hlex] at g3; simpa using g3

/-- Where token number `i` lies in the input: after the text `pre` read so far and
the whitespace `ws`; its lexeme has the shape of its type, and the End token is
followed by nothing. -/
theorem tokenAt_split (input : List Char) (i : Nat) :
    ∃ pre ws tail, input = pre ++ ws ++ (tokenAt input i).lexeme ++ tail ∧
      pre.length = (lexerAfter input i).pos_ ∧ (∀ c ∈ ws, BigInt.isspace c = true) ∧
      (tokenAt input i).position = pre.length + ws.length ∧
      ((tokenAt input i).type = TokenType.End → (tokenAt input i).lexeme = [] ∧ tail = []) ∧
      ((tokenAt input i).type ≠ TokenType.End →
        ∃ c, (tokenAt input i).lexeme.head? = some c ∧ BigInt.isspace c = false) ∧
      ((tokenAt input i).type = TokenType.Integer → integerLexeme (tokenAt input i).lexeme) ∧
      ((tokenAt input i).type = TokenType.Operator →
        (tokenAt input i).lexeme = [(tokenAt input i).op] ∧ isOperator (tokenAt input i).op) ∧
      ((tokenAt input i).type = TokenType.Invalid →
        (tokenAt input i).error = "invalid character".toList) := by
  obtain ⟨h1, h2⟩ := lexerAfter_inv input i
  have hlx : lexerAfter input i = ⟨input, (lexerAfter input i).pos_⟩ := by
    cases hl : lexerAfter input i with
    | mk a b => rw [hl] at h1; simp only at h1; rw [h1]
  obtain ⟨a, b, c, d, e, _, _⟩ := token_chain input i _ hlx
  obtain ⟨s1, s2, s3, s4, s5, s6, s7, s8⟩ := scan_spec (input.drop (lexerAfter input i).pos_)
  rw [a, b, c, d, e]
  refine ⟨input.take (lexerAfter input i).pos_,
    (input.drop (lexerAfter input i).pos_).takeWhile BigInt.isspace,
    (input.drop (lexerAfter input i).pos_).drop (scan (input.drop (lexerAfter input i).pos_)).2,
    ?_, ?_, fun c hc => List.mem_takeWhile_imp hc, ?_, ?_, s8, fun h => (s5 h).1,
    fun h => ⟨(s6 h).1, (s6 h).2.1⟩, fun h => (s7 h).1⟩
  · rw [List.append_assoc, List.append_assoc, ← s3, List.take_append_drop]
  · rw [List.length_take]; omega
  · rw [s1, List.length_take]; omega
  · intro h
    obtain ⟨g1, g2⟩ := s4 h
    exact ⟨g1, by rw [g2, List.drop_length]⟩

/-! ## Accepted inputs -/

/-- Claim C15, as stated, fails: `1+2` is an integer, an operator and an integer with
empty whitespace, but the lexer reads `+2` as one signed integer and the parser
rejects the line. -/
theorem parse_adjacent_sign_counterexample :
    integerLexeme "1".toList ∧ isOperator '+' ∧ integerLexeme "2".toList ∧
    Parser.parse ([] ++ "1".toList ++ [] ++ ['+'] ++ [] ++ "2".toList ++ [])
        ⟨[], BigInt.nul, []⟩ [] =
      (false, ⟨[], BigInt.nul, []⟩, "expected operator at pos 1".toList) ∧
    ¬ (∀ (w0 l w1 : List Char) (o : Char) (w2 r w3 : List Char),
        (∀ c ∈ w0, BigInt.isspace c = true) → (∀ c ∈ w1, BigInt.isspace c = true) →
        (∀ c ∈ w2, BigInt.isspace c = true) → (∀ c ∈ w3, BigInt.isspace c = true) →
        integerLexeme l → isOperator o → integerLexeme r →
        Parser.parse (w0 ++ l ++ w1 ++ [o] ++ w2 ++ r ++ w3) ⟨[], BigInt.nul, []⟩ [] =
          (true, ⟨l, o, r⟩, [])) := by
  refine ⟨by decide, by decide, by decide, by decide, ?_⟩
  intro h
  have := h [] "1".toList [] '+' [] "2".toList [] (by decide) (by decide) (by decide)
    (by decide) (by decide) (by decide) (by decide)
  revert this
  decide

/-- Claim C15, amended: for integer lexemes `l`, `r`, an operator `o` and whitespace
`w0 .. w3`, `Parser::parse` on `w0 l w1 o w2 r w3` returns true with `out = (l, o, r)`,
except when `o` is `+` or `-`, `w2` is empty and `r` begins with a digit: then it
returns false, leaves `out` alone and reports `expected operator` at the offset of `o`.
Every input it accepts is of that form and outside the exception. -/
theorem parse_accepts_form (w0 l w1 : List Char) (o : Char) (w2 r w3 : List Char)
    (out : ParsedExpr) (error : List Char)
    (hw0 : ∀ c ∈ w0, BigInt.isspace c = true) (hw1 : ∀ c ∈ w1, BigInt.isspace c = true)
    (hw2 : ∀ c ∈ w2, BigInt.isspace c = true) (hw3 : ∀ c ∈ w3, BigInt.isspace c = true)
    (hl : integerLexeme l) (ho : isOperator o) (hr : integerLexeme r) :
    (¬ ((o = '+' ∨ o = '-') ∧ w2 = [] ∧ ∃ d, r.head? = some d ∧ BigInt.isdigit d = true) →
      Parser.parse (w0 ++ l ++ w1 ++ [o] ++ w2 ++ r ++ w3) out error =
        (true, ⟨l, o, r⟩, error)) ∧
    (((o = '+' ∨ o = '-') ∧ w2 = [] ∧ ∃ d, r.head? = some d ∧ BigInt.isdigit d = true) →
      Parser.parse (w0 ++ l ++ w1 ++ [o] ++ w2 ++ r ++ w3) out error =
        (false, out, "expected operator at pos ".toList ++
          BigInt.to_string_digits 20 (w0.length + l.length + w1.length))) ∧
    (∀ input : List Char, (Parser.parse input out error).1 = true →
      ∃ (v0 a v1 : List Char) (p : Char) (v2 b v3 : List Char),
        input = v0 ++ a ++ v1 ++ [p] ++ v2 ++ b ++ v3 ∧
        (∀ c ∈ v0, BigInt.isspace c = true) ∧ (∀ c ∈ v1, BigInt.isspace c = true) ∧
        (∀ c ∈ v2, BigInt.isspace c = true) ∧ (∀ c ∈ v3, BigInt.isspace c = true) ∧
        integerLexeme a ∧ isOperator p ∧ integerLexeme b ∧
        ¬ ((p = '+' ∨ p = '-') ∧ v2 = [] ∧ ∃ d, b.head? = some d ∧ BigInt.isdigit d = true) ∧
        Parser.parse input out error = (true, ⟨a, p, b⟩, error)) := by
  have e : w0 ++ l ++ w1 ++ [o] ++ w2 ++ r ++ w3 =
      w0 ++ (l ++ (w1 ++ o :: (w2 ++ (r ++ w3)))) := by
    simp only [List.append_assoc, List.singleton_append, List.cons_append, List.nil_append]
  obtain ⟨t0, tok, tbad⟩ := tokens_of_form w0 l w1 o w2 r w3 hw0 hw1 hw2 hw3 hl ho hr
  refine ⟨?_, ?_, ?_⟩
  · intro hex
    obtain ⟨t1, t2, t3⟩ := tok hex
    rw [e, Parser.parse_tokens, t0, t1, t2, t3]
    simp
  · intro hex
    obtain ⟨t1, t2⟩ := tbad hex
    rw [e, Parser.parse_tokens, t0]
    rw [if_neg (by simp), if_pos (by rw [t1]; simp)]
    unfold unexpectedMessage posString
    rw [t1, t2, if_neg (by simp), if_neg (by simp)]
    rfl
  · intro input h
    obtain ⟨v0, a, v1, p, v2, b, v3, g0, g1, g2, g3, g4, g5, g6, g7, g8, g9⟩ :=
      form_of_accepted input out error h
    refine ⟨v0, a, v1, p, v2, b, v3, ?_, g1, g2, g3, g4, g5, g6, g7, g8, g9⟩
    rw [g0]
    simp only [List.append_assoc, List.singleton_append, List.cons_append, List.nil_append]

theorem parse_accepts_form_witness :
    (Parser.parse ("   ".toList ++ "-0012".toList ++ "   ".toList ++ ['*'] ++ "   ".toList ++
        "+34".toList ++ " ".toList) ⟨[], BigInt.nul, []⟩ [] =
      (true, ⟨"-0012".toList, '*', "+34".toList⟩, [])) ∧
    (Parser.parse ([] ++ "7".toList ++ [] ++ ['-'] ++ [] ++ "-5".toList ++ [])
        ⟨[], BigInt.nul, []⟩ [] =
      (true, ⟨"7".toList, '-', "-5".toList⟩, [])) ∧
    (Parser.parse (" ".toList ++ "12".toList ++ " ".toList ++ ['+'] ++ [] ++ "5".toList ++ [])
        ⟨[], BigInt.nul, []⟩ [] =
      (false, ⟨[], BigInt.nul, []⟩, "expected operator at pos 4".toList)) :=
  ⟨(parse_accepts_form "   ".toList "-0012".toList "   ".toList '*' "   ".toList "+34".toList
      " ".toList ⟨[], BigInt.nul, []⟩ [] (by decide) (by decide) (by decide) (by decide)
      (by decide) (by decide) (by decide)).1 (by decide),
    (parse_accepts_form [] "7".toList [] '-' [] "-5".toList [] ⟨[], BigInt.nul, []⟩ []
      (by decide) (by decide) (by decide) (by decide) (by decide) (by decide)
      (by decide)).1 (by decide),
    (parse_accepts_form " ".toList "12".toList " ".toList '+' [] "5".toList []
      ⟨[], BigInt.nul, []⟩ [] (by decide) (by decide) (by decide) (by decide) (by decide)
      (by decide) (by decide)).2.1 (by decide)⟩

/-! ## Rejected inputs -/

theorem unexpectedMessage_shape (name : List Char) (tok : Token)
    (herr : tok.type = TokenType.Invalid → tok.error = "invalid character".toList) :
    unexpectedMessage name tok =
      (if tok.type = TokenType.End then "unexpected end of input".toList
        else if tok.type = TokenType.Invalid then "invalid character".toList
        else "expected ".toList ++ name) ++
      " at pos ".toList ++ BigInt.to_string_digits 20 tok.position := by
  unfold unexpectedMessage posString
  by_cases h1 : tok.type = TokenType.Invalid
  · rw [if_pos h1, if_neg (by rw [h1]; simp), if_pos h1, herr h1]
    rfl
  · rw [if_neg h1]
    by_cases h2 : tok.type = TokenType.End
    · rw [if_pos h2, if_pos h2]
      rfl
    · rw [if_neg h2, if_neg h2, if_neg h1]
      simp only [List.append_assoc]
      rfl

theorem tokenAt_position (input : List Char) (i : Nat) :
    (∃ pre ws tail, input = pre ++ ws ++ (tokenAt input i).lexeme ++ tail ∧
      pre.length = (lexerAfter input i).pos_ ∧ (∀ c ∈ ws, BigInt.isspace c = true) ∧
      (tokenAt input i).position = pre.length + ws.length) ∧
    ((tokenAt input i).type = TokenType.End → (tokenAt input i).position = input.length) ∧
    ((tokenAt input i).type ≠ TokenType.End →
      (tokenAt input i).position < input.length ∧
      ∃ c, (tokenAt input i).lexeme.head? = some c ∧ BigInt.isspace c = false) ∧
    (input.length < 2 ^ 64 →
      BigInt.stoul (BigInt.to_string_digits 20 (tokenAt input i).position) =
        (tokenAt input i).position ∧
      ∀ c ∈ BigInt.to_string_digits 20 (tokenAt input i).position, BigInt.isdigit c = true) := by
  obtain ⟨pre, ws, tail, e, hp, hws, hpos, hend, hnend, _⟩ := tokenAt_split input i
  have hlen := congrArg List.length e
  simp only [List.length_append] at hlen
  refine ⟨⟨pre, ws, tail, e, hp, hws, hpos⟩, ?_, ?_, ?_⟩
  · intro h
    obtain ⟨g1, g2⟩ := hend h
    rw [g1, g2] at hlen
    simp only [List.length_nil] at hlen
    omega
  · intro h
    obtain ⟨c, g1, g2⟩ := hnend h
    refine ⟨?_, c, g1, g2⟩
    cases hlex : (tokenAt input i).lexeme with
    | nil => rw [hlex] at g1; simp at g1
    | cons a t =>
      rw [hlex, List.length_cons] at hlen
      omega
  · intro h
    have hle : (tokenAt input i).position < 10 ^ 20 := by
      have : (2 : Nat) ^ 64 < 10 ^ 20 := by decide
      omega
    obtain ⟨t1, _, _, t4, _⟩ :=
      BigInt.to_string_digits_spec 20 20 (tokenAt input i).position hle (by decide) le_rfl
    exact ⟨t4, t1⟩

theorem parse_cases (input : List Char) (out : ParsedExpr) (error : List Char)
    (h : (Parser.parse input out error).1 = false) :
    ∃ i, i < 4 ∧ (∀ j, j < i → (tokenAt input j).type = expectedType j) ∧
      (tokenAt input i).type ≠ expectedType i ∧
      Parser.parse input out error =
        (false, out, unexpectedMessage (expectedName i) (tokenAt input i)) := by
  rw [Parser.parse_tokens] at h ⊢
  by_cases h0 : (tokenAt input 0).type ≠ TokenType.Integer
  · rw [if_pos h0]
    exact ⟨0, by decide, fun j hj => absurd hj (Nat.not_lt_zero j), h0, rfl⟩
  rw [if_neg h0] at h ⊢
  by_cases h1 : (tokenAt input 1).type ≠ TokenType.Operator
  · rw [if_pos h1]
    refine ⟨1, by decide, ?_, h1, rfl⟩
    intro j hj
    have : j = 0 := by omega
    subst this
    exact not_not.mp h0
  rw [if_neg h1] at h ⊢
  by_cases h2 : (tokenAt input 2).type ≠ TokenType.Integer
  · rw [if_pos h2]
    refine ⟨2, by decide, ?_, h2, rfl⟩
    intro j hj
    have : j = 0 ∨ j = 1 := by omega
    rcases this with rfl | rfl
    · exact not_not.mp h0
    · exact not_not.mp h1
  rw [if_neg h2] at h ⊢
  by_cases h3 : (tokenAt input 3).type ≠ TokenType.End
  · rw [if_pos h3]
    refine ⟨3, by decide, ?_, h3, rfl⟩
    intro j hj
    have : j = 0 ∨ j = 1 ∨ j = 2 := by omega
    rcases this with rfl | rfl | rfl
    · exact not_not.mp h0
    · exact not_not.mp h1
    · exact not_not.mp h2
  · rw [if_neg h3] at h
    simp at h

/-- Claim C16: when `Parser::parse` returns false, one of the first four tokens is
the first whose type differs from Integer, Operator, Integer, End; `out` is
unchanged; the error begins with `unexpected end of input` for an End token, with
`invalid character` for an invalid character and with `expected` and the name of the
expected token otherwise, and it ends with `pos k`, `k` the offset at which the
lexeme of that token lies in the input, which is the input length for an End token. -/
theorem parse_error_position (input : List Char) (out : ParsedExpr) (error : List Char)
    (h : (Parser.parse input out error).1 = false) :
    ∃ i, i < 4 ∧ (∀ j, j < i → (tokenAt input j).type = expectedType j) ∧
      (tokenAt input i).type ≠ expectedType i ∧
      (Parser.parse input out error).2.1 = out ∧
      (Parser.parse input out error).2.2 =
        (if (tokenAt input i).type = TokenType.End then "unexpected end of input".toList
          else if (tokenAt input i).type = TokenType.Invalid then "invalid character".toList
          else "expected ".toList ++ expectedName i) ++
        " at pos ".toList ++ BigInt.to_string_digits 20 (tokenAt input i).position ∧
      (∃ pre ws tail, input = pre ++ ws ++ (tokenAt input i).lexeme ++ tail ∧
        pre.length = (lexerAfter input i).pos_ ∧ (∀ c ∈ ws, BigInt.isspace c = true) ∧
        (tokenAt input i).position = pre.length + ws.length) ∧
      ((tokenAt input i).type = TokenType.End → (tokenAt input i).position = input.length) ∧
      ((tokenAt input i).type ≠ TokenType.End →
        (tokenAt input i).position < input.length ∧
        ∃ c, (tokenAt input i).lexeme.head? = some c ∧ BigInt.isspace c = false) ∧
      (input.length < 2 ^ 64 →
        BigInt.stoul (BigInt.to_string_digits 20 (tokenAt input i).position) =
          (tokenAt input i).position ∧
        ∀ c ∈ BigInt.to_string_digits 20 (tokenAt input i).position,
          BigInt.isdigit c = true) := by
  obtain ⟨i, hi, hprev, hbreak, hres⟩ := parse_cases input out error h
  have herr : (tokenAt input i).type = TokenType.Invalid →
      (tokenAt input i).error = "invalid character".toList := by
    obtain ⟨_, _, _, _, _, _, _, _, _, _, _, g⟩ := tokenAt_split input i
    exact g
  obtain ⟨p1, p2, p3, p4⟩ := tokenAt_position input i
  rw [hres]
  exact ⟨i, hi, hprev, hbreak, rfl,
    unexpectedMessage_shape (expectedName i) (tokenAt input i) herr, p1, p2, p3, p4⟩

theorem parse_error_position_witness :
    (Parser.parse "1 2 + 3".toList ⟨[], BigInt.nul, []⟩ []).1 = false ∧
    (∃ i, i < 4 ∧ (∀ j, j < i → (tokenAt "1 2 + 3".toList j).type = expectedType j) ∧
      (tokenAt "1 2 + 3".toList i).type ≠ expectedType i ∧
      (Parser.parse "1 2 + 3".toList ⟨[], BigInt.nul, []⟩ []).2.1 = ⟨[], BigInt.nul, []⟩ ∧
      (Parser.parse "1 2 + 3".toList ⟨[], BigInt.nul, []⟩ []).2.2 =
        (if (tokenAt "1 2 + 3".toList i).type = TokenType.End then
            "unexpected end of input".toList
          else if (tokenAt "1 2 + 3".toList i).type = TokenType.Invalid then
            "invalid character".toList
          else "expected ".toList ++ expectedName i) ++
        " at pos ".toList ++ BigInt.to_string_digits 20 (tokenAt "1 2 + 3".toList i).position ∧
      (∃ pre ws tail,
        "1 2 + 3".toList = pre ++ ws ++ (tokenAt "1 2 + 3".toList i).lexeme ++ tail ∧
        pre.length = (lexerAfter "1 2 + 3".toList i).pos_ ∧
        (∀ c ∈ ws, BigInt.isspace c = true) ∧
        (tokenAt "1 2 + 3".toList i).position = pre.length + ws.length) ∧
      ((tokenAt "1 2 + 3".toList i).type = TokenType.End →
        (tokenAt "1 2 + 3".toList i).position = "1 2 + 3".toList.length) ∧
      ((tokenAt "1 2 + 3".toList i).type ≠ TokenType.End →
        (tokenAt "1 2 + 3".toList i).position < "1 2 + 3".toList.length ∧
        ∃ c, (tokenAt "1 2 + 3".toList i).lexeme.head? = some c ∧ BigInt.isspace c = false) ∧
      ("1 2 + 3".toList.length < 2 ^ 64 →
        BigInt.stoul (BigInt.to_string_digits 20 (tokenAt "1 2 + 3".toList i).position) =
          (tokenAt "1 2 + 3".toList i).position ∧
        ∀ c ∈ BigInt.to_string_digits 20 (tokenAt "1 2 + 3".toList i).position,
          BigInt.isdigit c = true)) ∧
    Parser.parse "123".toList ⟨[], BigInt.nul, []⟩ [] =
      (false, ⟨[], BigInt.nul, []⟩, "unexpected end of input at pos 3".toList) ∧
    Parser.parse "1 & 2".toList ⟨[], BigInt.nul, []⟩ [] =
      (false, ⟨[], BigInt.nul, []⟩, "invalid character at pos 2".toList) ∧
    Parser.parse "abc".toList ⟨[], BigInt.nul, []⟩ [] =
      (false, ⟨[], BigInt.nul, []⟩, "invalid character at pos 0".toList) ∧
    Parser.parse "1 + ".toList ⟨[], BigInt.nul, []⟩ [] =
      (false, ⟨[], BigInt.nul, []⟩, "unexpected end of input at pos 4".toList) ∧
    Parser.parse "1 2 + 3".toList ⟨[], BigInt.nul, []⟩ [] =
      (false, ⟨[], BigInt.nul, []⟩, "expected operator at pos 2".toList) :=
  ⟨by decide, parse_error_position "1 2 + 3".toList ⟨[], BigInt.nul, []⟩ [] (by decide),
    by decide, by decide, by decide, by decide, by decide⟩

/-! ## What the parser hands to the core -/

theorem integerLexeme_parts (l : List Char) (h : integerLexeme l) :
    ∃ sg ds, l = [] ++ sg ++ ds ++ [] ∧ (sg = [] ∨ sg = ['+'] ∨ sg = ['-']) ∧
      (∀ c ∈ ds, BigInt.isdigit c = true) ∧ ds ≠ [] := by
  obtain ⟨hne, hd⟩ := h
  cases l with
  | nil => exact absurd rfl hne
  | cons c t =>
    rw [BigInt.afterSign_cons] at hne hd
    by_cases hs : c = '+' ∨ c = '-'
    · rw [if_pos hs] at hne hd
      refine ⟨[c], t, by simp, ?_, hd, hne⟩
      rcases hs with rfl | rfl
      · exact Or.inr (Or.inl rfl)
      · exact Or.inr (Or.inr rfl)
    · rw [if_neg hs] at hne hd
      exact ⟨[], c :: t, by simp, Or.inl rfl, hd, hne⟩

/-- On an integer lexeme `fromString` returns a canonical number. -/
theorem fromString_lexeme (l : List Char) (h : integerLexeme l) :
    ¬ BigInt.malformed l ∧ ∃ v, BigInt.fromString l = .ok v ∧ BigInt.canonical v := by
  obtain ⟨sg, ds, e, hsg, hds, hne⟩ := integerLexeme_parts l h
  obtain ⟨v, hv, hc, _, _⟩ := BigInt.fromString_signed [] sg ds [] (by simp) hsg hds hne (by simp)
  rw [← e] at hv
  refine ⟨?_, v, hv, hc⟩
  intro hm
  obtain ⟨what, hw⟩ := (BigInt.fromString_outcome l).1 hm
  rw [hv] at hw
  cases hw

/-- Claim C17: on every input that `Parser::parse` accepts, `out.lhs` and `out.rhs`
are an optional sign followed by one or more decimal digits, so they are not
malformed and `BigInt::fromString` returns a number for each, and `out.op` is one of
`+`, `-`, `*`, `%`. -/
theorem parsed_operands_wellformed (input : List Char) (out : ParsedExpr) (error : List Char)
    (h : (Parser.parse input out error).1 = true) :
    integerLexeme (Parser.parse input out error).2.1.lhs ∧
    integerLexeme (Parser.parse input out error).2.1.rhs ∧
    isOperator (Parser.parse input out error).2.1.op ∧
    ¬ BigInt.malformed (Parser.parse input out error).2.1.lhs ∧
    ¬ BigInt.malformed (Parser.parse input out error).2.1.rhs ∧
    (∃ v, BigInt.fromString (Parser.parse input out error).2.1.lhs = .ok v ∧
      BigInt.canonical v) ∧
    (∃ v, BigInt.fromString (Parser.parse input out error).2.1.rhs = .ok v ∧
      BigInt.canonical v) := by
  obtain ⟨v0, a, v1, p, v2, b, v3, _, _, _, _, _, g5, g6, g7, _, g9⟩ :=
    form_of_accepted input out error h
  rw [g9]
  exact ⟨g5, g7, g6, (fromString_lexeme a g5).1, (fromString_lexeme b g7).1,
    (fromString_lexeme a g5).2, (fromString_lexeme b g7).2⟩

theorem parsed_operands_wellformed_witness :
    (Parser.parse "   -0012   *   +34 ".toList ⟨[], BigInt.nul, []⟩ []).1 = true ∧
    (integerLexeme (Parser.parse "   -0012   *   +34 ".toList ⟨[], BigInt.nul, []⟩ []).2.1.lhs ∧
    integerLexeme (Parser.parse "   -0012   *   +34 ".toList ⟨[], BigInt.nul, []⟩ []).2.1.rhs ∧
    isOperator (Parser.parse "   -0012   *   +34 ".toList ⟨[], BigInt.nul, []⟩ []).2.1.op ∧
    ¬ BigInt.malformed
      (Parser.parse "   -0012   *   +34 ".toList ⟨[], BigInt.nul, []⟩ []).2.1.lhs ∧
    ¬ BigInt.malformed
      (Parser.parse "   -0012   *   +34 ".toList ⟨[], BigInt.nul, []⟩ []).2.1.rhs ∧
    (∃ v, BigInt.fromString
        (Parser.parse "   -0012   *   +34 ".toList ⟨[], BigInt.nul, []⟩ []).2.1.lhs = .ok v ∧
      BigInt.canonical v) ∧
    (∃ v, BigInt.fromString
        (Parser.parse "   -0012   *   +34 ".toList ⟨[], BigInt.nul, []⟩ []).2.1.rhs = .ok v ∧
      BigInt.canonical v)) ∧
    (Parser.parse "   -0012   *   +34 ".toList ⟨[], BigInt.nul, []⟩ []).2.1 =
      ⟨"-0012".toList, '*', "+34".toList⟩ ∧
    BigInt.fromString "-0012".toList = .ok ⟨-1, [12]⟩ ∧
    BigInt.fromString "+34".toList = .ok ⟨1, [34]⟩ :=
  ⟨by decide,
    parsed_operands_wellformed "   -0012   *   +34 ".toList ⟨[], BigInt.nul, []⟩ [] (by decide),
    by decide, rfl, rfl⟩

namespace BigInt

/-! ## The constructor from a 64-bit integer -/

/-- Claim C21. For every signed 64-bit `v`, the minimum `-2^63` included, the number
built by the constructor `BigInt(int64_t)` is canonical, has value `v`, and is the
number that `fromString` returns on the decimal text of `v`: the two are the same
structure, `operator==` holds between them, and the constructed number renders as
that text. -/
theorem ofInt64_agrees_fromString (v : Int) (hv : isInt64 v) :
    canonical (ofInt64 v) ∧ value (ofInt64 v) = v ∧
    fromString (decimal v) = .ok (ofInt64 v) ∧
    (∀ w, fromString (decimal v) = .ok w → eq (ofInt64 v) w = true) ∧
    toString (ofInt64 v) = decimal v := by
  obtain ⟨hc, hval⟩ := ofInt64_spec v hv.1 hv.2
  obtain ⟨w, f1, f2, f3, f4⟩ := decimal_parse v (isInt64_natAbs v hv)
  have he : w = ofInt64 v := canonical_ext w (ofInt64 v) f2 hc (by rw [f3, hval])
  rw [he] at f1 f4
  refine ⟨hc, hval, f1, ?_, f4⟩
  intro w2 h2
  rw [f1] at h2
  injection h2 with h3
  exact eq_of_structural _ _ h3

theorem ofInt64_agrees_fromString_witness :
    isInt64 (-9223372036854775808) ∧
    (canonical (ofInt64 (-9223372036854775808)) ∧
      value (ofInt64 (-9223372036854775808)) = -9223372036854775808 ∧
      fromString (decimal (-9223372036854775808)) = .ok (ofInt64 (-9223372036854775808)) ∧
      (∀ w, fromString (decimal (-9223372036854775808)) = .ok w →
        eq (ofInt64 (-9223372036854775808)) w = true) ∧
      toString (ofInt64 (-9223372036854775808)) = decimal (-9223372036854775808)) ∧
    ofInt64 (-9223372036854775808) = ⟨-1, [854775808, 223372036, 9]⟩ ∧
    decimal (-9223372036854775808) = "-9223372036854775808".toList ∧
    ofInt64 0 = ⟨0, []⟩ ∧ ofInt64 9223372036854775807 = ⟨1, [854775807, 223372036, 9]⟩ :=
  ⟨by decide, ofInt64_agrees_fromString (-9223372036854775808) (by decide), by decide,
    by decide, by decide, by decide⟩

end BigInt
